import Mathlib

/-!
Page cache core: extendible hash directory, LRU replacer, buffer pool manager

Shallow embedding of `src/hash/extendible_hash.cpp`, `src/buffer/lru_replacer.cpp`
and `src/buffer/buffer_pool_manager.cpp`.

Conventions of the embedding.
* A `std::shared_ptr<Bucket>` is an index into the list `heap` of all buckets ever
  created by `std::make_shared`; writing through the pointer rewrites that heap cell,
  so every directory entry holding the same pointer sees the change.
* A `Page *` is the index of the frame inside `pages_`.
* A `std::list<T>::iterator` is the identity (a natural number) of a list node; node
  identities are never reused, so an iterator to an erased node matches no node.
* Mutexes are not modelled: every public operation runs to completion under its latch.
* `size_t` hashes are natural numbers, depths and masks are natural numbers
  (`1 << n` is `2 ^ n`; an `int` shift only leaves the `int` range at depth 31, with a
  directory of `2 ^ 31` pointers), `pin_count_` is an unbounded integer.
* A result `none` of an operation that returns `Option` at top level means that the
  source does not return a value there: its loop runs out of the given fuel, or it
  dereferences an iterator whose node is gone.
-/

set_option linter.unusedSectionVars false
set_option maxRecDepth 4000

namespace cmudb

/-! ## Extendible hash (`src/hash/extendible_hash.cpp`) -/

/-- Bucket of the table (`struct Bucket` of `extendible_hash.h`). -/
structure Bucket (K V : Type) where
  local_depth_ : Nat
  slots_ : List (K × V)
deriving DecidableEq, Repr

/-- State of `ExtendibleHash<K, V>`: `buckets_` is the directory of shared pointers,
`heap` the buckets they point into. -/
structure ExtendibleHash (K V : Type) where
  heap : List (Bucket K V)
  buckets_ : List Nat
  bucket_size_ : Nat
  global_depth_ : Nat
deriving DecidableEq, Repr

namespace ExtendibleHash

variable {K V : Type} [DecidableEq K]

/-- Constructor `ExtendibleHash(size)`: depth 0 and one empty bucket of local depth 0. -/
def new (size : Nat) : ExtendibleHash K V :=
  { heap := [⟨0, []⟩], buckets_ := [0], bucket_size_ := size, global_depth_ := 0 }

/-- Dereference of a bucket pointer. -/
def deref (h : ExtendibleHash K V) (p : Nat) : Bucket K V :=
  h.heap.getD p ⟨0, []⟩

/-- Directory access `buckets_.at(i)`. -/
def dirAt (h : ExtendibleHash K V) (i : Nat) : Nat :=
  h.buckets_.getD i 0

/-- The source's `GetGlobalDepth`. -/
def GetGlobalDepth (h : ExtendibleHash K V) : Nat :=
  h.global_depth_

/-- The source's `GetLocalDepth(bucket_id)`. -/
def GetLocalDepth (h : ExtendibleHash K V) (bucket_id : Nat) : Nat :=
  (h.deref (h.dirAt bucket_id)).local_depth_

/-- The source's `GetNumBuckets`: the size of the directory vector. -/
def GetNumBuckets (h : ExtendibleHash K V) : Nat :=
  h.buckets_.length

/-- The source's `GetBucketIndex`: `HashKey(k) & ((1 << global_depth_) - 1)`. -/
def GetBucketIndex (HashKey : K → Nat) (h : ExtendibleHash K V) (k : K) : Nat :=
  HashKey k &&& ((1 <<< h.global_depth_) - 1)

/-- The source's `Find`: linear scan of the target bucket; `none` is the result `false`. -/
def Find (HashKey : K → Nat) (h : ExtendibleHash K V) (key : K) : Option V :=
  let bucket_idx := GetBucketIndex HashKey h key
  let bucket := h.dirAt bucket_idx
  let slots := (h.deref bucket).slots_
  (slots.find? (fun slot => decide (slot.1 = key))).map Prod.snd

/-- The source's `Remove`: erases the first slot of the target bucket whose key matches
and returns whether there was one. -/
def Remove (HashKey : K → Nat) (h : ExtendibleHash K V) (key : K) :
    Bool × ExtendibleHash K V :=
  let bucket_idx := GetBucketIndex HashKey h key
  let bucket := h.dirAt bucket_idx
  let b := h.deref bucket
  if b.slots_.any (fun slot => decide (slot.1 = key)) then
    let slots := b.slots_.eraseP (fun slot => decide (slot.1 = key))
    (true, { h with heap := h.heap.set bucket ⟨b.local_depth_, slots⟩ })
  else
    (false, h)

/-- First loop of `Insert`: the first slot with the key gets the new value. -/
def overwrite (key : K) (value : V) : List (K × V) → List (K × V)
  | [] => []
  | slot :: rest =>
    if slot.1 = key then (slot.1, value) :: rest else slot :: overwrite key value rest

/-- Rewire loop of `Insert`:
`for (i = start; i < buckets_.size(); i += mask) buckets_[i] = (i & mask) ? first : second`.
The first argument bounds the number of iterations. -/
def rewire (mask first second : Nat) : Nat → Nat → List Nat → List Nat
  | 0, _, dir => dir
  | fuel + 1, i, dir =>
    if i < dir.length then
      rewire mask first second fuel (i + mask)
        (dir.set i (if i &&& mask ≠ 0 then first else second))
    else dir

/-- Body of the `while` loop of `Insert`: doubling of the directory when the target
bucket is at global depth, split of the target bucket in two new buckets, rewiring. -/
def splitStep (HashKey : K → Nat) (h : ExtendibleHash K V) (key : K) :
    ExtendibleHash K V :=
  let bucket := h.deref (h.dirAt (GetBucketIndex HashKey h key))
  let doubled := decide (bucket.local_depth_ = h.global_depth_)
  let global_depth := if doubled then h.global_depth_ + 1 else h.global_depth_
  let buckets := if doubled then h.buckets_ ++ h.buckets_ else h.buckets_
  let local_depth := bucket.local_depth_ + 1
  let mask := 1 <<< (local_depth - 1)
  let old_values := bucket.slots_
  let first := h.heap.length
  let second := h.heap.length + 1
  { heap := h.heap ++
      [⟨local_depth, old_values.filter (fun it => decide (mask &&& HashKey it.1 ≠ 0))⟩,
       ⟨local_depth, old_values.filter (fun it => !decide (mask &&& HashKey it.1 ≠ 0))⟩]
    buckets_ := rewire mask first second buckets.length (HashKey key &&& (mask - 1)) buckets
    bucket_size_ := h.bucket_size_
    global_depth_ := global_depth }

/-- The `while (bucket->slots_.size() >= bucket_size_)` loop of `Insert`, with fuel:
`none` when the fuel does not suffice to leave the loop. -/
def InsertLoop (HashKey : K → Nat) (key : K) :
    Nat → ExtendibleHash K V → Option (ExtendibleHash K V)
  | 0, _ => none
  | fuel + 1, h =>
    let bucket := h.deref (h.dirAt (GetBucketIndex HashKey h key))
    if bucket.slots_.length ≥ h.bucket_size_ then
      InsertLoop HashKey key fuel (splitStep HashKey h key)
    else some h

/-- The source's `Insert`: overwrite when the key is in its bucket, otherwise split
until the target bucket has room and append the slot. `none`: the loop does not end
within `fuel` tests of its condition. -/
def Insert (HashKey : K → Nat) (fuel : Nat) (h : ExtendibleHash K V) (key : K) (value : V) :
    Option (ExtendibleHash K V) :=
  let bucket := h.dirAt (GetBucketIndex HashKey h key)
  let b := h.deref bucket
  if b.slots_.any (fun slot => decide (slot.1 = key)) then
    some { h with heap := h.heap.set bucket ⟨b.local_depth_, overwrite key value b.slots_⟩ }
  else
    (InsertLoop HashKey key fuel h).map fun h1 =>
      let bucket1 := h1.dirAt (GetBucketIndex HashKey h1 key)
      let b1 := h1.deref bucket1
      { h1 with heap := h1.heap.set bucket1 ⟨b1.local_depth_, b1.slots_ ++ [(key, value)]⟩ }

end ExtendibleHash

/-! ## LRU replacer (`src/buffer/lru_replacer.cpp`) -/

/-- State of `LRUReplacer<T>`: `_queue_fifo` lists the nodes (identity, value) from front
to back, `_cache` holds the entries (value, iterator) of the `unordered_map`, `fresh`
is the identity the next allocated node gets. -/
structure LRUReplacer (T : Type) where
  _queue_fifo : List (Nat × T)
  _cache : List (T × Nat)
  fresh : Nat
deriving DecidableEq, Repr

namespace LRUReplacer

variable {T : Type} [DecidableEq T]

/-- Constructor `LRUReplacer()`: empty list and empty index. -/
def new : LRUReplacer T :=
  { _queue_fifo := [], _cache := [], fresh := 0 }

/-- Lookup `_cache.find(value)`: the iterator stored for the value, if any. -/
def cacheFind (r : LRUReplacer T) (value : T) : Option Nat :=
  (r._cache.find? (fun e => decide (e.1 = value))).map Prod.snd

/-- Call `_cache.emplace(value, it)`: inserts only when the key is not yet in the map. -/
def cacheEmplace (cache : List (T × Nat)) (value : T) (it : Nat) : List (T × Nat) :=
  if cache.any (fun e => decide (e.1 = value)) then cache else (value, it) :: cache

/-- Removal of the entry of a key from `_cache` (`erase` by key or by position). -/
def cacheErase (cache : List (T × Nat)) (value : T) : List (T × Nat) :=
  cache.filter (fun e => !decide (e.1 = value))

/-- Call `_queue_fifo.erase(it)`: unlinks the node with that identity; `none` when no
node of the list has it (the iterator is invalid). -/
def listErase (it : Nat) (queue : List (Nat × T)) : Option (List (Nat × T)) :=
  if queue.any (fun node => decide (node.1 = it)) then
    some (queue.eraseP (fun node => decide (node.1 = it)))
  else none

/-- The source's `Insert`. -/
def Insert (r : LRUReplacer T) (value : T) : Option (LRUReplacer T) :=
  let pos := r.cacheFind value
  let erased := match pos with
    | some it => listErase it r._queue_fifo
    | none => some r._queue_fifo
  erased.map fun queue =>
    { _queue_fifo := (r.fresh, value) :: queue
      _cache := cacheEmplace r._cache value r.fresh
      fresh := r.fresh + 1 }

/-- The source's `Victim`: `some (none, _)` is the result `false`, `some (some v, _)` the
result `true` with `value = v`. -/
def Victim (r : LRUReplacer T) : Option (Option T × LRUReplacer T) :=
  if r._cache.isEmpty then some (none, r)
  else
    match r._queue_fifo.getLast? with
    | none => none
    | some node =>
      some (some node.2,
        { _queue_fifo := r._queue_fifo.dropLast
          _cache := cacheErase r._cache node.2
          fresh := r.fresh })

/-- The source's `Erase`. -/
def Erase (r : LRUReplacer T) (value : T) : Option (Bool × LRUReplacer T) :=
  match r.cacheFind value with
  | none => some (false, r)
  | some it =>
    (listErase it r._queue_fifo).map fun queue =>
      (true, { _queue_fifo := queue, _cache := cacheErase r._cache value, fresh := r.fresh })

/-- The source's `Size`: `_cache.size()`. -/
def Size (r : LRUReplacer T) : Nat :=
  r._cache.length

end LRUReplacer

/-! ## Buffer pool manager (`src/buffer/buffer_pool_manager.cpp`) -/

/-- Modelled from the spec: `page_id_t` and `INVALID_PAGE_ID` of `common/config.h`, which
is not among the sources; page identifiers are 32-bit signed integers and the sentinel
is negative. -/
def INVALID_PAGE_ID : Int := -1

/-- Modelled from the spec: the range of `page_id_t` (a 32-bit signed integer). -/
def isPageId (page_id : Int) : Prop :=
  -2 ^ 31 ≤ page_id ∧ page_id < 2 ^ 31

instance (page_id : Int) : Decidable (isPageId page_id) := by
  unfold isPageId; infer_instance

/-- Modelled from the spec: `std::hash<page_id_t>`, the conversion of the identifier to
`size_t` (the value modulo `2 ^ 64`). -/
def HashKey (key : Int) : Nat :=
  (key % 2 ^ 64).toNat

/-- Modelled from the spec: the frame of `page/page.h`, which is not among the sources:
buffer, page id, pin count and dirty flag (section 3 of the specification). -/
structure Page where
  data_ : List Nat
  page_id_ : Int
  pin_count_ : Int
  is_dirty_ : Bool
deriving DecidableEq, Repr

/-- Modelled from the spec: a frame as the pool creates it, zeroed buffer of `PAGE_SIZE`
bytes, no page, not pinned, clean. -/
def Page.new (PAGE_SIZE : Nat) : Page :=
  { data_ := List.replicate PAGE_SIZE 0, page_id_ := INVALID_PAGE_ID, pin_count_ := 0,
    is_dirty_ := false }

/-- Modelled from the spec: `Page::ResetMemory`, which zeroes the buffer. -/
def Page.ResetMemory (page : Page) : Page :=
  { page with data_ := List.replicate page.data_.length 0 }

/-- Modelled from the spec: a call made to the external disk manager (section 6 of the
specification); `AllocatePage` carries the identifier the disk manager returned. -/
inductive DiskCall where
  | ReadPage (page_id : Int)
  | WritePage (page_id : Int) (data : List Nat)
  | AllocatePage (page_id : Int)
  | DeallocatePage (page_id : Int)
deriving DecidableEq, Repr

/-- State of `BufferPoolManager`. `disk_manager_` is the sequence of calls made to the
disk manager so far, oldest first; what the disk manager answers is an argument of the
operation that asks. The log manager is never called and is left out. -/
structure BufferPoolManager where
  pool_size_ : Nat
  pages_ : List Page
  page_table_ : ExtendibleHash Int Nat
  replacer_ : LRUReplacer Nat
  free_list_ : List Nat
  disk_manager_ : List DiskCall
deriving DecidableEq, Repr

namespace BufferPoolManager

/-- Constructor: `pool_size` fresh frames, all of them in the free list, an empty page
table of bucket size `BUCKET_SIZE` and an empty replacer. -/
def new (pool_size PAGE_SIZE BUCKET_SIZE : Nat) : BufferPoolManager :=
  { pool_size_ := pool_size
    pages_ := List.replicate pool_size (Page.new PAGE_SIZE)
    page_table_ := ExtendibleHash.new BUCKET_SIZE
    replacer_ := LRUReplacer.new
    free_list_ := List.range pool_size
    disk_manager_ := [] }

/-- Dereference of a `Page *`. -/
def pageAt (bpm : BufferPoolManager) (page : Nat) : Page :=
  bpm.pages_.getD page (Page.new 0)

/-- Number of condition tests granted to the split loop of the page table; hashes are
`size_t` values, so two different ones are told apart by one of their 64 low bits. -/
def INSERT_FUEL : Nat := 65

/-- The source's `SelectFreePage`: front of the free list, else the replacer's victim,
written back when dirty and removed from the page table. -/
def SelectFreePage (bpm : BufferPoolManager) : Option (Option Nat × BufferPoolManager) :=
  match bpm.free_list_ with
  | page :: rest => some (some page, { bpm with free_list_ := rest })
  | [] =>
    match bpm.replacer_.Victim with
    | none => none
    | some (none, replacer) => some (none, { bpm with replacer_ := replacer })
    | some (some page, replacer) =>
      let pg := bpm.pageAt page
      let written := pg.is_dirty_
      let disk := if written then bpm.disk_manager_ ++ [DiskCall.WritePage pg.page_id_ pg.data_]
        else bpm.disk_manager_
      let pages := if written then bpm.pages_.set page { pg with is_dirty_ := false }
        else bpm.pages_
      let table := (ExtendibleHash.Remove HashKey bpm.page_table_ pg.page_id_).2
      some (some page,
        { bpm with pages_ := pages, page_table_ := table, replacer_ := replacer,
                   disk_manager_ := disk })

/-- The source's `FetchPage`; `disk_data` is what `ReadPage` delivers into the buffer. -/
def FetchPage (bpm : BufferPoolManager) (page_id : Int) (disk_data : List Nat) :
    Option (Option Nat × BufferPoolManager) :=
  match ExtendibleHash.Find HashKey bpm.page_table_ page_id with
  | some page =>
    let pg := bpm.pageAt page
    let pages := bpm.pages_.set page { pg with pin_count_ := pg.pin_count_ + 1 }
    (bpm.replacer_.Erase page).map fun res =>
      (some page, { bpm with pages_ := pages, replacer_ := res.2 })
  | none =>
    match bpm.SelectFreePage with
    | none => none
    | some (none, bpm1) => some (none, bpm1)
    | some (some page, bpm1) =>
      let pg := bpm1.pageAt page
      let pg1 := { pg with page_id_ := page_id, pin_count_ := pg.pin_count_ + 1,
                           data_ := disk_data }
      (ExtendibleHash.Insert HashKey INSERT_FUEL bpm1.page_table_ page_id page).map fun table =>
        (some page,
          { bpm1 with pages_ := bpm1.pages_.set page pg1, page_table_ := table,
                      disk_manager_ := bpm1.disk_manager_ ++ [DiskCall.ReadPage page_id] })

/-- The source's `UnpinPage`. -/
def UnpinPage (bpm : BufferPoolManager) (page_id : Int) (is_dirty : Bool) :
    Option (Bool × BufferPoolManager) :=
  match ExtendibleHash.Find HashKey bpm.page_table_ page_id with
  | none => some (false, bpm)
  | some page =>
    let pg := bpm.pageAt page
    if pg.pin_count_ ≤ 0 then some (false, bpm)
    else
      let pin_count := pg.pin_count_ - 1
      let inserted := if pin_count = 0 then bpm.replacer_.Insert page else some bpm.replacer_
      inserted.map fun replacer =>
        let pg1 := { pg with pin_count_ := pin_count,
                             is_dirty_ := if is_dirty then is_dirty else pg.is_dirty_ }
        (true, { bpm with pages_ := bpm.pages_.set page pg1, replacer_ := replacer })

/-- The source's `FlushPage`. -/
def FlushPage (bpm : BufferPoolManager) (page_id : Int) : Bool × BufferPoolManager :=
  if page_id = INVALID_PAGE_ID then (false, bpm)
  else
    match ExtendibleHash.Find HashKey bpm.page_table_ page_id with
    | none => (false, bpm)
    | some page =>
      let pg := bpm.pageAt page
      (true,
        { bpm with pages_ := bpm.pages_.set page { pg with is_dirty_ := false },
                   disk_manager_ := bpm.disk_manager_ ++ [DiskCall.WritePage page_id pg.data_] })

/-- The source's `DeletePage`; its last statement is `return false`. -/
def DeletePage (bpm : BufferPoolManager) (page_id : Int) :
    Option (Bool × BufferPoolManager) :=
  match ExtendibleHash.Find HashKey bpm.page_table_ page_id with
  | none => some (false, bpm)
  | some page =>
    let pg := bpm.pageAt page
    if pg.pin_count_ ≠ 0 then some (false, bpm)
    else
      let table := (ExtendibleHash.Remove HashKey bpm.page_table_ page_id).2
      (bpm.replacer_.Erase page).map fun res =>
        let pg1 := { ({ pg with page_id_ := INVALID_PAGE_ID } : Page).ResetMemory with
                     is_dirty_ := false }
        (false,
          { bpm with pages_ := bpm.pages_.set page pg1, page_table_ := table,
                     replacer_ := res.2, free_list_ := bpm.free_list_ ++ [page],
                     disk_manager_ := bpm.disk_manager_ ++ [DiskCall.DeallocatePage page_id] })

/-- The source's `NewPage`; `allocated` is the identifier `AllocatePage` returns, which
is also the value of the out-parameter `page_id` when a frame is returned. -/
def NewPage (bpm : BufferPoolManager) (allocated : Int) :
    Option (Option Nat × BufferPoolManager) :=
  match bpm.SelectFreePage with
  | none => none
  | some (none, bpm1) => some (none, bpm1)
  | some (some page, bpm1) =>
    let pg := bpm1.pageAt page
    let pg1 := { ({ pg with page_id_ := allocated } : Page).ResetMemory with
                 pin_count_ := pg.pin_count_ + 1 }
    (ExtendibleHash.Insert HashKey INSERT_FUEL bpm1.page_table_ allocated page).map fun table =>
      (some page,
        { bpm1 with pages_ := bpm1.pages_.set page pg1, page_table_ := table,
                    disk_manager_ := bpm1.disk_manager_ ++ [DiskCall.AllocatePage allocated] })

end BufferPoolManager

end cmudb

/-! ## Predicates and auxiliary functions of the verification -/

namespace cmudb

/-- Value of the first slot with the key: what the scan of `Find` delivers. -/
def slotFind {K V : Type} [DecidableEq K] (key : K) (slots : List (K × V)) : Option V :=
  (slots.find? (fun slot => decide (slot.1 = key))).map Prod.snd

namespace ExtendibleHash

variable {K V : Type} [DecidableEq K]

/-- Bucket a directory entry points to. -/
def bucketAt (h : ExtendibleHash K V) (i : Nat) : Bucket K V :=
  h.deref (h.dirAt i)

/-- Well-formedness of the directory: its length is `2 ^ global_depth_`, every entry
points into the heap at a bucket whose local depth is at most the global depth, two
entries share a bucket exactly when they agree on the low local-depth bits, the hash of
every stored key agrees with the index of its bucket on these bits, and no bucket holds
a key twice. -/
structure WF (HashKey : K → Nat) (h : ExtendibleHash K V) : Prop where
  len : h.buckets_.length = 2 ^ h.global_depth_
  ptr : ∀ i, i < 2 ^ h.global_depth_ → h.dirAt i < h.heap.length
  depth : ∀ i, i < 2 ^ h.global_depth_ → (h.bucketAt i).local_depth_ ≤ h.global_depth_
  share : ∀ i j, i < 2 ^ h.global_depth_ → j < 2 ^ h.global_depth_ →
    (h.dirAt i = h.dirAt j ↔
      i % 2 ^ (h.bucketAt i).local_depth_ = j % 2 ^ (h.bucketAt i).local_depth_)
  keys : ∀ i, i < 2 ^ h.global_depth_ → ∀ slot ∈ (h.bucketAt i).slots_,
    HashKey slot.1 % 2 ^ (h.bucketAt i).local_depth_ = i % 2 ^ (h.bucketAt i).local_depth_
  nodup : ∀ i, i < 2 ^ h.global_depth_ → ((h.bucketAt i).slots_.map Prod.fst).Nodup

/-- Table in which the bucket of directory entry `i` is replaced by `b`. -/
def setBucket (h : ExtendibleHash K V) (i : Nat) (b : Bucket K V) : ExtendibleHash K V :=
  { h with heap := h.heap.set (h.dirAt i) b }

/-- First half of the loop body of `Insert`: the directory doubled. -/
def doubled (h : ExtendibleHash K V) : ExtendibleHash K V :=
  { h with buckets_ := h.buckets_ ++ h.buckets_, global_depth_ := h.global_depth_ + 1 }

/-- Second half of the loop body of `Insert`: the target bucket split and rewired. -/
def splitOnly (HashKey : K → Nat) (h : ExtendibleHash K V) (key : K) : ExtendibleHash K V :=
  let bucket := h.bucketAt (GetBucketIndex HashKey h key)
  let l := bucket.local_depth_
  { heap := h.heap ++
      [⟨l + 1, bucket.slots_.filter (fun it => decide (1 <<< l &&& HashKey it.1 ≠ 0))⟩,
       ⟨l + 1, bucket.slots_.filter (fun it => !decide (1 <<< l &&& HashKey it.1 ≠ 0))⟩]
    buckets_ := rewire (1 <<< l) h.heap.length (h.heap.length + 1) h.buckets_.length
      (HashKey key &&& (1 <<< l - 1)) h.buckets_
    bucket_size_ := h.bucket_size_
    global_depth_ := h.global_depth_ }

end ExtendibleHash

namespace LRUReplacer

variable {T : Type} [DecidableEq T]

/-- The values the replacer holds, most recently inserted first. -/
def values (r : LRUReplacer T) : List T :=
  r._queue_fifo.map Prod.snd

/-- Consistency of the replacer: node identities and values of the list are pairwise
different, the index has one entry per key, it maps exactly the values of the list, each
to the node that holds it, and all node identities in use are below `fresh`. -/
structure WF (r : LRUReplacer T) : Prop where
  ids : (r._queue_fifo.map Prod.fst).Nodup
  vals : (r._queue_fifo.map Prod.snd).Nodup
  keys : (r._cache.map Prod.fst).Nodup
  index : ∀ v n, (v, n) ∈ r._cache ↔ (n, v) ∈ r._queue_fifo
  below : ∀ node ∈ r._queue_fifo, node.1 < r.fresh

/-- The replacer without the node `n` that holds the value `v`. -/
def without (r : LRUReplacer T) (n : Nat) (v : T) : LRUReplacer T :=
  { _queue_fifo := r._queue_fifo.filter (fun node => !decide (node.1 = n))
    _cache := cacheErase r._cache v
    fresh := r.fresh }

end LRUReplacer

namespace BufferPoolManager

/-- Invariant of the pool, up to a set `H` of frames that are being rebound (taken from
the free list or the replacer and not yet entered in the page table). Outside `H`, a
frame is pinned exactly when it is neither free nor in the replacer, the page table maps
the page id of every frame that is not free to that frame, and only to such frames. -/
structure InvX (s : BufferPoolManager) (H : Nat → Prop) : Prop where
  len : s.pages_.length = s.pool_size_
  table : ExtendibleHash.WF HashKey s.page_table_
  bsize : 0 < s.page_table_.bucket_size_
  repl : s.replacer_.WF
  free_nodup : s.free_list_.Nodup
  free_lt : ∀ i ∈ s.free_list_, i < s.pool_size_
  repl_lt : ∀ i ∈ s.replacer_.values, i < s.pool_size_
  pin_nonneg : ∀ i, i < s.pool_size_ → 0 ≤ (s.pageAt i).pin_count_
  disjoint : ∀ i ∈ s.free_list_, i ∉ s.replacer_.values
  pinned_iff : ∀ i, i < s.pool_size_ → ¬ H i →
    (0 < (s.pageAt i).pin_count_ ↔ i ∉ s.free_list_ ∧ i ∉ s.replacer_.values)
  dir : ∀ k i, ExtendibleHash.Find HashKey s.page_table_ k = some i →
    i < s.pool_size_ ∧ i ∉ s.free_list_ ∧ ¬ H i ∧ (s.pageAt i).page_id_ = k
  resident : ∀ i, i < s.pool_size_ → ¬ H i → i ∉ s.free_list_ →
    ExtendibleHash.Find HashKey s.page_table_ (s.pageAt i).page_id_ = some i
  ids : ∀ k i, ExtendibleHash.Find HashKey s.page_table_ k = some i → isPageId k
  free_page : ∀ i ∈ s.free_list_,
    (s.pageAt i).is_dirty_ = false ∧ (s.pageAt i).page_id_ = INVALID_PAGE_ID
  hole : ∀ i, H i → i < s.pool_size_ ∧ i ∉ s.free_list_ ∧ i ∉ s.replacer_.values ∧
    (s.pageAt i).pin_count_ = 0 ∧ (s.pageAt i).is_dirty_ = false

/-- Invariant of the pool between two public operations. -/
def Inv (s : BufferPoolManager) : Prop :=
  InvX s (fun _ => False)

/-- State of the pool inside `FetchPage` and `NewPage`, after `SelectFreePage` returned the
frame `f`. -/
def Limbo (s : BufferPoolManager) (f : Nat) : Prop :=
  InvX s (fun i => i = f)

/-- State after `SelectFreePage` took `page` from the replacer, which became `replacer`. -/
def evicted (s : BufferPoolManager) (page : Nat) (replacer : LRUReplacer Nat) :
    BufferPoolManager :=
  { s with
    pages_ := if (s.pageAt page).is_dirty_ then
        s.pages_.set page { s.pageAt page with is_dirty_ := false }
      else s.pages_
    page_table_ := (ExtendibleHash.Remove HashKey s.page_table_ (s.pageAt page).page_id_).2
    replacer_ := replacer
    disk_manager_ := if (s.pageAt page).is_dirty_ then
        s.disk_manager_ ++ [DiskCall.WritePage (s.pageAt page).page_id_ (s.pageAt page).data_]
      else s.disk_manager_ }

/-- State after the frame `page` taken by `SelectFreePage` got the contents `pg1`, was
entered in the page table, which became `table`, and `call` went to the disk manager. -/
def bound (s : BufferPoolManager) (page : Nat) (pg1 : Page) (table : ExtendibleHash Int Nat)
    (call : DiskCall) : BufferPoolManager :=
  { s with pages_ := s.pages_.set page pg1, page_table_ := table,
           disk_manager_ := s.disk_manager_ ++ [call] }

/-- Contents `FetchPage` gives the frame it binds: the page id, one more pin, the bytes
read from disk. -/
def fetched (pg : Page) (page_id : Int) (disk_data : List Nat) : Page :=
  { pg with page_id_ := page_id, pin_count_ := pg.pin_count_ + 1, data_ := disk_data }

/-- Contents `NewPage` gives the frame it binds: the page id, zeroed memory, one more pin. -/
def created (pg : Page) (allocated : Int) : Page :=
  { ({ pg with page_id_ := allocated } : Page).ResetMemory with
    pin_count_ := pg.pin_count_ + 1 }

/-- Contents `DeletePage` leaves in the frame it frees: no page, zeroed memory, clean. -/
def deleted (pg : Page) : Page :=
  { ({ pg with page_id_ := INVALID_PAGE_ID } : Page).ResetMemory with is_dirty_ := false }

/-- The states of the pool reachable from a freshly constructed pool, whose page table
has a bucket size of at least one, by calls of the five public operations that return.
Page identifiers passed to `FetchPage` and returned by `AllocatePage` are 32-bit, and
`AllocatePage` never returns an identifier that is resident when `NewPage` is called. -/
inductive Reachable : BufferPoolManager → Prop
  | init (pool_size PAGE_SIZE BUCKET_SIZE : Nat) (hb : 0 < BUCKET_SIZE) :
      Reachable (BufferPoolManager.new pool_size PAGE_SIZE BUCKET_SIZE)
  | fetch {s s1 : BufferPoolManager} (page_id : Int) (disk_data : List Nat)
      (res : Option Nat) (hs : Reachable s) (hid : isPageId page_id)
      (hr : s.FetchPage page_id disk_data = some (res, s1)) : Reachable s1
  | unpin {s s1 : BufferPoolManager} (page_id : Int) (is_dirty : Bool) (res : Bool)
      (hs : Reachable s) (hr : s.UnpinPage page_id is_dirty = some (res, s1)) : Reachable s1
  | flush {s : BufferPoolManager} (page_id : Int) (hs : Reachable s) :
      Reachable (s.FlushPage page_id).2
  | newPage {s s1 : BufferPoolManager} (allocated : Int) (res : Option Nat)
      (hs : Reachable s) (hid : isPageId allocated)
      (hfresh : ExtendibleHash.Find HashKey s.page_table_ allocated = none)
      (hr : s.NewPage allocated = some (res, s1)) : Reachable s1
  | delete {s s1 : BufferPoolManager} (page_id : Int) (res : Bool)
      (hs : Reachable s) (hr : s.DeletePage page_id = some (res, s1)) : Reachable s1

/-- Number of frames whose pin count is positive. -/
def pinnedCount (s : BufferPoolManager) : Nat :=
  ((List.range s.pool_size_).filter (fun i => decide (0 < (s.pageAt i).pin_count_))).length

/-- State an operation leaves, for the operations that return a result and a state. -/
def stateOf {α : Type} (r : Option (α × BufferPoolManager)) : BufferPoolManager :=
  match r with
  | some (_, s) => s
  | none => BufferPoolManager.new 0 0 0

end BufferPoolManager

/-! ## Scenarios of section 8 of the specification (`pool_size = 3`, `bucket_size = 2`) -/

namespace Scenario

open BufferPoolManager

/-- Fresh pool of three frames, pages of two bytes, buckets of two slots. -/
def pool : BufferPoolManager := BufferPoolManager.new 3 2 2

/-- Scenario 2: fetch 1. -/
def a1 : BufferPoolManager := stateOf (pool.FetchPage 1 [11, 12])

/-- Scenario 2: fetch 1, unpin 1 dirty. -/
def a2 : BufferPoolManager := stateOf (a1.UnpinPage 1 true)

/-- Scenario 2: fetch 1, unpin 1 dirty, fetch 2. -/
def a3 : BufferPoolManager := stateOf (a2.FetchPage 2 [21, 22])

/-- Scenario 2: fetch 1, unpin 1 dirty, fetch 2, fetch 3. -/
def a4 : BufferPoolManager := stateOf (a3.FetchPage 3 [31, 32])

/-- Scenario 1: fetch 1, fetch 2. -/
def b2 : BufferPoolManager := stateOf (a1.FetchPage 2 [21, 22])

/-- Scenario 1: fetch 1, fetch 2, fetch 3, no unpin. -/
def b3 : BufferPoolManager := stateOf (b2.FetchPage 3 [31, 32])

/-- Scenario 3: one `NewPage`, the disk manager allocating 0. -/
def c1 : BufferPoolManager := stateOf (pool.NewPage 0)

/-- Scenario 3: two `NewPage`, the disk manager allocating 0, 1. -/
def c2 : BufferPoolManager := stateOf (c1.NewPage 1)

/-- Scenario 3: three `NewPage`, the disk manager allocating 0, 1, 2. -/
def c3 : BufferPoolManager := stateOf (c2.NewPage 2)

/-- Scenario 6: fetch 5. -/
def d1 : BufferPoolManager := stateOf (pool.FetchPage 5 [51, 52])

/-- Scenario 6: fetch 5, unpin 5. -/
def d2 : BufferPoolManager := stateOf (d1.UnpinPage 5 false)

end Scenario

end cmudb

/-! ## Reachable tables and replacers, and their scenarios -/

namespace cmudb

namespace ExtendibleHash

variable {K V : Type} [DecidableEq K]

/-- The tables reachable from a freshly constructed table by calls of `Insert` that
return and calls of `Remove`. -/
inductive Reachable (HashKey : K → Nat) : ExtendibleHash K V → Prop
  | init (size : Nat) : Reachable HashKey (ExtendibleHash.new size)
  | insert {h h1 : ExtendibleHash K V} (fuel : Nat) (key : K) (value : V)
      (hr : Reachable HashKey h) (hi : Insert HashKey fuel h key value = some h1) :
      Reachable HashKey h1
  | remove {h : ExtendibleHash K V} (key : K) (hr : Reachable HashKey h) :
      Reachable HashKey (Remove HashKey h key).2

/-- Number of directory entries that point to the bucket directory entry `i` points to. -/
def pointing (h : ExtendibleHash K V) (i : Nat) : Nat :=
  ((List.range h.buckets_.length).filter (fun j => decide (h.dirAt j = h.dirAt i))).length

/-- Table after `n` executions of the body of the loop of `Insert` for `key`. -/
def splitTimes (HashKey : K → Nat) (key : K) (n : Nat) (h : ExtendibleHash K V) :
    ExtendibleHash K V :=
  (fun t => splitStep HashKey t key)^[n] h

/-- Successive calls of `Insert`, one for each pair of the list. -/
def insertAll (HashKey : K → Nat) (fuel : Nat) :
    List (K × V) → ExtendibleHash K V → Option (ExtendibleHash K V)
  | [], h => some h
  | (key, value) :: rest, h =>
    match Insert HashKey fuel h key value with
    | none => none
    | some h1 => insertAll HashKey fuel rest h1

end ExtendibleHash

namespace LRUReplacer

variable {T : Type} [DecidableEq T]

/-- Successive calls of `Insert`, one for each value of the list. -/
def insertAll : List T → LRUReplacer T → Option (LRUReplacer T)
  | [], r => some r
  | value :: rest, r =>
    match r.Insert value with
    | none => none
    | some r1 => insertAll rest r1

end LRUReplacer

namespace Scenario

/-- Scenario 4: integer keys hashed by the identity. -/
def identityHash (key : Nat) : Nat := key

/-- Scenario 4: the keys 0, ..., 6, each with ten times the key as value. -/
def keys7 : List (Nat × Nat) :=
  [(0, 0), (1, 10), (2, 20), (3, 30), (4, 40), (5, 50), (6, 60)]

/-- Scenario 4: the table of bucket size 2 after the keys 0, ..., 6 were inserted. -/
def table7 : ExtendibleHash Nat Nat :=
  (ExtendibleHash.insertAll identityHash 65 keys7 (ExtendibleHash.new 2)).getD
    (ExtendibleHash.new 2)

/-- Scenario 4: the table of bucket size 2 after the keys 0, ..., 7 were inserted. -/
def table8 : ExtendibleHash Nat Nat :=
  (ExtendibleHash.Insert identityHash 65 table7 7 70).getD (ExtendibleHash.new 2)

/-- Scenario 4: the keys 0, ..., 7, each with ten times the key as value. -/
def keys8 : List (Nat × Nat) :=
  keys7 ++ [(7, 70)]

/-- Scenario 5: the replacer after insert 1, insert 2, insert 3. -/
def lru3 : LRUReplacer Nat :=
  (LRUReplacer.insertAll [1, 2, 3] LRUReplacer.new).getD LRUReplacer.new

/-- The replacer after insert 1, insert 1. -/
def lruTwice : LRUReplacer Nat :=
  (LRUReplacer.insertAll [1, 1] LRUReplacer.new).getD LRUReplacer.new

end Scenario

end cmudb

namespace cmudb

/-! ## Arithmetic of hash bits -/

theorem mask_and_ne_zero (x l : Nat) : (1 <<< l &&& x ≠ 0) ↔ x.testBit l = true := by
  rw [Nat.one_shiftLeft, Nat.land_comm, Nat.and_two_pow]
  cases h : x.testBit l <;> simp

theorem and_mask_ne_zero (x l : Nat) : (x &&& 1 <<< l ≠ 0) ↔ x.testBit l = true := by
  rw [Nat.land_comm]; exact mask_and_ne_zero x l

theorem and_mask_pred (x l : Nat) : x &&& (1 <<< l - 1) = x % 2 ^ l := by
  rw [Nat.one_shiftLeft, Nat.and_pow_two_sub_one_eq_mod]

theorem mod_mod_two_pow (x : Nat) {l g : Nat} (h : l ≤ g) : x % 2 ^ g % 2 ^ l = x % 2 ^ l :=
  Nat.mod_mod_of_dvd x (Nat.pow_dvd_pow 2 h)

theorem testBit_mod_of_lt (x : Nat) {l g : Nat} (h : l < g) :
    (x % 2 ^ g).testBit l = x.testBit l := by
  rw [Nat.testBit_mod_two_pow]; simp [h]

theorem mod_two_pow_succ_eq (x l : Nat) :
    x % 2 ^ (l + 1) = x % 2 ^ l + 2 ^ l * (x.testBit l).toNat := by
  rw [Nat.mod_pow_succ, Nat.toNat_testBit]

theorem mod_succ_eq_iff (x y l : Nat) :
    x % 2 ^ (l + 1) = y % 2 ^ (l + 1) ↔
      x % 2 ^ l = y % 2 ^ l ∧ x.testBit l = y.testBit l := by
  rw [mod_two_pow_succ_eq, mod_two_pow_succ_eq]
  have hx : x % 2 ^ l < 2 ^ l := Nat.mod_lt _ (Nat.two_pow_pos l)
  have hy : y % 2 ^ l < 2 ^ l := Nat.mod_lt _ (Nat.two_pow_pos l)
  constructor
  · intro h
    cases hbx : x.testBit l <;> cases hby : y.testBit l <;> simp [hbx, hby] at h ⊢ <;> omega
  · rintro ⟨h1, h2⟩
    rw [h1, h2]

/-- Two numbers below `2 ^ w` that agree modulo `2 ^ l` with `w ≤ l` are equal. -/
theorem eq_of_mod_eq_of_lt {x y w l : Nat} (hx : x < 2 ^ w) (hy : y < 2 ^ w) (hwl : w ≤ l)
    (h : x % 2 ^ l = y % 2 ^ l) : x = y := by
  have hp : 2 ^ w ≤ 2 ^ l := Nat.pow_le_pow_right (by decide) hwl
  rwa [Nat.mod_eq_of_lt (lt_of_lt_of_le hx hp), Nat.mod_eq_of_lt (lt_of_lt_of_le hy hp)] at h


end cmudb

namespace cmudb

/-! ## Slot lists -/

section Slots

variable {K V : Type} [DecidableEq K]

theorem slotFind_nil (key : K) : slotFind key ([] : List (K × V)) = none := rfl

theorem slotFind_cons (key : K) (slot : K × V) (rest : List (K × V)) :
    slotFind key (slot :: rest) = if slot.1 = key then some slot.2 else slotFind key rest := by
  unfold slotFind
  by_cases h : slot.1 = key <;> simp [List.find?, h]

theorem slotFind_eq_none_iff (key : K) (slots : List (K × V)) :
    slotFind key slots = none ↔ key ∉ slots.map Prod.fst := by
  induction slots with
  | nil => simp [slotFind_nil]
  | cons slot rest ih =>
    rw [slotFind_cons]
    by_cases h : slot.1 = key
    · simp [h]
    · simp only [h, if_false, ih, List.map_cons, List.mem_cons, not_or]
      constructor
      · intro h1; exact ⟨fun h2 => h h2.symm, h1⟩
      · intro h1; exact h1.2

theorem slotFind_any (key : K) (slots : List (K × V)) :
    slots.any (fun slot => decide (slot.1 = key)) = true ↔ key ∈ slots.map Prod.fst := by
  simp only [List.any_eq_true, decide_eq_true_eq, List.mem_map]

theorem slotFind_mem {key : K} {slots : List (K × V)} {v : V} (h : slotFind key slots = some v) :
    (key, v) ∈ slots := by
  induction slots with
  | nil => simp [slotFind_nil] at h
  | cons slot rest ih =>
    rw [slotFind_cons] at h
    by_cases hk : slot.1 = key
    · simp only [hk, if_true, Option.some.injEq] at h
      have : slot = (key, v) := Prod.ext hk h
      simp [this]
    · simp only [hk, if_false] at h
      exact List.mem_cons_of_mem _ (ih h)

theorem slotFind_of_mem {key : K} {slots : List (K × V)} {v : V}
    (hnd : (slots.map Prod.fst).Nodup) (h : (key, v) ∈ slots) : slotFind key slots = some v := by
  induction slots with
  | nil => simp at h
  | cons slot rest ih =>
    rw [slotFind_cons]
    simp only [List.map_cons, List.nodup_cons] at hnd
    rcases List.mem_cons.1 h with h1 | h1
    · subst h1; simp
    · have hne : slot.1 ≠ key := by
        intro he
        apply hnd.1
        rw [he]
        exact List.mem_map.2 ⟨(key, v), h1, rfl⟩
      simp only [hne, if_false]
      exact ih hnd.2 h1

theorem overwrite_keys (key : K) (value : V) (slots : List (K × V)) :
    (ExtendibleHash.overwrite key value slots).map Prod.fst = slots.map Prod.fst := by
  induction slots with
  | nil => rfl
  | cons slot rest ih =>
    unfold ExtendibleHash.overwrite
    by_cases h : slot.1 = key <;> simp [h, ih]

theorem slotFind_overwrite (key : K) (value : V) (slots : List (K × V)) (k : K)
    (hin : key ∈ slots.map Prod.fst) :
    slotFind k (ExtendibleHash.overwrite key value slots) =
      if k = key then some value else slotFind k slots := by
  induction slots with
  | nil => simp at hin
  | cons slot rest ih =>
    unfold ExtendibleHash.overwrite
    by_cases h : slot.1 = key
    · simp only [h, if_true, slotFind_cons]
      by_cases hk : k = key
      · simp [hk]
      · have : ¬ key = k := fun e => hk e.symm
        simp [hk, this]
    · simp only [h, if_false, slotFind_cons]
      have hin1 : key ∈ rest.map Prod.fst := by
        simp only [List.map_cons, List.mem_cons] at hin
        rcases hin with h1 | h1
        · exact absurd h1.symm h
        · exact h1
      by_cases hk : slot.1 = k
      · have : ¬ k = key := fun e => h (hk.trans e)
        simp [hk, this]
      · simp only [hk, if_false]
        exact ih hin1

theorem slotFind_append (key : K) (value : V) (slots : List (K × V)) (k : K)
    (hnot : key ∉ slots.map Prod.fst) :
    slotFind k (slots ++ [(key, value)]) =
      if k = key then some value else slotFind k slots := by
  induction slots with
  | nil =>
    simp only [List.nil_append, slotFind_cons, slotFind_nil]
    by_cases hk : k = key
    · simp [hk]
    · have : ¬ key = k := fun e => hk e.symm
      simp [hk, this]
  | cons slot rest ih =>
    simp only [List.map_cons, List.mem_cons, not_or] at hnot
    simp only [List.cons_append, slotFind_cons]
    by_cases hs : slot.1 = k
    · have : ¬ k = key := fun e => hnot.1 (e.symm.trans hs.symm)
      simp [hs, this]
    · simp only [hs, if_false]
      exact ih hnot.2

theorem slotFind_eraseP (key : K) (slots : List (K × V)) (k : K)
    (hnd : (slots.map Prod.fst).Nodup) :
    slotFind k (slots.eraseP (fun slot => decide (slot.1 = key))) =
      if k = key then none else slotFind k slots := by
  induction slots with
  | nil => simp [slotFind_nil]
  | cons slot rest ih =>
    simp only [List.map_cons, List.nodup_cons] at hnd
    by_cases hs : slot.1 = key
    · have : (slot :: rest).eraseP (fun slot => decide (slot.1 = key)) = rest := by
        simp [List.eraseP_cons, hs]
      rw [this, slotFind_cons]
      by_cases hk : k = key
      · simp only [hk, if_true]
        rw [slotFind_eq_none_iff, ← hs]
        exact hnd.1
      · have : ¬ slot.1 = k := fun e => hk (e.symm.trans hs)
        simp [hk, this]
    · have : (slot :: rest).eraseP (fun slot => decide (slot.1 = key)) =
          slot :: rest.eraseP (fun slot => decide (slot.1 = key)) := by
        simp [List.eraseP_cons, hs]
      rw [this, slotFind_cons, slotFind_cons, ih hnd.2]
      by_cases hk : slot.1 = k
      · have : ¬ k = key := fun e => hs (hk.trans e)
        simp [hk, this]
      · simp [hk]

theorem slotFind_filter (p : K × V → Bool) (slots : List (K × V)) (k : K)
    (hp : ∀ slot ∈ slots, slot.1 = k → p slot = true) :
    slotFind k (slots.filter p) = slotFind k slots := by
  induction slots with
  | nil => rfl
  | cons slot rest ih =>
    have ih1 := ih (fun s hs => hp s (List.mem_cons_of_mem _ hs))
    by_cases hs : slot.1 = k
    · have := hp slot (List.mem_cons_self _ _) hs
      simp [List.filter_cons, this, slotFind_cons, hs]
    · by_cases hps : p slot = true
      · simp [List.filter_cons, hps, slotFind_cons, hs, ih1]
      · simp [List.filter_cons, hps, slotFind_cons, hs, ih1]

theorem keys_eraseP_nodup (key : K) (slots : List (K × V))
    (hnd : (slots.map Prod.fst).Nodup) :
    ((slots.eraseP (fun slot => decide (slot.1 = key))).map Prod.fst).Nodup :=
  List.Nodup.sublist ((List.eraseP_sublist slots).map Prod.fst) hnd

theorem keys_filter_nodup (p : K × V → Bool) (slots : List (K × V))
    (hnd : (slots.map Prod.fst).Nodup) : ((slots.filter p).map Prod.fst).Nodup :=
  List.Nodup.sublist ((List.filter_sublist slots).map Prod.fst) hnd

theorem keys_append_nodup (key : K) (value : V) (slots : List (K × V))
    (hnd : (slots.map Prod.fst).Nodup) (hnot : key ∉ slots.map Prod.fst) :
    ((slots ++ [(key, value)]).map Prod.fst).Nodup := by
  rw [List.map_append, List.nodup_append]
  refine ⟨hnd, by simp, ?_⟩
  intro a ha hb
  simp only [List.map_cons, List.map_nil, List.mem_singleton] at hb
  exact hnot (hb ▸ ha)

end Slots

end cmudb

namespace cmudb

namespace ExtendibleHash

/-! ## Directory lookups -/

section Lookup

variable {K V : Type} [DecidableEq K] (HashKey : K → Nat)

theorem GetBucketIndex_eq (h : ExtendibleHash K V) (k : K) :
    GetBucketIndex HashKey h k = HashKey k % 2 ^ h.global_depth_ :=
  and_mask_pred _ _

theorem GetBucketIndex_lt (h : ExtendibleHash K V) (k : K) :
    GetBucketIndex HashKey h k < 2 ^ h.global_depth_ := by
  rw [GetBucketIndex_eq]
  exact Nat.mod_lt _ (Nat.two_pow_pos _)

theorem Find_eq (h : ExtendibleHash K V) (k : K) :
    Find HashKey h k = slotFind k (h.bucketAt (GetBucketIndex HashKey h k)).slots_ := rfl

theorem dirAt_setBucket (h : ExtendibleHash K V) (i : Nat) (b : Bucket K V) (j : Nat) :
    (h.setBucket i b).dirAt j = h.dirAt j := rfl

theorem deref_setBucket (h : ExtendibleHash K V) (i : Nat) (b : Bucket K V) (p : Nat)
    (hp : h.dirAt i < h.heap.length) :
    (h.setBucket i b).deref p = if p = h.dirAt i then b else h.deref p := by
  unfold deref setBucket
  simp only [List.getD_eq_getElem?_getD, List.getElem?_set]
  by_cases hpe : p = h.dirAt i
  · subst hpe
    simp [hp]
  · have : ¬ h.dirAt i = p := fun e => hpe e.symm
    simp [hpe, this]

theorem bucketAt_setBucket (h : ExtendibleHash K V) (i : Nat) (b : Bucket K V) (j : Nat)
    (hp : h.dirAt i < h.heap.length) :
    (h.setBucket i b).bucketAt j = if h.dirAt j = h.dirAt i then b else h.bucketAt j := by
  unfold bucketAt
  rw [dirAt_setBucket, deref_setBucket h i b _ hp]

theorem bucketAt_congr (h : ExtendibleHash K V) {i j : Nat} (e : h.dirAt i = h.dirAt j) :
    h.bucketAt i = h.bucketAt j := by
  unfold bucketAt; rw [e]

/-- Directory entries that agree on the low local-depth bits hold the same bucket. -/
theorem WF.same_bucket {h : ExtendibleHash K V} (hwf : WF HashKey h) {i j : Nat}
    (hi : i < 2 ^ h.global_depth_) (hj : j < 2 ^ h.global_depth_) :
    h.dirAt j = h.dirAt i ↔
      j % 2 ^ (h.bucketAt i).local_depth_ = i % 2 ^ (h.bucketAt i).local_depth_ := by
  rw [eq_comm, hwf.share i j hi hj, eq_comm]

/-- A stored slot is found by `Find`. -/
theorem WF.find_of_mem {h : ExtendibleHash K V} (hwf : WF HashKey h) {i : Nat}
    (hi : i < 2 ^ h.global_depth_) {k : K} {v : V} (hm : (k, v) ∈ (h.bucketAt i).slots_) :
    Find HashKey h k = some v := by
  have hk := hwf.keys i hi (k, v) hm
  have hidx := GetBucketIndex_lt HashKey h k
  have hd := hwf.depth i hi
  have hsame : h.dirAt (GetBucketIndex HashKey h k) = h.dirAt i := by
    rw [hwf.same_bucket HashKey hi hidx, GetBucketIndex_eq, mod_mod_two_pow _ hd]
    exact hk
  rw [Find_eq, bucketAt_congr h hsame]
  exact slotFind_of_mem (hwf.nodup i hi) hm

/-- What `Find` delivers is stored in the bucket of the key. -/
theorem mem_of_find {h : ExtendibleHash K V} {k : K} {v : V} (hf : Find HashKey h k = some v) :
    (k, v) ∈ (h.bucketAt (GetBucketIndex HashKey h k)).slots_ :=
  slotFind_mem hf

/-- Replacing the bucket of entry `i` by one of the same depth whose keys belong there
keeps the directory well-formed. -/
theorem WF.setBucket {h : ExtendibleHash K V} (hwf : WF HashKey h) {i : Nat}
    (hi : i < 2 ^ h.global_depth_) (b : Bucket K V)
    (hd : b.local_depth_ = (h.bucketAt i).local_depth_)
    (hk : ∀ slot ∈ b.slots_, HashKey slot.1 % 2 ^ b.local_depth_ = i % 2 ^ b.local_depth_)
    (hn : (b.slots_.map Prod.fst).Nodup) : WF HashKey (h.setBucket i b) := by
  have hp := hwf.ptr i hi
  have hld : ∀ j, ((h.setBucket i b).bucketAt j).local_depth_ = (h.bucketAt j).local_depth_ := by
    intro j
    rw [bucketAt_setBucket h i b j hp]
    by_cases e : h.dirAt j = h.dirAt i
    · simp only [e, if_true, hd]; rw [bucketAt_congr h e]
    · simp [e]
  refine ⟨?_, ?_, ?_, ?_, ?_, ?_⟩
  · exact hwf.len
  · intro j hj
    show h.dirAt j < (h.heap.set _ _).length
    rw [List.length_set]
    exact hwf.ptr j hj
  · intro j hj
    rw [hld]; exact hwf.depth j hj
  · intro j1 j2 h1 h2
    rw [hld, dirAt_setBucket, dirAt_setBucket]
    exact hwf.share j1 j2 h1 h2
  · intro j hj slot hs
    rw [hld]
    rw [bucketAt_setBucket h i b j hp] at hs
    by_cases e : h.dirAt j = h.dirAt i
    · simp only [e, if_true] at hs
      have h1 := hk slot hs
      have h2 := (hwf.same_bucket HashKey hi hj).1 e
      rw [bucketAt_congr h e, ← hd, h1, hd]
      exact h2.symm
    · simp only [e, if_false] at hs
      exact hwf.keys j hj slot hs
  · intro j hj
    rw [bucketAt_setBucket h i b j hp]
    by_cases e : h.dirAt j = h.dirAt i
    · simp only [e, if_true]; exact hn
    · simp only [e, if_false]; exact hwf.nodup j hj

/-- Lookup after the bucket of `key` was replaced by a bucket that differs from the old
one, as a map, only at `key`. -/
theorem Find_setBucket {h : ExtendibleHash K V} (hwf : WF HashKey h) (key : K)
    (b : Bucket K V) (x : Option V)
    (hb : ∀ k, slotFind k b.slots_ =
      if k = key then x else slotFind k (h.bucketAt (GetBucketIndex HashKey h key)).slots_)
    (k : K) :
    Find HashKey (h.setBucket (GetBucketIndex HashKey h key) b) k =
      if k = key then x else Find HashKey h k := by
  have hp := hwf.ptr _ (GetBucketIndex_lt HashKey h key)
  rw [Find_eq]
  have hidx : GetBucketIndex HashKey (h.setBucket (GetBucketIndex HashKey h key) b) k =
      GetBucketIndex HashKey h k := rfl
  rw [hidx, bucketAt_setBucket h _ b _ hp]
  by_cases e : h.dirAt (GetBucketIndex HashKey h k) = h.dirAt (GetBucketIndex HashKey h key)
  · simp only [e, if_true]
    rw [hb k, Find_eq, bucketAt_congr h e]
  · have hne : k ≠ key := by
      intro hk; apply e; rw [hk]
    simp only [e, if_false, hne]
    rfl

/-! ## `Remove` -/

theorem Remove_fst (h : ExtendibleHash K V) (key : K) :
    (Remove HashKey h key).1 = (Find HashKey h key).isSome := by
  unfold Remove
  simp only
  have hf := Find_eq HashKey h key
  unfold bucketAt at hf
  cases hany : (h.deref (h.dirAt (GetBucketIndex HashKey h key))).slots_.any
      (fun slot => decide (slot.1 = key))
  · have : Find HashKey h key = none := by
      rw [hf, slotFind_eq_none_iff, ← slotFind_any, hany]; simp
    simp [this]
  · have : (Find HashKey h key).isSome = true := by
      rw [slotFind_any] at hany
      cases hfk : Find HashKey h key
      · rw [hf, slotFind_eq_none_iff] at hfk
        exact absurd hany hfk
      · rfl
    simp [this]

theorem Remove_snd (h : ExtendibleHash K V) (key : K) :
    (Remove HashKey h key).2 =
      if (Find HashKey h key).isSome then
        h.setBucket (GetBucketIndex HashKey h key)
          ⟨(h.bucketAt (GetBucketIndex HashKey h key)).local_depth_,
           (h.bucketAt (GetBucketIndex HashKey h key)).slots_.eraseP
             (fun slot => decide (slot.1 = key))⟩
      else h := by
  have h1 := Remove_fst HashKey h key
  unfold Remove at h1 ⊢
  simp only at h1 ⊢
  cases hany : (h.deref (h.dirAt (GetBucketIndex HashKey h key))).slots_.any
      (fun slot => decide (slot.1 = key))
  · rw [hany] at h1
    simp only [Bool.false_eq_true, if_false] at h1 ⊢
    rw [← h1]; simp
  · rw [hany] at h1
    simp only [if_true] at h1 ⊢
    rw [← h1]; simp only [if_true]; rfl

/-- `Remove` keeps the directory well-formed. -/
theorem WF.Remove {h : ExtendibleHash K V} (hwf : WF HashKey h) (key : K) :
    WF HashKey (Remove HashKey h key).2 := by
  rw [Remove_snd]
  by_cases hs : (Find HashKey h key).isSome = true
  · simp only [hs, if_true]
    have hi := GetBucketIndex_lt HashKey h key
    refine hwf.setBucket HashKey hi _ rfl ?_ ?_
    · intro slot hm
      exact hwf.keys _ hi slot ((List.eraseP_sublist _).subset hm)
    · exact keys_eraseP_nodup key _ (hwf.nodup _ hi)
  · simp only [hs, if_false]; exact hwf

/-- After `Remove` the key is not found and every other key is found as before. -/
theorem Find_Remove {h : ExtendibleHash K V} (hwf : WF HashKey h) (key k : K) :
    Find HashKey (Remove HashKey h key).2 k = if k = key then none else Find HashKey h k := by
  rw [Remove_snd]
  by_cases hs : (Find HashKey h key).isSome = true
  · simp only [hs, if_true]
    refine Find_setBucket HashKey hwf key _ none ?_ k
    intro k1
    exact slotFind_eraseP key _ k1 (hwf.nodup _ (GetBucketIndex_lt HashKey h key))
  · have hn : Find HashKey h key = none := by
      cases hf : Find HashKey h key
      · rfl
      · rw [hf] at hs; simp at hs
    simp only [hn, Option.isSome_none, Bool.false_eq_true, if_false]
    by_cases hk : k = key
    · subst hk
      simp [hn]
    · simp [hk]

theorem Remove_global_depth (h : ExtendibleHash K V) (key : K) :
    (Remove HashKey h key).2.global_depth_ = h.global_depth_ := by
  unfold Remove; simp only; split <;> rfl

theorem Remove_bucket_size (h : ExtendibleHash K V) (key : K) :
    (Remove HashKey h key).2.bucket_size_ = h.bucket_size_ := by
  unfold Remove; simp only; split <;> rfl

end Lookup

end ExtendibleHash

end cmudb

namespace cmudb

namespace ExtendibleHash

/-! ## Directory doubling -/

section Doubling

variable {K V : Type} [DecidableEq K] (HashKey : K → Nat)

theorem dirAt_doubled {h : ExtendibleHash K V} (hlen : h.buckets_.length = 2 ^ h.global_depth_)
    {j : Nat} (hj : j < 2 ^ (h.global_depth_ + 1)) :
    (doubled h).dirAt j = h.dirAt (j % 2 ^ h.global_depth_) := by
  unfold dirAt doubled
  simp only
  by_cases hlt : j < 2 ^ h.global_depth_
  · rw [List.getD_append _ _ _ _ (by rw [hlen]; exact hlt), Nat.mod_eq_of_lt hlt]
  · have hge : 2 ^ h.global_depth_ ≤ j := Nat.le_of_not_lt hlt
    rw [List.getD_append_right _ _ _ _ (by rw [hlen]; exact hge), hlen]
    congr 1
    rw [Nat.pow_succ] at hj
    rw [Nat.mod_eq_sub_mod hge, Nat.mod_eq_of_lt (by omega)]

theorem bucketAt_doubled {h : ExtendibleHash K V}
    (hlen : h.buckets_.length = 2 ^ h.global_depth_)
    {j : Nat} (hj : j < 2 ^ (h.global_depth_ + 1)) :
    (doubled h).bucketAt j = h.bucketAt (j % 2 ^ h.global_depth_) := by
  unfold bucketAt
  rw [dirAt_doubled hlen hj]
  rfl

/-- Doubling keeps the directory well-formed. -/
theorem WF.doubled {h : ExtendibleHash K V} (hwf : WF HashKey h) :
    WF HashKey (ExtendibleHash.doubled h) := by
  have hpos : 0 < 2 ^ h.global_depth_ := Nat.two_pow_pos _
  have hm : ∀ j, j % 2 ^ h.global_depth_ < 2 ^ h.global_depth_ := fun j => Nat.mod_lt _ hpos
  refine ⟨?_, ?_, ?_, ?_, ?_, ?_⟩
  · show (h.buckets_ ++ h.buckets_).length = 2 ^ (h.global_depth_ + 1)
    rw [List.length_append, hwf.len, Nat.pow_succ]; omega
  · intro j hj
    rw [dirAt_doubled hwf.len hj]
    exact hwf.ptr _ (hm j)
  · intro j hj
    rw [bucketAt_doubled hwf.len hj]
    exact Nat.le_succ_of_le (hwf.depth _ (hm j))
  · intro i j hi hj
    rw [dirAt_doubled hwf.len hi, dirAt_doubled hwf.len hj, bucketAt_doubled hwf.len hi,
      hwf.share _ _ (hm i) (hm j), mod_mod_two_pow _ (hwf.depth _ (hm i)),
      mod_mod_two_pow _ (hwf.depth _ (hm i))]
  · intro j hj slot hs
    rw [bucketAt_doubled hwf.len hj] at hs ⊢
    rw [hwf.keys _ (hm j) slot hs, mod_mod_two_pow _ (hwf.depth _ (hm j))]
  · intro j hj
    rw [bucketAt_doubled hwf.len hj]
    exact hwf.nodup _ (hm j)

theorem GetBucketIndex_doubled (h : ExtendibleHash K V) (k : K) :
    GetBucketIndex HashKey (doubled h) k % 2 ^ h.global_depth_ = GetBucketIndex HashKey h k := by
  rw [GetBucketIndex_eq, GetBucketIndex_eq]
  exact mod_mod_two_pow _ (Nat.le_succ _)

theorem bucketAt_index_doubled {h : ExtendibleHash K V}
    (hlen : h.buckets_.length = 2 ^ h.global_depth_) (k : K) :
    (doubled h).bucketAt (GetBucketIndex HashKey (doubled h) k) =
      h.bucketAt (GetBucketIndex HashKey h k) := by
  rw [bucketAt_doubled hlen (GetBucketIndex_lt HashKey (doubled h) k), GetBucketIndex_doubled]

/-- Doubling changes no lookup. -/
theorem Find_doubled {h : ExtendibleHash K V} (hlen : h.buckets_.length = 2 ^ h.global_depth_)
    (k : K) : Find HashKey (doubled h) k = Find HashKey h k := by
  rw [Find_eq, Find_eq, bucketAt_index_doubled HashKey hlen]

end Doubling

/-! ## The rewire loop -/

theorem rewire_length (mask first second : Nat) (fuel i : Nat) (dir : List Nat) :
    (rewire mask first second fuel i dir).length = dir.length := by
  induction fuel generalizing i dir with
  | zero => rfl
  | succ n ih =>
    unfold rewire
    by_cases hi : i < dir.length
    · simp only [hi, if_true]
      rw [ih, List.length_set]
    · simp only [hi, if_false]

theorem getD_set_nat (dir : List Nat) (i j x : Nat) (hi : i < dir.length) :
    (dir.set i x).getD j 0 = if j = i then x else dir.getD j 0 := by
  simp only [List.getD_eq_getElem?_getD, List.getElem?_set]
  by_cases hji : j = i
  · subst hji; simp [hi]
  · have : ¬ i = j := fun e => hji e.symm
    simp [hji, this]

theorem stride_step {mask i j : Nat} (hmask : 0 < mask) :
    (i ≤ j ∧ (j - i) % mask = 0) ↔ (j = i ∨ (i + mask ≤ j ∧ (j - (i + mask)) % mask = 0)) := by
  constructor
  · rintro ⟨hle, hmod⟩
    by_cases hji : j = i
    · exact Or.inl hji
    · right
      have hlt : mask ≤ j - i := by
        by_contra hc
        have h1 : j - i < mask := Nat.lt_of_not_le hc
        rw [Nat.mod_eq_of_lt h1] at hmod
        omega
      refine ⟨by omega, ?_⟩
      have : j - i = (j - (i + mask)) + mask := by omega
      rw [this, Nat.add_mod_right] at hmod
      exact hmod
  · rintro (hji | ⟨hle, hmod⟩)
    · subst hji; simp
    · refine ⟨by omega, ?_⟩
      have : j - i = (j - (i + mask)) + mask := by omega
      rw [this, Nat.add_mod_right]
      exact hmod

/-- The rewire loop sets exactly the entries `i, i + mask, i + 2 * mask, ...`. -/
theorem rewire_getD (mask first second : Nat) (hmask : 0 < mask) (fuel i : Nat)
    (dir : List Nat) (hfuel : dir.length ≤ i + fuel) (j : Nat) :
    (rewire mask first second fuel i dir).getD j 0 =
      if i ≤ j ∧ (j - i) % mask = 0 ∧ j < dir.length then
        (if j &&& mask ≠ 0 then first else second)
      else dir.getD j 0 := by
  induction fuel generalizing i dir with
  | zero =>
    unfold rewire
    have : ¬ (i ≤ j ∧ (j - i) % mask = 0 ∧ j < dir.length) := by
      rintro ⟨h1, _, h3⟩; omega
    simp only [this, if_false]
  | succ n ih =>
    unfold rewire
    by_cases hi : i < dir.length
    · simp only [hi, if_true]
      rw [ih (i + mask) _ (by rw [List.length_set]; omega), List.length_set,
        getD_set_nat _ _ _ _ hi]
      have hs := @stride_step mask i j hmask
      by_cases hji : j = i
      · subst hji
        have h1 : ¬ (j + mask ≤ j ∧ (j - (j + mask)) % mask = 0 ∧ j < dir.length) := by
          rintro ⟨h1, _, _⟩; omega
        have h2 : (j ≤ j ∧ (j - j) % mask = 0 ∧ j < dir.length) := ⟨le_refl _, by simp, hi⟩
        rw [if_neg h1, if_pos h2, if_pos rfl]
      · by_cases hc : i + mask ≤ j ∧ (j - (i + mask)) % mask = 0 ∧ j < dir.length
        · have h2 : (i ≤ j ∧ (j - i) % mask = 0 ∧ j < dir.length) := by
            have := hs.2 (Or.inr ⟨hc.1, hc.2.1⟩)
            exact ⟨this.1, this.2, hc.2.2⟩
          rw [if_pos hc, if_pos h2]
        · have h2 : ¬ (i ≤ j ∧ (j - i) % mask = 0 ∧ j < dir.length) := by
            rintro ⟨a, b, c⟩
            rcases hs.1 ⟨a, b⟩ with h3 | h3
            · exact hji h3
            · exact hc ⟨h3.1, h3.2, c⟩
          rw [if_neg hc, if_neg h2, if_neg hji]
    · simp only [hi, if_false]
      have : ¬ (i ≤ j ∧ (j - i) % mask = 0 ∧ j < dir.length) := by
        rintro ⟨h1, _, h3⟩; omega
      simp only [this, if_false]

theorem stride_iff_mod {mask start j : Nat} (hstart : start < mask) :
    (start ≤ j ∧ (j - start) % mask = 0) ↔ j % mask = start := by
  constructor
  · rintro ⟨hle, hmod⟩
    have hj : j = (j - start) + start := by omega
    have hd : mask ∣ (j - start) := Nat.dvd_of_mod_eq_zero hmod
    obtain ⟨c, hc⟩ := hd
    rw [hj, hc, Nat.mul_add_mod, Nat.mod_eq_of_lt hstart]
  · intro h
    have hle : start ≤ j := by rw [← h]; exact Nat.mod_le _ _
    refine ⟨hle, ?_⟩
    have h1 := Nat.mod_add_div j mask
    have : j - start = mask * (j / mask) := by omega
    rw [this, Nat.mul_mod_right]

end ExtendibleHash

end cmudb

namespace cmudb

namespace ExtendibleHash

/-! ## Bucket split -/

section Split

variable {K V : Type} [DecidableEq K] (HashKey : K → Nat)

theorem dirAt_splitOnly (h : ExtendibleHash K V) (key : K) (j : Nat)
    (hj : j < h.buckets_.length) :
    (splitOnly HashKey h key).dirAt j =
      if j % 2 ^ (h.bucketAt (GetBucketIndex HashKey h key)).local_depth_ =
          HashKey key % 2 ^ (h.bucketAt (GetBucketIndex HashKey h key)).local_depth_ then
        (if j.testBit (h.bucketAt (GetBucketIndex HashKey h key)).local_depth_ then
          h.heap.length else h.heap.length + 1)
      else h.dirAt j := by
  unfold dirAt splitOnly
  simp only
  generalize (h.bucketAt (GetBucketIndex HashKey h key)).local_depth_ = l
  have hmask : 0 < 1 <<< l := by rw [Nat.one_shiftLeft]; exact Nat.two_pow_pos l
  rw [rewire_getD _ _ _ hmask _ _ _ (Nat.le_add_left _ _)]
  have hstart : HashKey key &&& (1 <<< l - 1) < 1 <<< l := by
    rw [and_mask_pred, Nat.one_shiftLeft]
    exact Nat.mod_lt _ (Nat.two_pow_pos l)
  have hiff := @stride_iff_mod (1 <<< l) (HashKey key &&& (1 <<< l - 1)) j hstart
  rw [and_mask_pred, Nat.one_shiftLeft] at hiff
  by_cases hc : j % 2 ^ l = HashKey key % 2 ^ l
  · have h1 := hiff.2 hc
    rw [if_pos hc, and_mask_pred, if_pos ⟨h1.1, by rw [Nat.one_shiftLeft]; exact h1.2, hj⟩]
    by_cases hb : j.testBit l = true
    · rw [if_pos ((and_mask_ne_zero j l).2 hb), if_pos hb]
    · rw [if_neg (fun e => hb ((and_mask_ne_zero j l).1 e)), if_neg hb]
  · rw [if_neg hc, and_mask_pred, if_neg]
    rintro ⟨a, b, _⟩
    rw [Nat.one_shiftLeft] at b
    exact hc (hiff.1 ⟨a, b⟩)

theorem deref_splitOnly_old (h : ExtendibleHash K V) (key : K) (p : Nat)
    (hp : p < h.heap.length) : (splitOnly HashKey h key).deref p = h.deref p := by
  unfold deref splitOnly
  simp only
  rw [List.getD_append _ _ _ _ hp]

theorem deref_splitOnly_first (h : ExtendibleHash K V) (key : K) :
    (splitOnly HashKey h key).deref h.heap.length =
      ⟨(h.bucketAt (GetBucketIndex HashKey h key)).local_depth_ + 1,
       (h.bucketAt (GetBucketIndex HashKey h key)).slots_.filter (fun it =>
         decide (1 <<< (h.bucketAt (GetBucketIndex HashKey h key)).local_depth_ &&&
           HashKey it.1 ≠ 0))⟩ := by
  unfold deref splitOnly
  simp only
  rw [List.getD_append_right _ _ _ _ (le_refl _)]
  simp

theorem deref_splitOnly_second (h : ExtendibleHash K V) (key : K) :
    (splitOnly HashKey h key).deref (h.heap.length + 1) =
      ⟨(h.bucketAt (GetBucketIndex HashKey h key)).local_depth_ + 1,
       (h.bucketAt (GetBucketIndex HashKey h key)).slots_.filter (fun it =>
         !decide (1 <<< (h.bucketAt (GetBucketIndex HashKey h key)).local_depth_ &&&
           HashKey it.1 ≠ 0))⟩ := by
  unfold deref splitOnly
  simp only
  rw [List.getD_append_right _ _ _ _ (Nat.le_succ _)]
  simp

theorem filter_bit_true (slots : List (K × V)) (l j : Nat) (hb : j.testBit l = true) :
    slots.filter (fun it => decide (1 <<< l &&& HashKey it.1 ≠ 0)) =
      slots.filter (fun it => decide ((HashKey it.1).testBit l = j.testBit l)) := by
  apply List.filter_congr
  intro x _
  rw [hb, decide_eq_decide]
  exact mask_and_ne_zero _ _

theorem filter_bit_false (slots : List (K × V)) (l j : Nat) (hb : j.testBit l = false) :
    slots.filter (fun it => !decide (1 <<< l &&& HashKey it.1 ≠ 0)) =
      slots.filter (fun it => decide ((HashKey it.1).testBit l = j.testBit l)) := by
  apply List.filter_congr
  intro x _
  rw [hb]
  have := mask_and_ne_zero (HashKey x.1) l
  cases hx : (HashKey x.1).testBit l
  · rw [hx] at this
    simp only [Bool.false_eq_true, iff_false] at this
    simp [this]
  · rw [hx] at this
    simp only [iff_true] at this
    simp [this]

/-- The bucket of a rewired entry: one level deeper, with the slots of the split bucket
whose hash has the bit of the entry at the old local depth. -/
theorem bucketAt_splitOnly_new {h : ExtendibleHash K V} (hwf : WF HashKey h) (key : K)
    {j : Nat} (hj : j < 2 ^ h.global_depth_)
    (hc : j % 2 ^ (h.bucketAt (GetBucketIndex HashKey h key)).local_depth_ =
      HashKey key % 2 ^ (h.bucketAt (GetBucketIndex HashKey h key)).local_depth_) :
    ((splitOnly HashKey h key).bucketAt j).local_depth_ =
        (h.bucketAt (GetBucketIndex HashKey h key)).local_depth_ + 1 ∧
      ((splitOnly HashKey h key).bucketAt j).slots_ =
        (h.bucketAt (GetBucketIndex HashKey h key)).slots_.filter (fun it =>
          decide ((HashKey it.1).testBit
            (h.bucketAt (GetBucketIndex HashKey h key)).local_depth_ =
              j.testBit (h.bucketAt (GetBucketIndex HashKey h key)).local_depth_)) := by
  have hjl : j < h.buckets_.length := by rw [hwf.len]; exact hj
  have hB : (splitOnly HashKey h key).bucketAt j =
      (splitOnly HashKey h key).deref ((splitOnly HashKey h key).dirAt j) := rfl
  rw [hB, dirAt_splitOnly HashKey h key j hjl, if_pos hc]
  by_cases hb : j.testBit (h.bucketAt (GetBucketIndex HashKey h key)).local_depth_ = true
  · rw [if_pos hb, deref_splitOnly_first]
    exact ⟨rfl, filter_bit_true HashKey _ _ _ hb⟩
  · rw [if_neg hb, deref_splitOnly_second]
    exact ⟨rfl, filter_bit_false HashKey _ _ _ (by simpa using hb)⟩

theorem bucketAt_splitOnly_old {h : ExtendibleHash K V} (hwf : WF HashKey h) (key : K)
    {j : Nat} (hj : j < 2 ^ h.global_depth_)
    (hc : ¬ j % 2 ^ (h.bucketAt (GetBucketIndex HashKey h key)).local_depth_ =
      HashKey key % 2 ^ (h.bucketAt (GetBucketIndex HashKey h key)).local_depth_) :
    (splitOnly HashKey h key).bucketAt j = h.bucketAt j := by
  have hjl : j < h.buckets_.length := by rw [hwf.len]; exact hj
  have hB : (splitOnly HashKey h key).bucketAt j =
      (splitOnly HashKey h key).deref ((splitOnly HashKey h key).dirAt j) := rfl
  rw [hB, dirAt_splitOnly HashKey h key j hjl, if_neg hc]
  exact deref_splitOnly_old HashKey h key _ (hwf.ptr j hj)

theorem dirAt_splitOnly_new_ge {h : ExtendibleHash K V} (hwf : WF HashKey h) (key : K)
    {j : Nat} (hj : j < 2 ^ h.global_depth_)
    (hc : j % 2 ^ (h.bucketAt (GetBucketIndex HashKey h key)).local_depth_ =
      HashKey key % 2 ^ (h.bucketAt (GetBucketIndex HashKey h key)).local_depth_) :
    (splitOnly HashKey h key).dirAt j =
      if j.testBit (h.bucketAt (GetBucketIndex HashKey h key)).local_depth_ then
        h.heap.length else h.heap.length + 1 := by
  have hjl : j < h.buckets_.length := by rw [hwf.len]; exact hj
  rw [dirAt_splitOnly HashKey h key j hjl, if_pos hc]

theorem dirAt_splitOnly_old_lt {h : ExtendibleHash K V} (hwf : WF HashKey h) (key : K)
    {j : Nat} (hj : j < 2 ^ h.global_depth_)
    (hc : ¬ j % 2 ^ (h.bucketAt (GetBucketIndex HashKey h key)).local_depth_ =
      HashKey key % 2 ^ (h.bucketAt (GetBucketIndex HashKey h key)).local_depth_) :
    (splitOnly HashKey h key).dirAt j = h.dirAt j := by
  have hjl : j < h.buckets_.length := by rw [hwf.len]; exact hj
  rw [dirAt_splitOnly HashKey h key j hjl, if_neg hc]

/-- An entry is rewired by the split exactly when it points to the split bucket. -/
theorem rewired_iff {h : ExtendibleHash K V} (hwf : WF HashKey h) (key : K)
    {j : Nat} (hj : j < 2 ^ h.global_depth_) :
    j % 2 ^ (h.bucketAt (GetBucketIndex HashKey h key)).local_depth_ =
        HashKey key % 2 ^ (h.bucketAt (GetBucketIndex HashKey h key)).local_depth_ ↔
      h.dirAt j = h.dirAt (GetBucketIndex HashKey h key) := by
  have hi := GetBucketIndex_lt HashKey h key
  rw [hwf.same_bucket HashKey hi hj]
  have hd := hwf.depth _ hi
  generalize (h.bucketAt (GetBucketIndex HashKey h key)).local_depth_ = L at hd ⊢
  rw [GetBucketIndex_eq, mod_mod_two_pow _ hd]

end Split

end ExtendibleHash

end cmudb

namespace cmudb

namespace ExtendibleHash

section SplitWF

variable {K V : Type} [DecidableEq K] (HashKey : K → Nat)

/-- The split of a bucket below global depth keeps the directory well-formed. -/
theorem WF.splitOnly {h : ExtendibleHash K V} (hwf : WF HashKey h) (key : K)
    (hL : (h.bucketAt (GetBucketIndex HashKey h key)).local_depth_ < h.global_depth_) :
    WF HashKey (ExtendibleHash.splitOnly HashKey h key) := by
  have hi := GetBucketIndex_lt HashKey h key
  have hg : (ExtendibleHash.splitOnly HashKey h key).global_depth_ = h.global_depth_ := rfl
  have hheap : (ExtendibleHash.splitOnly HashKey h key).heap.length = h.heap.length + 2 := by
    unfold ExtendibleHash.splitOnly; simp
  refine ⟨?_, ?_, ?_, ?_, ?_, ?_⟩
  · show (rewire _ _ _ _ _ _).length = _
    rw [rewire_length]; exact hwf.len
  · intro j hj
    rw [hg] at hj
    rw [hheap]
    by_cases hc : j % 2 ^ (h.bucketAt (GetBucketIndex HashKey h key)).local_depth_ =
        HashKey key % 2 ^ (h.bucketAt (GetBucketIndex HashKey h key)).local_depth_
    · rw [dirAt_splitOnly_new_ge HashKey hwf key hj hc]
      split <;> omega
    · rw [dirAt_splitOnly_old_lt HashKey hwf key hj hc]
      have := hwf.ptr j hj
      omega
  · intro j hj
    rw [hg] at hj ⊢
    by_cases hc : j % 2 ^ (h.bucketAt (GetBucketIndex HashKey h key)).local_depth_ =
        HashKey key % 2 ^ (h.bucketAt (GetBucketIndex HashKey h key)).local_depth_
    · rw [(bucketAt_splitOnly_new HashKey hwf key hj hc).1]
      exact hL
    · rw [bucketAt_splitOnly_old HashKey hwf key hj hc]
      exact hwf.depth j hj
  · intro i j hi1 hj
    rw [hg] at hi1 hj
    by_cases hci : i % 2 ^ (h.bucketAt (GetBucketIndex HashKey h key)).local_depth_ =
        HashKey key % 2 ^ (h.bucketAt (GetBucketIndex HashKey h key)).local_depth_
    · rw [(bucketAt_splitOnly_new HashKey hwf key hi1 hci).1,
        dirAt_splitOnly_new_ge HashKey hwf key hi1 hci, mod_succ_eq_iff]
      by_cases hcj : j % 2 ^ (h.bucketAt (GetBucketIndex HashKey h key)).local_depth_ =
          HashKey key % 2 ^ (h.bucketAt (GetBucketIndex HashKey h key)).local_depth_
      · rw [dirAt_splitOnly_new_ge HashKey hwf key hj hcj]
        generalize (h.bucketAt (GetBucketIndex HashKey h key)).local_depth_ = L at hci hcj ⊢
        have e : i % 2 ^ L = j % 2 ^ L := hci.trans hcj.symm
        cases hbi : i.testBit L <;> cases hbj : j.testBit L <;> simp [e]
      · rw [dirAt_splitOnly_old_lt HashKey hwf key hj hcj]
        have hp := hwf.ptr j hj
        constructor
        · intro e
          exfalso
          split at e <;> omega
        · rintro ⟨e, _⟩
          exact absurd (e.symm.trans hci) hcj
    · rw [bucketAt_splitOnly_old HashKey hwf key hi1 hci,
        dirAt_splitOnly_old_lt HashKey hwf key hi1 hci]
      by_cases hcj : j % 2 ^ (h.bucketAt (GetBucketIndex HashKey h key)).local_depth_ =
          HashKey key % 2 ^ (h.bucketAt (GetBucketIndex HashKey h key)).local_depth_
      · rw [dirAt_splitOnly_new_ge HashKey hwf key hj hcj]
        have hp := hwf.ptr i hi1
        constructor
        · intro e
          exfalso
          split at e <;> omega
        · intro e
          exfalso
          have h1 := (hwf.share i j hi1 hj).2 e
          have h2 := (rewired_iff HashKey hwf key hj).1 hcj
          exact hci ((rewired_iff HashKey hwf key hi1).2 (h1.trans h2))
      · rw [dirAt_splitOnly_old_lt HashKey hwf key hj hcj]
        exact hwf.share i j hi1 hj
  · intro j hj slot hs
    rw [hg] at hj
    by_cases hc : j % 2 ^ (h.bucketAt (GetBucketIndex HashKey h key)).local_depth_ =
        HashKey key % 2 ^ (h.bucketAt (GetBucketIndex HashKey h key)).local_depth_
    · have hn := bucketAt_splitOnly_new HashKey hwf key hj hc
      rw [hn.1, mod_succ_eq_iff]
      rw [hn.2, List.mem_filter] at hs
      have hsame := (rewired_iff HashKey hwf key hj).1 hc
      have hk := hwf.keys j hj slot (by rw [bucketAt_congr h hsame]; exact hs.1)
      rw [bucketAt_congr h hsame] at hk
      exact ⟨hk, by simpa using hs.2⟩
    · rw [bucketAt_splitOnly_old HashKey hwf key hj hc] at hs ⊢
      exact hwf.keys j hj slot hs
  · intro j hj
    rw [hg] at hj
    by_cases hc : j % 2 ^ (h.bucketAt (GetBucketIndex HashKey h key)).local_depth_ =
        HashKey key % 2 ^ (h.bucketAt (GetBucketIndex HashKey h key)).local_depth_
    · rw [(bucketAt_splitOnly_new HashKey hwf key hj hc).2]
      exact keys_filter_nodup _ _ (hwf.nodup _ hi)
    · rw [bucketAt_splitOnly_old HashKey hwf key hj hc]
      exact hwf.nodup j hj

theorem testBit_index (h : ExtendibleHash K V) (k : K) {l : Nat} (hl : l < h.global_depth_) :
    (GetBucketIndex HashKey h k).testBit l = (HashKey k).testBit l := by
  rw [GetBucketIndex_eq, testBit_mod_of_lt _ hl]

/-- The split of a bucket changes no lookup. -/
theorem Find_splitOnly {h : ExtendibleHash K V} (hwf : WF HashKey h) (key : K)
    (hL : (h.bucketAt (GetBucketIndex HashKey h key)).local_depth_ < h.global_depth_) (k : K) :
    Find HashKey (splitOnly HashKey h key) k = Find HashKey h k := by
  have hidx : GetBucketIndex HashKey (splitOnly HashKey h key) k = GetBucketIndex HashKey h k :=
    rfl
  have hj := GetBucketIndex_lt HashKey h k
  rw [Find_eq, Find_eq, hidx]
  by_cases hc : GetBucketIndex HashKey h k %
        2 ^ (h.bucketAt (GetBucketIndex HashKey h key)).local_depth_ =
      HashKey key % 2 ^ (h.bucketAt (GetBucketIndex HashKey h key)).local_depth_
  · rw [(bucketAt_splitOnly_new HashKey hwf key hj hc).2]
    have hsame := (rewired_iff HashKey hwf key hj).1 hc
    rw [bucketAt_congr h hsame]
    apply slotFind_filter
    intro slot _ hk
    rw [hk, testBit_index HashKey h k hL]
    simp
  · rw [bucketAt_splitOnly_old HashKey hwf key hj hc]

/-- After the split the bucket of `key` is one level deeper and holds the slots of the
split bucket whose hash has the same bit as the hash of `key` at the old depth. -/
theorem target_splitOnly {h : ExtendibleHash K V} (hwf : WF HashKey h) (key : K)
    (hL : (h.bucketAt (GetBucketIndex HashKey h key)).local_depth_ < h.global_depth_) :
    ((splitOnly HashKey h key).bucketAt
        (GetBucketIndex HashKey (splitOnly HashKey h key) key)).local_depth_ =
        (h.bucketAt (GetBucketIndex HashKey h key)).local_depth_ + 1 ∧
      ((splitOnly HashKey h key).bucketAt
        (GetBucketIndex HashKey (splitOnly HashKey h key) key)).slots_ =
        (h.bucketAt (GetBucketIndex HashKey h key)).slots_.filter (fun it =>
          decide ((HashKey it.1).testBit
            (h.bucketAt (GetBucketIndex HashKey h key)).local_depth_ =
              (HashKey key).testBit (h.bucketAt (GetBucketIndex HashKey h key)).local_depth_)) := by
  have hidx : GetBucketIndex HashKey (splitOnly HashKey h key) key =
      GetBucketIndex HashKey h key := rfl
  have hj := GetBucketIndex_lt HashKey h key
  have hc := (rewired_iff HashKey hwf key hj).2 rfl
  have hn := bucketAt_splitOnly_new HashKey hwf key hj hc
  rw [hidx]
  refine ⟨hn.1, ?_⟩
  rw [hn.2]
  apply List.filter_congr
  intro x _
  rw [testBit_index HashKey h key hL]

end SplitWF

end ExtendibleHash

end cmudb

namespace cmudb

namespace ExtendibleHash

/-! ## The loop body and the loop of `Insert` -/

section InsertLoop

variable {K V : Type} [DecidableEq K] (HashKey : K → Nat)

/-- The loop body is a doubling, when the target bucket is at global depth, followed by
the split of the target bucket. -/
theorem splitStep_eq {h : ExtendibleHash K V} (hlen : h.buckets_.length = 2 ^ h.global_depth_)
    (key : K) :
    splitStep HashKey h key =
      splitOnly HashKey
        (if (h.bucketAt (GetBucketIndex HashKey h key)).local_depth_ = h.global_depth_
          then doubled h else h) key := by
  by_cases hd : (h.bucketAt (GetBucketIndex HashKey h key)).local_depth_ = h.global_depth_
  · rw [if_pos hd]
    unfold splitOnly
    rw [bucketAt_index_doubled HashKey hlen key]
    unfold splitStep
    have hd1 : (h.deref (h.dirAt (GetBucketIndex HashKey h key))).local_depth_ =
      h.global_depth_ := hd
    simp [hd1, bucketAt, doubled]
  · rw [if_neg hd]
    unfold splitOnly splitStep
    have hd1 : ¬ (h.deref (h.dirAt (GetBucketIndex HashKey h key))).local_depth_ =
      h.global_depth_ := hd
    simp [hd1, bucketAt]

theorem splitStep_bucket_size (h : ExtendibleHash K V) (key : K) :
    (splitStep HashKey h key).bucket_size_ = h.bucket_size_ := rfl

/-- The loop body keeps the directory well-formed. -/
theorem WF.splitStep {h : ExtendibleHash K V} (hwf : WF HashKey h) (key : K) :
    WF HashKey (ExtendibleHash.splitStep HashKey h key) := by
  rw [splitStep_eq HashKey hwf.len]
  have hle := hwf.depth _ (GetBucketIndex_lt HashKey h key)
  by_cases hd : (h.bucketAt (GetBucketIndex HashKey h key)).local_depth_ = h.global_depth_
  · rw [if_pos hd]
    apply (hwf.doubled HashKey).splitOnly
    rw [bucketAt_index_doubled HashKey hwf.len key, hd]
    exact Nat.lt_succ_self _
  · rw [if_neg hd]
    exact hwf.splitOnly HashKey key (lt_of_le_of_ne hle hd)

/-- The loop body changes no lookup. -/
theorem Find_splitStep {h : ExtendibleHash K V} (hwf : WF HashKey h) (key k : K) :
    Find HashKey (splitStep HashKey h key) k = Find HashKey h k := by
  rw [splitStep_eq HashKey hwf.len]
  have hle := hwf.depth _ (GetBucketIndex_lt HashKey h key)
  by_cases hd : (h.bucketAt (GetBucketIndex HashKey h key)).local_depth_ = h.global_depth_
  · rw [if_pos hd, Find_splitOnly HashKey (hwf.doubled HashKey), Find_doubled HashKey hwf.len]
    rw [bucketAt_index_doubled HashKey hwf.len key, hd]
    exact Nat.lt_succ_self _
  · rw [if_neg hd]
    exact Find_splitOnly HashKey hwf key (lt_of_le_of_ne hle hd) k

/-- After the loop body the bucket of `key` is one level deeper and holds the slots of
the old target bucket whose hash agrees with the hash of `key` on the bit of the old
local depth. -/
theorem target_splitStep {h : ExtendibleHash K V} (hwf : WF HashKey h) (key : K) :
    ((splitStep HashKey h key).bucketAt
        (GetBucketIndex HashKey (splitStep HashKey h key) key)).local_depth_ =
        (h.bucketAt (GetBucketIndex HashKey h key)).local_depth_ + 1 ∧
      ((splitStep HashKey h key).bucketAt
        (GetBucketIndex HashKey (splitStep HashKey h key) key)).slots_ =
        (h.bucketAt (GetBucketIndex HashKey h key)).slots_.filter (fun it =>
          decide ((HashKey it.1).testBit
            (h.bucketAt (GetBucketIndex HashKey h key)).local_depth_ =
              (HashKey key).testBit (h.bucketAt (GetBucketIndex HashKey h key)).local_depth_)) := by
  rw [splitStep_eq HashKey hwf.len]
  have hle := hwf.depth _ (GetBucketIndex_lt HashKey h key)
  by_cases hd : (h.bucketAt (GetBucketIndex HashKey h key)).local_depth_ = h.global_depth_
  · rw [if_pos hd]
    have hL : ((doubled h).bucketAt (GetBucketIndex HashKey (doubled h) key)).local_depth_ <
        (doubled h).global_depth_ := by
      rw [bucketAt_index_doubled HashKey hwf.len key, hd]
      exact Nat.lt_succ_self _
    have := target_splitOnly HashKey (hwf.doubled HashKey) key hL
    rw [bucketAt_index_doubled HashKey hwf.len key] at this
    exact this
  · rw [if_neg hd]
    exact target_splitOnly HashKey hwf key (lt_of_le_of_ne hle hd)

/-- What the loop of `Insert` returns is well-formed, holds the same bindings, has the
same bucket size, and has room in the bucket of `key`. -/
theorem InsertLoop_spec (key : K) (fuel : Nat) :
    ∀ (h h1 : ExtendibleHash K V), WF HashKey h → InsertLoop HashKey key fuel h = some h1 →
      WF HashKey h1 ∧ (∀ k, Find HashKey h1 k = Find HashKey h k) ∧
        h1.bucket_size_ = h.bucket_size_ ∧
        (h1.bucketAt (GetBucketIndex HashKey h1 key)).slots_.length < h1.bucket_size_ := by
  induction fuel with
  | zero => intro h h1 _ hr; simp [InsertLoop] at hr
  | succ n ih =>
    intro h h1 hwf hr
    unfold InsertLoop at hr
    simp only at hr
    by_cases hfull : (h.deref (h.dirAt (GetBucketIndex HashKey h key))).slots_.length ≥
        h.bucket_size_
    · rw [if_pos hfull] at hr
      obtain ⟨a, b, c, d⟩ := ih _ h1 (hwf.splitStep HashKey key) hr
      refine ⟨a, ?_, ?_, d⟩
      · intro k; rw [b k, Find_splitStep HashKey hwf]
      · rw [c]; rfl
    · rw [if_neg hfull] at hr
      simp only [Option.some.injEq] at hr
      subst hr
      exact ⟨hwf, fun _ => rfl, rfl, Nat.lt_of_not_le hfull⟩

/-- The loop of `Insert` ends: with hashes below `2 ^ w`, a bucket size of at least one
and no stored key in the target bucket that has the hash of `key`, more than `w - l` tests
of the loop condition are never needed, `l` being the local depth of the target bucket. -/
theorem InsertLoop_terminates (key : K) (w : Nat) (hw : ∀ k, HashKey k < 2 ^ w) (fuel : Nat) :
    ∀ (h : ExtendibleHash K V), WF HashKey h → 0 < h.bucket_size_ →
      (∀ slot ∈ (h.bucketAt (GetBucketIndex HashKey h key)).slots_,
        HashKey slot.1 ≠ HashKey key) →
      w - (h.bucketAt (GetBucketIndex HashKey h key)).local_depth_ < fuel →
      ∃ h1, InsertLoop HashKey key fuel h = some h1 := by
  induction fuel with
  | zero => intro h _ _ _ hf; omega
  | succ n ih =>
    intro h hwf hbs hne hf
    unfold InsertLoop
    simp only
    by_cases hfull : (h.deref (h.dirAt (GetBucketIndex HashKey h key))).slots_.length ≥
        h.bucket_size_
    · rw [if_pos hfull]
      have ht := target_splitStep HashKey hwf key
      have hi := GetBucketIndex_lt HashKey h key
      have hlt : (h.bucketAt (GetBucketIndex HashKey h key)).local_depth_ < w := by
        by_contra hc
        have hge : w ≤ (h.bucketAt (GetBucketIndex HashKey h key)).local_depth_ :=
          Nat.le_of_not_lt hc
        have hempty : (h.bucketAt (GetBucketIndex HashKey h key)).slots_ = [] := by
          apply List.eq_nil_iff_forall_not_mem.2
          intro slot hs
          apply hne slot hs
          have hk := hwf.keys _ hi slot hs
          have hkey : GetBucketIndex HashKey h key %
              2 ^ (h.bucketAt (GetBucketIndex HashKey h key)).local_depth_ =
              HashKey key % 2 ^ (h.bucketAt (GetBucketIndex HashKey h key)).local_depth_ :=
            (rewired_iff HashKey hwf key hi).2 rfl
          exact eq_of_mod_eq_of_lt (hw _) (hw _) hge (hk.trans hkey)
        have hlen : (h.deref (h.dirAt (GetBucketIndex HashKey h key))).slots_.length = 0 := by
          show (h.bucketAt (GetBucketIndex HashKey h key)).slots_.length = 0
          rw [hempty]; rfl
        omega
      apply ih _ (hwf.splitStep HashKey key) hbs
      · intro slot hs
        rw [ht.2] at hs
        exact hne slot (List.mem_filter.1 hs).1
      · rw [ht.1]; omega
    · rw [if_neg hfull]
      exact ⟨h, rfl⟩

end InsertLoop

/-! ## `Insert` -/

section Insert

variable {K V : Type} [DecidableEq K] (HashKey : K → Nat)

theorem Insert_present {h : ExtendibleHash K V} (key : K) (value : V) (fuel : Nat)
    (hp : (Find HashKey h key).isSome = true) :
    Insert HashKey fuel h key value =
      some (h.setBucket (GetBucketIndex HashKey h key)
        ⟨(h.bucketAt (GetBucketIndex HashKey h key)).local_depth_,
         overwrite key value (h.bucketAt (GetBucketIndex HashKey h key)).slots_⟩) := by
  have hany : (h.deref (h.dirAt (GetBucketIndex HashKey h key))).slots_.any
      (fun slot => decide (slot.1 = key)) = true := by
    rw [slotFind_any]
    by_contra hc
    rw [← slotFind_eq_none_iff] at hc
    have : Find HashKey h key = none := hc
    rw [this] at hp
    simp at hp
  unfold Insert
  simp only [hany, if_true]
  rfl

theorem Insert_absent {h : ExtendibleHash K V} (key : K) (value : V) (fuel : Nat)
    (hp : Find HashKey h key = none) :
    Insert HashKey fuel h key value =
      (InsertLoop HashKey key fuel h).map fun h1 =>
        h1.setBucket (GetBucketIndex HashKey h1 key)
          ⟨(h1.bucketAt (GetBucketIndex HashKey h1 key)).local_depth_,
           (h1.bucketAt (GetBucketIndex HashKey h1 key)).slots_ ++ [(key, value)]⟩ := by
  have hany : (h.deref (h.dirAt (GetBucketIndex HashKey h key))).slots_.any
      (fun slot => decide (slot.1 = key)) = false := by
    have h1 : slotFind key (h.deref (h.dirAt (GetBucketIndex HashKey h key))).slots_ = none :=
      hp
    rw [slotFind_eq_none_iff, ← slotFind_any] at h1
    exact Bool.eq_false_iff.2 h1
  unfold Insert
  simp only [hany, Bool.false_eq_true, if_false]
  rfl

/-- What `Insert` returns is well-formed, binds `key` to `value`, binds every other key
as before and has the same bucket size. -/
theorem Insert_spec {h h1 : ExtendibleHash K V} (hwf : WF HashKey h) (key : K) (value : V)
    (fuel : Nat) (hr : Insert HashKey fuel h key value = some h1) :
    WF HashKey h1 ∧
      (∀ k, Find HashKey h1 k = if k = key then some value else Find HashKey h k) ∧
      h1.bucket_size_ = h.bucket_size_ := by
  have hi := GetBucketIndex_lt HashKey h key
  cases hf : Find HashKey h key with
  | some v =>
    rw [Insert_present HashKey key value fuel (by rw [hf]; rfl)] at hr
    simp only [Option.some.injEq] at hr
    subst hr
    have hin : key ∈ (h.bucketAt (GetBucketIndex HashKey h key)).slots_.map Prod.fst := by
      have := mem_of_find HashKey hf
      exact List.mem_map.2 ⟨(key, v), this, rfl⟩
    refine ⟨?_, ?_, rfl⟩
    · refine hwf.setBucket HashKey hi _ rfl ?_ ?_
      · intro slot hs
        simp only at hs ⊢
        have hk : slot.1 ∈ (overwrite key value
            (h.bucketAt (GetBucketIndex HashKey h key)).slots_).map Prod.fst :=
          List.mem_map.2 ⟨slot, hs, rfl⟩
        rw [overwrite_keys] at hk
        obtain ⟨s0, hs0, he⟩ := List.mem_map.1 hk
        rw [← he]
        exact hwf.keys _ hi s0 hs0
      · simp only
        rw [overwrite_keys]
        exact hwf.nodup _ hi
    · intro k
      refine Find_setBucket HashKey hwf key _ (some value) ?_ k
      intro k1
      exact slotFind_overwrite key value _ k1 hin
  | none =>
    rw [Insert_absent HashKey key value fuel hf] at hr
    cases hl : InsertLoop HashKey key fuel h with
    | none => rw [hl] at hr; simp at hr
    | some h2 =>
      rw [hl] at hr
      simp only [Option.map_some', Option.some.injEq] at hr
      subst hr
      obtain ⟨hwf2, hfind2, hbs2, _⟩ := InsertLoop_spec HashKey key fuel h h2 hwf hl
      have hi2 := GetBucketIndex_lt HashKey h2 key
      have hnot : key ∉ (h2.bucketAt (GetBucketIndex HashKey h2 key)).slots_.map Prod.fst := by
        rw [← slotFind_eq_none_iff]
        have := hfind2 key
        rw [hf] at this
        exact this
      refine ⟨?_, ?_, hbs2⟩
      · refine hwf2.setBucket HashKey hi2 _ rfl ?_ ?_
        · intro slot hs
          simp only at hs ⊢
          rcases List.mem_append.1 hs with h3 | h3
          · exact hwf2.keys _ hi2 slot h3
          · simp only [List.mem_singleton] at h3
            subst h3
            exact ((rewired_iff HashKey hwf2 key hi2).2 rfl).symm
        · exact keys_append_nodup key value _ (hwf2.nodup _ hi2) hnot
      · intro k
        rw [← hfind2 k]
        refine Find_setBucket HashKey hwf2 key _ (some value) ?_ k
        intro k1
        exact slotFind_append key value _ k1 hnot

/-- `Insert` returns: with hashes below `2 ^ w`, a bucket size of at least one and no
other stored key with the hash of `key`, `w + 1` tests of the loop condition suffice. -/
theorem Insert_returns {h : ExtendibleHash K V} (hwf : WF HashKey h) (key : K) (value : V)
    (w : Nat) (hw : ∀ k, HashKey k < 2 ^ w) (hbs : 0 < h.bucket_size_)
    (hne : ∀ slot ∈ (h.bucketAt (GetBucketIndex HashKey h key)).slots_,
      slot.1 ≠ key → HashKey slot.1 ≠ HashKey key)
    (fuel : Nat) (hfuel : w < fuel) :
    ∃ h1, Insert HashKey fuel h key value = some h1 := by
  cases hf : Find HashKey h key with
  | some v =>
    rw [Insert_present HashKey key value fuel (by rw [hf]; rfl)]
    exact ⟨_, rfl⟩
  | none =>
    rw [Insert_absent HashKey key value fuel hf]
    have hnot : key ∉ (h.bucketAt (GetBucketIndex HashKey h key)).slots_.map Prod.fst := by
      rw [← slotFind_eq_none_iff]; exact hf
    obtain ⟨h2, hl⟩ := InsertLoop_terminates HashKey key w hw fuel h hwf hbs
      (fun slot hs => hne slot hs (fun e => hnot (List.mem_map.2 ⟨slot, hs, e⟩)))
      (by omega)
    rw [hl]
    exact ⟨_, rfl⟩

/-- The constructor delivers a well-formed table. -/
theorem WF.of_new_table (size : Nat) : WF HashKey (ExtendibleHash.new size : ExtendibleHash K V) := by
  refine ⟨rfl, ?_, ?_, ?_, ?_, ?_⟩
  · intro i hi
    have : i = 0 := by simpa [ExtendibleHash.new] using hi
    subst this
    show (0 : Nat) < 1
    exact Nat.one_pos
  · intro i hi
    have : i = 0 := by simpa [ExtendibleHash.new] using hi
    subst this
    exact le_refl _
  · intro i j hi hj
    have h1 : i = 0 := by simpa [ExtendibleHash.new] using hi
    have h2 : j = 0 := by simpa [ExtendibleHash.new] using hj
    subst h1; subst h2
    simp
  · intro i hi slot hs
    have : i = 0 := by simpa [ExtendibleHash.new] using hi
    subst this
    simp [ExtendibleHash.new, bucketAt, deref, dirAt] at hs
  · intro i hi
    have : i = 0 := by simpa [ExtendibleHash.new] using hi
    subst this
    simp [ExtendibleHash.new, bucketAt, deref, dirAt]

theorem Find_new (size : Nat) (k : K) :
    Find HashKey (ExtendibleHash.new size : ExtendibleHash K V) k = none := by
  unfold Find
  simp [ExtendibleHash.new, GetBucketIndex, deref, dirAt]

end Insert

end ExtendibleHash

end cmudb

namespace cmudb

namespace ExtendibleHash

/-! ## Reachable tables -/

section ReachableTables

variable {K V : Type} [DecidableEq K] (HashKey : K → Nat)

/-- Every reachable table is well-formed. -/
theorem Reachable.wf {h : ExtendibleHash K V} (hr : Reachable HashKey h) : WF HashKey h := by
  induction hr with
  | init size => exact WF.of_new_table HashKey size
  | insert fuel key value _ hi ih => exact (Insert_spec HashKey ih key value fuel hi).1
  | remove key _ ih => exact ih.Remove HashKey key

theorem Reachable.insertAll {h h1 : ExtendibleHash K V} (fuel : Nat) (kvs : List (K × V))
    (hr : Reachable HashKey h) (hi : insertAll HashKey fuel kvs h = some h1) :
    Reachable HashKey h1 := by
  induction kvs generalizing h with
  | nil =>
    simp only [ExtendibleHash.insertAll, Option.some.injEq] at hi
    subst hi; exact hr
  | cons kv rest ih =>
    obtain ⟨key, value⟩ := kv
    unfold ExtendibleHash.insertAll at hi
    cases hins : Insert HashKey fuel h key value with
    | none => simp [hins] at hi
    | some h2 =>
      simp only [hins] at hi
      exact ih (Reachable.insert fuel key value hr hins) hi

/-! ## Length of the split loop -/

theorem splitTimes_zero (key : K) (h : ExtendibleHash K V) :
    splitTimes HashKey key 0 h = h := rfl

theorem filter_filter_same_hash (slots : List (K × V)) (key : K) (l : Nat) :
    (slots.filter (fun it => decide ((HashKey it.1).testBit l = (HashKey key).testBit l))).filter
        (fun it => decide (HashKey it.1 = HashKey key)) =
      slots.filter (fun it => decide (HashKey it.1 = HashKey key)) := by
  rw [List.filter_filter]
  apply List.filter_congr
  intro x _
  by_cases e : HashKey x.1 = HashKey key
  · simp [e]
  · simp [e]

/-- The loop of `Insert` does not end when at least `bucket_size_` occupants of the
target bucket have the hash of `key`: no amount of fuel lets it return. -/
theorem InsertLoop_diverges (key : K) (fuel : Nat) :
    ∀ (h : ExtendibleHash K V), WF HashKey h →
      h.bucket_size_ ≤ ((h.bucketAt (GetBucketIndex HashKey h key)).slots_.filter
        (fun it => decide (HashKey it.1 = HashKey key))).length →
      InsertLoop HashKey key fuel h = none := by
  induction fuel with
  | zero => intro h _ _; rfl
  | succ n ih =>
    intro h hwf hcol
    have hfull : (h.deref (h.dirAt (GetBucketIndex HashKey h key))).slots_.length ≥
        h.bucket_size_ :=
      le_trans hcol (List.length_filter_le _ _)
    unfold InsertLoop
    simp only
    rw [if_pos hfull]
    apply ih _ (hwf.splitStep HashKey key)
    have ht := target_splitStep HashKey hwf key
    rw [ht.2, filter_filter_same_hash]
    exact hcol

/-! ## Number of directory entries per bucket -/

theorem count_range_filter (n : Nat) (p : Nat → Prop) [DecidablePred p] :
    Nat.count p n = ((List.range n).filter (fun i => decide (p i))).length := by
  induction n with
  | zero => simp
  | succ k ih =>
    rw [Nat.count_succ, List.range_succ, List.filter_append, List.length_append, ih]
    by_cases h : p k <;> simp [h]

/-- Among the numbers below `2 ^ g`, those that agree with `c` on the `l` low bits are
`2 ^ (g - l)` many. -/
theorem count_agree (g l c : Nat) (hl : l ≤ g) :
    ((List.range (2 ^ g)).filter (fun j => decide (j % 2 ^ l = c % 2 ^ l))).length =
      2 ^ (g - l) := by
  have h := Nat.count_modEq_card (2 ^ g) (Nat.two_pow_pos l) c
  have hmod : 2 ^ g % 2 ^ l = 0 := Nat.mod_eq_zero_of_dvd (Nat.pow_dvd_pow 2 hl)
  rw [hmod, if_neg (Nat.not_lt_zero _), Nat.add_zero,
    Nat.pow_div hl (by decide)] at h
  rw [← h, count_range_filter]
  rfl

/-- In a well-formed table the bucket of local depth `l` that entry `i` points to is
pointed to by `2 ^ (g - l)` entries. -/
theorem WF.pointing {h : ExtendibleHash K V} (hwf : WF HashKey h) {i : Nat}
    (hi : i < 2 ^ h.global_depth_) :
    h.pointing i = 2 ^ (h.global_depth_ - (h.bucketAt i).local_depth_) := by
  rw [← count_agree h.global_depth_ (h.bucketAt i).local_depth_ i (hwf.depth i hi)]
  unfold ExtendibleHash.pointing
  rw [hwf.len]
  congr 1
  apply List.filter_congr
  intro j hj
  have hj1 : j < 2 ^ h.global_depth_ := List.mem_range.1 hj
  rw [decide_eq_decide]
  exact hwf.same_bucket HashKey hi hj1

end ReachableTables

end ExtendibleHash

end cmudb

namespace cmudb

namespace LRUReplacer

/-! ## LRU replacer -/

section LRU

variable {T : Type} [DecidableEq T]

theorem cacheFind_eq (r : LRUReplacer T) (v : T) : r.cacheFind v = slotFind v r._cache := rfl

theorem WF.mem_values_iff {r : LRUReplacer T} (hwf : WF r) (v : T) :
    v ∈ r.values ↔ v ∈ r._cache.map Prod.fst := by
  unfold values
  simp only [List.mem_map, Prod.exists, exists_and_right, exists_eq_right]
  constructor
  · rintro ⟨n, hn⟩; exact ⟨n, (hwf.index v n).2 hn⟩
  · rintro ⟨n, hn⟩; exact ⟨n, (hwf.index v n).1 hn⟩

theorem WF.cacheFind_none {r : LRUReplacer T} (hwf : WF r) (v : T) :
    r.cacheFind v = none ↔ v ∉ r.values := by
  rw [cacheFind_eq, slotFind_eq_none_iff, hwf.mem_values_iff]

theorem WF.cacheFind_some {r : LRUReplacer T} (hwf : WF r) {v : T} {n : Nat}
    (h : r.cacheFind v = some n) : (n, v) ∈ r._queue_fifo :=
  (hwf.index v n).1 (slotFind_mem h)

theorem WF.cacheFind_of_mem {r : LRUReplacer T} (hwf : WF r) {v : T} (h : v ∈ r.values) :
    ∃ n, r.cacheFind v = some n ∧ (n, v) ∈ r._queue_fifo := by
  cases hc : r.cacheFind v with
  | none => exact absurd h ((hwf.cacheFind_none v).1 hc)
  | some n => exact ⟨n, rfl, hwf.cacheFind_some hc⟩

/-- The size reported by `Size` is the number of values held. -/
theorem WF.Size_eq {r : LRUReplacer T} (hwf : WF r) : r.Size = r.values.length := by
  have hp : List.Perm (r._cache.map Prod.fst) r.values :=
    (List.perm_ext_iff_of_nodup hwf.keys hwf.vals).2 (fun v => (hwf.mem_values_iff v).symm)
  have := hp.length_eq
  simpa [Size] using this

theorem WF.cache_nil_iff {r : LRUReplacer T} (hwf : WF r) :
    r._cache = [] ↔ r._queue_fifo = [] := by
  have h := hwf.Size_eq
  unfold Size values at h
  rw [List.length_map] at h
  rw [← List.length_eq_zero, ← List.length_eq_zero (l := r._queue_fifo), h]

theorem WF.of_new_replacer : WF (LRUReplacer.new : LRUReplacer T) := by
  refine ⟨?_, ?_, ?_, ?_, ?_⟩ <;> simp [LRUReplacer.new]

theorem values_new : (LRUReplacer.new : LRUReplacer T).values = [] := rfl

/-- Inserting a value that is not held puts it in front. -/
theorem WF.Insert_fresh {r : LRUReplacer T} (hwf : WF r) {v : T} (hv : v ∉ r.values) :
    ∃ r1, r.Insert v = some r1 ∧ WF r1 ∧ r1.values = v :: r.values := by
  have hc := (hwf.cacheFind_none v).2 hv
  have hany : r._cache.any (fun e => decide (e.1 = v)) = false := by
    apply Bool.eq_false_iff.2
    intro hx
    exact hv ((hwf.mem_values_iff v).2 ((slotFind_any v r._cache).1 hx))
  refine ⟨{ _queue_fifo := (r.fresh, v) :: r._queue_fifo, _cache := (v, r.fresh) :: r._cache,
            fresh := r.fresh + 1 }, ?_, ?_, rfl⟩
  · unfold Insert cacheEmplace
    simp [hc, hany]
  · refine ⟨?_, ?_, ?_, ?_, ?_⟩
    · simp only [List.map_cons, List.nodup_cons]
      refine ⟨?_, hwf.ids⟩
      intro hm
      obtain ⟨node, hn, he⟩ := List.mem_map.1 hm
      have := hwf.below node hn
      omega
    · simp only [List.map_cons, List.nodup_cons]
      exact ⟨hv, hwf.vals⟩
    · simp only [List.map_cons, List.nodup_cons]
      exact ⟨fun hm => hv ((hwf.mem_values_iff v).2 hm), hwf.keys⟩
    · intro v1 n1
      simp only [List.mem_cons, Prod.mk.injEq]
      rw [hwf.index v1 n1]
      constructor
      · rintro (⟨a, b⟩ | h1)
        · exact Or.inl ⟨b, a⟩
        · exact Or.inr h1
      · rintro (⟨a, b⟩ | h1)
        · exact Or.inl ⟨b, a⟩
        · exact Or.inr h1
    · intro node hn
      simp only [List.mem_cons] at hn
      rcases hn with h1 | h1
      · subst h1; simp
      · have := hwf.below node h1
        show node.1 < r.fresh + 1
        omega

/-- In a consistent replacer a node identity determines the value and conversely. -/
theorem WF.node_iff {r : LRUReplacer T} (hwf : WF r) {n : Nat} {v : T}
    (hm : (n, v) ∈ r._queue_fifo) {node : Nat × T} (hn : node ∈ r._queue_fifo) :
    node.1 = n ↔ node.2 = v := by
  constructor
  · intro e
    have := List.inj_on_of_nodup_map hwf.ids hn hm e
    rw [this]
  · intro e
    have := List.inj_on_of_nodup_map hwf.vals hn hm e
    rw [this]

theorem WF.values_without {r : LRUReplacer T} (hwf : WF r) {n : Nat} {v : T}
    (hm : (n, v) ∈ r._queue_fifo) :
    (r.without n v).values = r.values.filter (fun x => !decide (x = v)) := by
  unfold values without
  simp only
  rw [List.filter_map]
  congr 1
  apply List.filter_congr
  intro node hn
  simp only [Function.comp]
  have := hwf.node_iff hm hn
  by_cases e : node.1 = n
  · simp [e, this.1 e]
  · have e2 : ¬ node.2 = v := fun h => e (this.2 h)
    simp [e, e2]

/-- Unlinking a node and dropping its value from the index keeps the replacer consistent. -/
theorem WF.without {r : LRUReplacer T} (hwf : WF r) {n : Nat} {v : T}
    (hm : (n, v) ∈ r._queue_fifo) : WF (r.without n v) := by
  refine ⟨?_, ?_, ?_, ?_, ?_⟩
  · exact List.Nodup.sublist ((List.filter_sublist _).map Prod.fst) hwf.ids
  · exact List.Nodup.sublist ((List.filter_sublist _).map Prod.snd) hwf.vals
  · exact List.Nodup.sublist ((List.filter_sublist _).map Prod.fst) hwf.keys
  · intro v1 n1
    unfold LRUReplacer.without cacheErase
    simp only [List.mem_filter, Bool.not_eq_true', decide_eq_false_iff_not]
    rw [hwf.index v1 n1]
    constructor
    · rintro ⟨a, b⟩
      exact ⟨a, fun e => b ((hwf.node_iff hm a).1 e)⟩
    · rintro ⟨a, b⟩
      exact ⟨a, fun e => b ((hwf.node_iff hm a).2 e)⟩
  · intro node hn
    exact hwf.below node (List.mem_filter.1 hn).1

theorem eraseP_eq_filter_of_nodup (n : Nat) (queue : List (Nat × T))
    (hnd : (queue.map Prod.fst).Nodup) :
    queue.eraseP (fun node => decide (node.1 = n)) =
      queue.filter (fun node => !decide (node.1 = n)) := by
  induction queue with
  | nil => rfl
  | cons node rest ih =>
    simp only [List.map_cons, List.nodup_cons] at hnd
    by_cases e : node.1 = n
    · have h1 : (node :: rest).eraseP (fun node => decide (node.1 = n)) = rest := by
        simp [List.eraseP_cons, e]
      rw [h1, List.filter_cons]
      simp only [e, decide_True, Bool.not_true, Bool.false_eq_true, if_false]
      symm
      apply List.filter_eq_self.2
      intro x hx
      have : x.1 ≠ n := by
        intro hxe
        apply hnd.1
        rw [e, ← hxe]
        exact List.mem_map.2 ⟨x, hx, rfl⟩
      simp [this]
    · have h1 : (node :: rest).eraseP (fun node => decide (node.1 = n)) =
          node :: rest.eraseP (fun node => decide (node.1 = n)) := by
        simp [List.eraseP_cons, e]
      rw [h1, List.filter_cons, ih hnd.2]
      simp [e]

/-- Erasing a held value unlinks it and returns `true`. -/
theorem WF.Erase_mem {r : LRUReplacer T} (hwf : WF r) {v : T} (hv : v ∈ r.values) :
    ∃ r1, r.Erase v = some (true, r1) ∧ WF r1 ∧
      r1.values = r.values.filter (fun x => !decide (x = v)) := by
  obtain ⟨n, hc, hm⟩ := hwf.cacheFind_of_mem hv
  refine ⟨r.without n v, ?_, hwf.without hm, hwf.values_without hm⟩
  have hany : r._queue_fifo.any (fun node => decide (node.1 = n)) = true := by
    rw [List.any_eq_true]
    exact ⟨(n, v), hm, by simp⟩
  unfold Erase listErase
  simp only [hc, hany, if_true, Option.map_some']
  rw [eraseP_eq_filter_of_nodup n _ hwf.ids]
  rfl

/-- Erasing a value that is not held changes nothing and returns `false`. -/
theorem WF.Erase_not_mem {r : LRUReplacer T} (hwf : WF r) {v : T} (hv : v ∉ r.values) :
    r.Erase v = some (false, r) := by
  unfold Erase
  rw [(hwf.cacheFind_none v).2 hv]

/-- What `Erase` does to a consistent replacer, whether the value is held or not. -/
theorem WF.Erase_spec {r : LRUReplacer T} (hwf : WF r) (v : T) :
    ∃ b r1, r.Erase v = some (b, r1) ∧ WF r1 ∧
      r1.values = r.values.filter (fun x => !decide (x = v)) := by
  by_cases hv : v ∈ r.values
  · obtain ⟨r1, h1, h2, h3⟩ := hwf.Erase_mem hv
    exact ⟨true, r1, h1, h2, h3⟩
  · refine ⟨false, r, hwf.Erase_not_mem hv, hwf, ?_⟩
    symm
    apply List.filter_eq_self.2
    intro x hx
    have : x ≠ v := fun e => hv (e ▸ hx)
    simp [this]

/-- `Victim` on a replacer that holds nothing returns `false` and changes nothing. -/
theorem WF.Victim_empty {r : LRUReplacer T} (hwf : WF r) (hv : r.values = []) :
    r.Victim = some (none, r) := by
  have hq : r._queue_fifo = [] := by
    unfold values at hv
    exact List.map_eq_nil_iff.1 hv
  have hc := hwf.cache_nil_iff.2 hq
  unfold Victim
  simp [hc]

/-- `Victim` on a replacer that holds values removes and returns the one at the back. -/
theorem WF.Victim_nonempty {r : LRUReplacer T} (hwf : WF r) {front : List T} {v : T}
    (hv : r.values = front ++ [v]) :
    ∃ r1, r.Victim = some (some v, r1) ∧ WF r1 ∧ r1.values = front := by
  have hne : r._queue_fifo ≠ [] := by
    intro e
    unfold values at hv
    rw [e] at hv
    simp at hv
  have hcne : r._cache ≠ [] := fun e => hne (hwf.cache_nil_iff.1 e)
  obtain ⟨node, hlast⟩ : ∃ node, r._queue_fifo.getLast? = some node := by
    cases hl : r._queue_fifo.getLast? with
    | none => exact absurd (List.getLast?_eq_none_iff.1 hl) hne
    | some node => exact ⟨node, rfl⟩
  have hq : r._queue_fifo.dropLast ++ [node] = r._queue_fifo :=
    List.dropLast_append_getLast? node hlast
  have hvals : r._queue_fifo.dropLast.map Prod.snd ++ [node.2] = front ++ [v] := by
    rw [← hv]
    unfold values
    conv_rhs => rw [← hq]
    simp
  have hnv : node.2 = v := by
    have := congrArg List.getLast? hvals
    simpa using this
  have hfront : r._queue_fifo.dropLast.map Prod.snd = front := by
    have := congrArg List.dropLast hvals
    simpa using this
  have hm : (node.1, v) ∈ r._queue_fifo := by
    rw [← hq, ← hnv]
    simp
  have hdrop : r._queue_fifo.dropLast =
      r._queue_fifo.filter (fun x => !decide (x.1 = node.1)) := by
    have hids := hwf.ids
    rw [← hq] at hids
    conv_rhs => rw [← hq]
    rw [List.filter_append]
    simp only [List.filter_cons, decide_True, Bool.not_true, Bool.false_eq_true, if_false,
      List.filter_nil, List.append_nil]
    symm
    apply List.filter_eq_self.2
    intro x hx
    rw [List.map_append, List.nodup_append] at hids
    have : x.1 ≠ node.1 := by
      intro e
      apply hids.2.2 (List.mem_map.2 ⟨x, hx, rfl⟩)
      rw [e]
      simp
    simp [this]
  have hr1 : r.Victim = some (some v, r.without node.1 v) := by
    unfold Victim
    have hce : r._cache.isEmpty = false := by
      cases hcc : r._cache with
      | nil => exact absurd hcc hcne
      | cons a b => rfl
    simp only [hce, Bool.false_eq_true, if_false, hlast]
    rw [hdrop, hnv]
    rfl
  refine ⟨r.without node.1 v, hr1, hwf.without hm, ?_⟩
  unfold values LRUReplacer.without
  simp only
  rw [← hdrop, hfront]

end LRU

end LRUReplacer

end cmudb

namespace cmudb

/-! ## Hashes of page identifiers -/

theorem HashKey_lt (k : Int) : HashKey k < 2 ^ 64 := by
  unfold HashKey
  have h1 : (0 : Int) ≤ k % 2 ^ 64 := Int.emod_nonneg _ (by norm_num)
  have h2 : k % 2 ^ 64 < 2 ^ 64 := Int.emod_lt_of_pos _ (by norm_num)
  omega

/-- Page identifiers are told apart by their hashes. -/
theorem HashKey_inj {a b : Int} (ha : isPageId a) (hb : isPageId b)
    (h : HashKey a = HashKey b) : a = b := by
  unfold HashKey at h
  unfold isPageId at ha hb
  have h1 : (0 : Int) ≤ a % 2 ^ 64 := Int.emod_nonneg _ (by norm_num)
  have h2 : (0 : Int) ≤ b % 2 ^ 64 := Int.emod_nonneg _ (by norm_num)
  have h3 : a % 2 ^ 64 = b % 2 ^ 64 := by
    rw [← Int.toNat_of_nonneg h1, ← Int.toNat_of_nonneg h2, h]
  norm_num at ha hb h3
  omega

namespace BufferPoolManager

/-! ## Frames -/

theorem getD_set_page (pages : List Page) (i j : Nat) (pg d : Page) (hi : i < pages.length) :
    (pages.set i pg).getD j d = if j = i then pg else pages.getD j d := by
  simp only [List.getD_eq_getElem?_getD, List.getElem?_set]
  by_cases hji : j = i
  · subst hji; simp [hi]
  · have : ¬ i = j := fun e => hji e.symm
    simp [hji, this]

theorem mem_filter_ne {v : Nat} {l : List Nat} {x : Nat} :
    x ∈ l.filter (fun y => !decide (y = v)) ↔ x ∈ l ∧ x ≠ v := by
  simp [List.mem_filter]

/-! ## The constructor -/

theorem pageAt_new (pool_size PAGE_SIZE BUCKET_SIZE i : Nat) :
    ((BufferPoolManager.new pool_size PAGE_SIZE BUCKET_SIZE).pageAt i).pin_count_ = 0 ∧
    ((BufferPoolManager.new pool_size PAGE_SIZE BUCKET_SIZE).pageAt i).is_dirty_ = false ∧
    ((BufferPoolManager.new pool_size PAGE_SIZE BUCKET_SIZE).pageAt i).page_id_ =
      INVALID_PAGE_ID := by
  unfold pageAt BufferPoolManager.new
  simp only [List.getD_eq_getElem?_getD]
  by_cases hi : i < pool_size
  · rw [List.getElem?_replicate_of_lt hi]
    exact ⟨rfl, rfl, rfl⟩
  · rw [List.getElem?_eq_none (by simpa using hi)]
    exact ⟨rfl, rfl, rfl⟩

/-- The freshly constructed pool satisfies the invariant. -/
theorem Inv_new (pool_size PAGE_SIZE BUCKET_SIZE : Nat) (hb : 0 < BUCKET_SIZE) :
    Inv (BufferPoolManager.new pool_size PAGE_SIZE BUCKET_SIZE) := by
  refine ⟨?_, ?_, hb, ?_, ?_, ?_, ?_, ?_, ?_, ?_, ?_, ?_, ?_, ?_, ?_⟩
  · simp [BufferPoolManager.new]
  · exact ExtendibleHash.WF.of_new_table HashKey BUCKET_SIZE
  · exact LRUReplacer.WF.of_new_replacer
  · exact List.nodup_range pool_size
  · intro i hi; exact List.mem_range.1 hi
  · intro i hi; exact absurd hi (by simp [BufferPoolManager.new, LRUReplacer.values_new])
  · intro i _; rw [(pageAt_new pool_size PAGE_SIZE BUCKET_SIZE i).1]
  · intro i _ hi; simp [BufferPoolManager.new, LRUReplacer.values_new] at hi
  · intro i hi _
    rw [(pageAt_new pool_size PAGE_SIZE BUCKET_SIZE i).1]
    have : i ∈ (BufferPoolManager.new pool_size PAGE_SIZE BUCKET_SIZE).free_list_ :=
      List.mem_range.2 hi
    simp [this]
  · intro k i hf
    have : ExtendibleHash.Find HashKey
        (BufferPoolManager.new pool_size PAGE_SIZE BUCKET_SIZE).page_table_ k = none :=
      ExtendibleHash.Find_new HashKey BUCKET_SIZE k
    rw [this] at hf; simp at hf
  · intro i hi _ hnf
    exact absurd (List.mem_range.2 hi) hnf
  · intro k i hf
    have : ExtendibleHash.Find HashKey
        (BufferPoolManager.new pool_size PAGE_SIZE BUCKET_SIZE).page_table_ k = none :=
      ExtendibleHash.Find_new HashKey BUCKET_SIZE k
    rw [this] at hf; simp at hf
  · intro i _
    exact (pageAt_new pool_size PAGE_SIZE BUCKET_SIZE i).2
  · intro i hi; exact absurd hi id

end BufferPoolManager

end cmudb

namespace cmudb

namespace BufferPoolManager

/-! ## `SelectFreePage` -/

theorem SelectFreePage_free {s : BufferPoolManager} {page : Nat} {rest : List Nat}
    (hf : s.free_list_ = page :: rest) :
    s.SelectFreePage = some (some page, { s with free_list_ := rest }) := by
  unfold SelectFreePage
  rw [hf]

/-- Taking the front of the free list leaves the pool consistent up to that frame. -/
theorem Limbo_free {s : BufferPoolManager} (hinv : Inv s) {page : Nat} {rest : List Nat}
    (hf : s.free_list_ = page :: rest) : Limbo { s with free_list_ := rest } page := by
  have hmem : page ∈ s.free_list_ := by rw [hf]; exact List.mem_cons_self _ _
  have hsub : ∀ i, i ∈ rest → i ∈ s.free_list_ := by
    intro i hi; rw [hf]; exact List.mem_cons_of_mem _ hi
  have hnd := hinv.free_nodup
  rw [hf, List.nodup_cons] at hnd
  have hlt := hinv.free_lt page hmem
  refine ⟨hinv.len, hinv.table, hinv.bsize, hinv.repl, hnd.2, ?_, hinv.repl_lt,
    hinv.pin_nonneg, ?_, ?_, ?_, ?_, hinv.ids, ?_, ?_⟩
  · intro i hi; exact hinv.free_lt i (hsub i hi)
  · intro i hi; exact hinv.disjoint i (hsub i hi)
  · intro i hi hne
    refine Iff.trans (hinv.pinned_iff i hi (fun h => h)) ?_
    show i ∉ s.free_list_ ∧ _ ↔ i ∉ rest ∧ _
    rw [hf, List.mem_cons]
    constructor
    · rintro ⟨a, b⟩; exact ⟨fun h => a (Or.inr h), b⟩
    · rintro ⟨a, b⟩; exact ⟨fun h => h.elim hne a, b⟩
  · intro k i hk
    obtain ⟨a, b, _, d⟩ := hinv.dir k i hk
    exact ⟨a, fun h => b (hsub i h), fun e => b (e ▸ hmem), d⟩
  · intro i hi hne hnf
    apply hinv.resident i hi (fun h => h)
    rw [hf, List.mem_cons]
    rintro (e | e)
    · exact hne e
    · exact hnf e
  · intro i hi; exact hinv.free_page i (hsub i hi)
  · intro i hi
    subst hi
    have hpin : ¬ 0 < (s.pageAt i).pin_count_ := by
      rw [hinv.pinned_iff i hlt (fun h => h)]
      exact fun h => h.1 hmem
    have hnn := hinv.pin_nonneg i hlt
    have hz : (s.pageAt i).pin_count_ = 0 := by omega
    exact ⟨hlt, hnd.1, hinv.disjoint i hmem, hz, (hinv.free_page i hmem).1⟩

theorem SelectFreePage_none {s : BufferPoolManager} (hinv : Inv s) (hf : s.free_list_ = [])
    (hv : s.replacer_.values = []) : s.SelectFreePage = some (none, s) := by
  have hvic := hinv.repl.Victim_empty hv
  obtain ⟨ps, pages, pt, r, fl, d⟩ := s
  simp only at hf hvic
  subst hf
  unfold SelectFreePage
  simp only [hvic]

theorem pageAt_evicted {s : BufferPoolManager} {v : Nat} (hv : v < s.pages_.length)
    (r1 : LRUReplacer Nat) (i : Nat) :
    (s.evicted v r1).pageAt i =
      if i = v then { s.pageAt v with is_dirty_ := false } else s.pageAt i := by
  unfold evicted
  cases hd : (s.pageAt v).is_dirty_
  · simp only [Bool.false_eq_true, if_false]
    by_cases e : i = v
    · subst e
      rw [if_pos rfl]
      show s.pageAt i = _
      cases hp : s.pageAt i
      rw [hp] at hd
      simp only at hd
      subst hd
      rfl
    · rw [if_neg e]; rfl
  · simp only [if_true]
    show (s.pages_.set v _).getD i _ = _
    rw [getD_set_page _ _ _ _ _ hv]
    rfl

theorem SelectFreePage_evict {s : BufferPoolManager} (hinv : Inv s) (hf : s.free_list_ = [])
    {front : List Nat} {v : Nat} (hv : s.replacer_.values = front ++ [v]) :
    ∃ r1, s.replacer_.Victim = some (some v, r1) ∧ r1.WF ∧ r1.values = front ∧
      s.SelectFreePage = some (some v, s.evicted v r1) := by
  obtain ⟨r1, h1, h2, h3⟩ := hinv.repl.Victim_nonempty hv
  refine ⟨r1, h1, h2, h3, ?_⟩
  obtain ⟨ps, pages, pt, r, fl, d⟩ := s
  simp only at hf h1
  subst hf
  unfold SelectFreePage
  simp only [h1]
  rfl

/-- Evicting the replacer's victim leaves the pool consistent up to that frame. -/
theorem Limbo_evicted {s : BufferPoolManager} (hinv : Inv s) (hf : s.free_list_ = [])
    {front : List Nat} {v : Nat} (hv : s.replacer_.values = front ++ [v])
    {r1 : LRUReplacer Nat} (hr1 : r1.WF) (hr1v : r1.values = front) :
    Limbo (s.evicted v r1) v := by
  have hvm : v ∈ s.replacer_.values := by rw [hv]; simp
  have hvlt := hinv.repl_lt v hvm
  have hvlen : v < s.pages_.length := by rw [hinv.len]; exact hvlt
  have hnd : (front ++ [v]).Nodup := by
    have := hinv.repl.vals
    unfold LRUReplacer.values at hv
    rw [hv] at this
    exact this
  have hvnf : v ∉ front := by
    intro h
    rw [List.nodup_append] at hnd
    exact hnd.2.2 h (List.mem_singleton_self v)
  have hfree : ∀ i, i ∉ s.free_list_ := by intro i; rw [hf]; simp
  have hpin : ∀ i, ((s.evicted v r1).pageAt i).pin_count_ = (s.pageAt i).pin_count_ := by
    intro i
    rw [pageAt_evicted hvlen]
    by_cases e : i = v
    · rw [if_pos e, e]
    · rw [if_neg e]
  have hpid : ∀ i, ((s.evicted v r1).pageAt i).page_id_ = (s.pageAt i).page_id_ := by
    intro i
    rw [pageAt_evicted hvlen]
    by_cases e : i = v
    · rw [if_pos e, e]
    · rw [if_neg e]
  have hres := hinv.resident v hvlt (fun h => h) (hfree v)
  have hfind : ∀ k, ExtendibleHash.Find HashKey (s.evicted v r1).page_table_ k =
      if k = (s.pageAt v).page_id_ then none else ExtendibleHash.Find HashKey s.page_table_ k :=
    fun k => ExtendibleHash.Find_Remove HashKey hinv.table _ k
  have hvpin : (s.pageAt v).pin_count_ = 0 := by
    have h1 : ¬ 0 < (s.pageAt v).pin_count_ := by
      rw [hinv.pinned_iff v hvlt (fun h => h)]
      exact fun h => h.2 hvm
    have := hinv.pin_nonneg v hvlt
    omega
  refine ⟨?_, ?_, ?_, hr1, ?_, ?_, ?_, ?_, ?_, ?_, ?_, ?_, ?_, ?_, ?_⟩
  · show (if _ then _ else _ : List Page).length = _
    split
    · rw [List.length_set]; exact hinv.len
    · exact hinv.len
  · exact hinv.table.Remove HashKey _
  · show 0 < (ExtendibleHash.Remove HashKey s.page_table_ _).2.bucket_size_
    rw [ExtendibleHash.Remove_bucket_size]; exact hinv.bsize
  · exact hinv.free_nodup
  · exact hinv.free_lt
  · intro i hi
    apply hinv.repl_lt i
    rw [hv]
    exact List.mem_append_left _ (hr1v ▸ hi)
  · intro i hi
    rw [hpin]; exact hinv.pin_nonneg i hi
  · intro i hi; exact absurd hi (hfree i)
  · intro i hi hne
    rw [hpin, hinv.pinned_iff i hi (fun h => h)]
    show _ ↔ i ∉ s.free_list_ ∧ i ∉ r1.values
    rw [hr1v, hv, List.mem_append, List.mem_singleton]
    constructor
    · rintro ⟨a, b⟩; exact ⟨a, fun h => b (Or.inl h)⟩
    · rintro ⟨a, b⟩; exact ⟨a, fun h => h.elim b hne⟩
  · intro k i hk
    rw [hfind] at hk
    by_cases e : k = (s.pageAt v).page_id_
    · rw [if_pos e] at hk; simp at hk
    · rw [if_neg e] at hk
      obtain ⟨a, b, _, d⟩ := hinv.dir k i hk
      refine ⟨a, b, ?_, by rw [hpid]; exact d⟩
      intro hiv
      apply e
      rw [← d, hiv]
  · intro i hi hne _
    rw [hpid, hfind]
    have hri := hinv.resident i hi (fun h => h) (hfree i)
    by_cases e : (s.pageAt i).page_id_ = (s.pageAt v).page_id_
    · exfalso
      rw [e, hres] at hri
      exact hne (Option.some.inj hri).symm
    · rw [if_neg e]; exact hri
  · intro k i hk
    rw [hfind] at hk
    by_cases e : k = (s.pageAt v).page_id_
    · rw [if_pos e] at hk; simp at hk
    · rw [if_neg e] at hk
      exact hinv.ids k i hk
  · intro i hi; exact absurd hi (hfree i)
  · intro i hi
    subst hi
    refine ⟨hvlt, hfree i, ?_, by rw [hpin]; exact hvpin, ?_⟩
    · show i ∉ r1.values
      rw [hr1v]; exact hvnf
    rw [pageAt_evicted hvlen, if_pos rfl]

end BufferPoolManager

end cmudb

namespace cmudb

namespace BufferPoolManager

/-! ## Binding a frame to a page -/

/-- The page table accepts a page identifier that is not resident: `Insert` returns. -/
theorem Insert_page_returns {s : BufferPoolManager} {H : Nat → Prop} (hinv : InvX s H)
    {p : Int} (hp : isPageId p) (f : Nat) :
    ∃ table, ExtendibleHash.Insert HashKey INSERT_FUEL s.page_table_ p f = some table := by
  apply ExtendibleHash.Insert_returns HashKey hinv.table p f 64 HashKey_lt hinv.bsize
  · intro slot hs hne he
    have hi := ExtendibleHash.GetBucketIndex_lt HashKey s.page_table_ p
    have hfind : ExtendibleHash.Find HashKey s.page_table_ slot.1 = some slot.2 :=
      hinv.table.find_of_mem HashKey hi (k := slot.1) (v := slot.2) hs
    exact hne (HashKey_inj (hinv.ids _ _ hfind) hp he)
  · decide

/-- Entering the frame that is being rebound in the page table, with pin count one,
restores the invariant. -/
theorem Inv_bind {s : BufferPoolManager} {f : Nat} (hl : Limbo s f) {p : Int}
    (hp : isPageId p) (hfresh : ExtendibleHash.Find HashKey s.page_table_ p = none)
    {table : ExtendibleHash Int Nat}
    (ht : ExtendibleHash.Insert HashKey INSERT_FUEL s.page_table_ p f = some table)
    (pg1 : Page) (hid : pg1.page_id_ = p) (hpin : pg1.pin_count_ = (s.pageAt f).pin_count_ + 1)
    (disk : List DiskCall) :
    Inv { s with pages_ := s.pages_.set f pg1, page_table_ := table, disk_manager_ := disk } := by
  obtain ⟨hlt, hnfree, hnrepl, hpin0, _⟩ := hl.hole f rfl
  have hflen : f < s.pages_.length := by rw [hl.len]; exact hlt
  obtain ⟨hwf, hfind, hbs⟩ := ExtendibleHash.Insert_spec HashKey hl.table p f INSERT_FUEL ht
  have hpage : ∀ i, (BufferPoolManager.pageAt
      { s with pages_ := s.pages_.set f pg1, page_table_ := table, disk_manager_ := disk } i) =
      if i = f then pg1 else s.pageAt i := by
    intro i
    exact getD_set_page _ _ _ _ _ hflen
  refine ⟨?_, hwf, ?_, hl.repl, hl.free_nodup, hl.free_lt, hl.repl_lt, ?_, hl.disjoint,
    ?_, ?_, ?_, ?_, ?_, ?_⟩
  · show (s.pages_.set f pg1).length = _
    rw [List.length_set]; exact hl.len
  · show 0 < table.bucket_size_
    rw [hbs]; exact hl.bsize
  · intro i hi
    rw [hpage]
    by_cases e : i = f
    · rw [if_pos e, hpin, hpin0]; decide
    · rw [if_neg e]; exact hl.pin_nonneg i hi
  · intro i hi _
    rw [hpage]
    by_cases e : i = f
    · rw [if_pos e, hpin, hpin0, e]
      constructor
      · intro _; exact ⟨hnfree, hnrepl⟩
      · intro _; decide
    · rw [if_neg e]; exact hl.pinned_iff i hi e
  · intro k i hk
    have hk1 : ExtendibleHash.Find HashKey table k = some i := hk
    rw [hfind] at hk1
    rw [hpage]
    by_cases e : k = p
    · rw [if_pos e] at hk1
      have hif : f = i := Option.some.inj hk1
      subst hif
      rw [if_pos rfl]
      exact ⟨hlt, hnfree, fun h => h, by rw [hid, e]⟩
    · rw [if_neg e] at hk1
      obtain ⟨a, b, c, d⟩ := hl.dir k i hk1
      rw [if_neg c]
      exact ⟨a, b, fun h => h, d⟩
  · intro i hi _ hnf
    show ExtendibleHash.Find HashKey table _ = some i
    rw [hpage, hfind]
    by_cases e : i = f
    · rw [if_pos e, hid, if_pos rfl, e]
    · rw [if_neg e]
      have hr := hl.resident i hi e hnf
      have hne : (s.pageAt i).page_id_ ≠ p := by
        intro h
        rw [h, hfresh] at hr
        simp at hr
      rw [if_neg hne]; exact hr
  · intro k i hk
    have hk1 : ExtendibleHash.Find HashKey table k = some i := hk
    rw [hfind] at hk1
    by_cases e : k = p
    · rw [e]; exact hp
    · rw [if_neg e] at hk1
      exact hl.ids k i hk1
  · intro i hi
    rw [hpage]
    have e : i ≠ f := fun h => hnfree (h ▸ hi)
    rw [if_neg e]
    exact hl.free_page i hi
  · intro i hi; exact absurd hi id

end BufferPoolManager

end cmudb

namespace cmudb

namespace BufferPoolManager

/-! ## `FetchPage` and `NewPage` -/

theorem FetchPage_miss_eq {s : BufferPoolManager} {p : Int} (d : List Nat)
    (hfind : ExtendibleHash.Find HashKey s.page_table_ p = none) :
    s.FetchPage p d =
      match s.SelectFreePage with
      | none => none
      | some (none, s1) => some (none, s1)
      | some (some page, s1) =>
        (ExtendibleHash.Insert HashKey INSERT_FUEL s1.page_table_ p page).map fun table =>
          (some page, s1.bound page (fetched (s1.pageAt page) p d) table (DiskCall.ReadPage p)) := by
  unfold FetchPage
  simp only [hfind]
  rfl

theorem NewPage_eq (s : BufferPoolManager) (a : Int) :
    s.NewPage a =
      match s.SelectFreePage with
      | none => none
      | some (none, s1) => some (none, s1)
      | some (some page, s1) =>
        (ExtendibleHash.Insert HashKey INSERT_FUEL s1.page_table_ a page).map fun table =>
          (some page, s1.bound page (created (s1.pageAt page) a) table
            (DiskCall.AllocatePage a)) := rfl

/-- A hit of `FetchPage`: the frame gets one more pin and leaves the replacer. -/
theorem FetchPage_hit {s : BufferPoolManager} (hinv : Inv s) {p : Int} {i : Nat}
    (d : List Nat) (hfind : ExtendibleHash.Find HashKey s.page_table_ p = some i) :
    ∃ r1 : LRUReplacer Nat, r1.WF ∧
      r1.values = s.replacer_.values.filter (fun x => !decide (x = i)) ∧
      s.FetchPage p d = some (some i,
        { s with pages_ := s.pages_.set i
                   { s.pageAt i with pin_count_ := (s.pageAt i).pin_count_ + 1 },
                 replacer_ := r1 }) ∧
      Inv { s with pages_ := s.pages_.set i
                     { s.pageAt i with pin_count_ := (s.pageAt i).pin_count_ + 1 },
                   replacer_ := r1 } := by
  obtain ⟨b, r1, he, hwf, hvals⟩ := hinv.repl.Erase_spec i
  obtain ⟨hlt, hnfree, _, hpid⟩ := hinv.dir p i hfind
  have hilen : i < s.pages_.length := by rw [hinv.len]; exact hlt
  refine ⟨r1, hwf, hvals, ?_, ?_⟩
  · unfold FetchPage
    simp only [hfind, he, Option.map_some']
  · have hpage : ∀ j, (BufferPoolManager.pageAt
        { s with pages_ := s.pages_.set i
                   { s.pageAt i with pin_count_ := (s.pageAt i).pin_count_ + 1 },
                 replacer_ := r1 } j) =
        if j = i then { s.pageAt i with pin_count_ := (s.pageAt i).pin_count_ + 1 }
        else s.pageAt j := by
      intro j
      exact getD_set_page _ _ _ _ _ hilen
    have hmem : ∀ j, j ∈ r1.values ↔ j ∈ s.replacer_.values ∧ j ≠ i := by
      intro j; rw [hvals]; exact mem_filter_ne
    refine ⟨?_, hinv.table, hinv.bsize, hwf, hinv.free_nodup, hinv.free_lt, ?_, ?_, ?_,
      ?_, ?_, ?_, hinv.ids, ?_, ?_⟩
    · show (s.pages_.set i _).length = _
      rw [List.length_set]; exact hinv.len
    · intro j hj
      exact hinv.repl_lt j ((hmem j).1 hj).1
    · intro j hj
      rw [hpage]
      by_cases e : j = i
      · rw [if_pos e]
        have := hinv.pin_nonneg i hlt
        show 0 ≤ (s.pageAt i).pin_count_ + 1
        omega
      · rw [if_neg e]; exact hinv.pin_nonneg j hj
    · intro j hj hm
      exact hinv.disjoint j hj ((hmem j).1 hm).1
    · intro j hj _
      rw [hpage]
      show _ ↔ j ∉ s.free_list_ ∧ j ∉ r1.values
      rw [hmem]
      by_cases e : j = i
      · rw [if_pos e, e]
        have := hinv.pin_nonneg i hlt
        constructor
        · intro _; exact ⟨hnfree, fun h => h.2 rfl⟩
        · intro _
          show 0 < (s.pageAt i).pin_count_ + 1
          omega
      · rw [if_neg e, hinv.pinned_iff j hj (fun h => h)]
        constructor
        · rintro ⟨a, b⟩; exact ⟨a, fun h => b h.1⟩
        · rintro ⟨a, b⟩; exact ⟨a, fun h => b ⟨h, e⟩⟩
    · intro k j hk
      obtain ⟨a, b, c, d1⟩ := hinv.dir k j hk
      refine ⟨a, b, c, ?_⟩
      rw [hpage]
      by_cases e : j = i
      · rw [if_pos e]; rw [e] at d1; exact d1
      · rw [if_neg e]; exact d1
    · intro j hj _ hnf
      have hr := hinv.resident j hj (fun h => h) hnf
      show ExtendibleHash.Find HashKey s.page_table_ _ = some j
      rw [hpage]
      by_cases e : j = i
      · rw [if_pos e]; rw [e] at hr; rw [e]; exact hr
      · rw [if_neg e]; exact hr
    · intro j hj
      rw [hpage]
      have e : j ≠ i := fun h => hnfree (h ▸ hj)
      rw [if_neg e]
      exact hinv.free_page j hj
    · intro j hj; exact absurd hj id

/-- A miss of `FetchPage`, or `NewPage`, when no frame is available. -/
theorem FetchPage_exhausted {s : BufferPoolManager} (hinv : Inv s) {p : Int} (d : List Nat)
    (hfind : ExtendibleHash.Find HashKey s.page_table_ p = none)
    (hf : s.free_list_ = []) (hv : s.replacer_.values = []) :
    s.FetchPage p d = some (none, s) := by
  rw [FetchPage_miss_eq d hfind, SelectFreePage_none hinv hf hv]

theorem NewPage_exhausted {s : BufferPoolManager} (hinv : Inv s) (a : Int)
    (hf : s.free_list_ = []) (hv : s.replacer_.values = []) :
    s.NewPage a = some (none, s) := by
  rw [NewPage_eq, SelectFreePage_none hinv hf hv]

/-- The frame `SelectFreePage` delivers, when there is one: the front of the free list,
else the back of the replacer; with the state it leaves. -/
theorem SelectFreePage_some {s : BufferPoolManager} (hinv : Inv s)
    (hne : ¬ (s.free_list_ = [] ∧ s.replacer_.values = [])) :
    ∃ f s1, s.SelectFreePage = some (some f, s1) ∧ Limbo s1 f ∧
      ((∃ rest, s.free_list_ = f :: rest ∧ s1 = { s with free_list_ := rest }) ∨
       (s.free_list_ = [] ∧ ∃ front r1, s.replacer_.values = front ++ [f] ∧
          s.replacer_.Victim = some (some f, r1) ∧ r1.values = front ∧
          s1 = s.evicted f r1)) := by
  cases hfl : s.free_list_ with
  | cons f rest =>
    exact ⟨f, _, SelectFreePage_free hfl, Limbo_free hinv hfl, Or.inl ⟨rest, rfl, rfl⟩⟩
  | nil =>
    have hvne : s.replacer_.values ≠ [] := fun h => hne ⟨hfl, h⟩
    obtain ⟨front, v, hv⟩ : ∃ front v, s.replacer_.values = front ++ [v] := by
      refine ⟨s.replacer_.values.dropLast, s.replacer_.values.getLast hvne, ?_⟩
      exact (List.dropLast_append_getLast hvne).symm
    obtain ⟨r1, h1, h2, h3, h4⟩ := SelectFreePage_evict hinv hfl hv
    exact ⟨v, _, h4, Limbo_evicted hinv hfl hv h2 h3,
      Or.inr ⟨rfl, front, r1, hv, h1, h3, rfl⟩⟩

/-- Lookups in the state `SelectFreePage` leaves: only the page of an evicted frame is
gone. -/
theorem Find_after_select {s s1 : BufferPoolManager} (hinv : Inv s) {f : Nat}
    (hsel : s.SelectFreePage = some (some f, s1)) (k : Int)
    (hk : ExtendibleHash.Find HashKey s.page_table_ k = none) :
    ExtendibleHash.Find HashKey s1.page_table_ k = none := by
  by_cases hne : s.free_list_ = [] ∧ s.replacer_.values = []
  · rw [SelectFreePage_none hinv hne.1 hne.2] at hsel
    simp at hsel
  · obtain ⟨f1, s2, h1, _, h3⟩ := SelectFreePage_some hinv hne
    rw [h1] at hsel
    simp only [Option.some.injEq, Prod.mk.injEq] at hsel
    obtain ⟨_, hs⟩ := hsel
    subst hs
    rcases h3 with ⟨rest, _, e⟩ | ⟨_, front, r1, _, _, _, e⟩
    · rw [e]; exact hk
    · rw [e]
      show ExtendibleHash.Find HashKey (ExtendibleHash.Remove HashKey _ _).2 k = none
      rw [ExtendibleHash.Find_Remove HashKey hinv.table, hk]
      simp

/-- A miss of `FetchPage` with a frame available binds the frame `SelectFreePage`
delivers and keeps the invariant. -/
theorem FetchPage_miss {s : BufferPoolManager} (hinv : Inv s) {p : Int} (hp : isPageId p)
    (d : List Nat) (hfind : ExtendibleHash.Find HashKey s.page_table_ p = none)
    (hne : ¬ (s.free_list_ = [] ∧ s.replacer_.values = [])) :
    ∃ f s1 table, s.SelectFreePage = some (some f, s1) ∧ Limbo s1 f ∧
      ExtendibleHash.Insert HashKey INSERT_FUEL s1.page_table_ p f = some table ∧
      s.FetchPage p d = some (some f,
        s1.bound f (fetched (s1.pageAt f) p d) table (DiskCall.ReadPage p)) ∧
      Inv (s1.bound f (fetched (s1.pageAt f) p d) table (DiskCall.ReadPage p)) := by
  obtain ⟨f, s1, hsel, hl, _⟩ := SelectFreePage_some hinv hne
  obtain ⟨table, ht⟩ := Insert_page_returns hl hp f
  refine ⟨f, s1, table, hsel, hl, ht, ?_, ?_⟩
  · rw [FetchPage_miss_eq d hfind, hsel]
    simp only [ht, Option.map_some']
  · exact Inv_bind hl hp (Find_after_select hinv hsel p hfind) ht _ rfl rfl _

/-- `NewPage` with a frame available binds the frame `SelectFreePage` delivers and keeps
the invariant. -/
theorem NewPage_some {s : BufferPoolManager} (hinv : Inv s) {a : Int} (hp : isPageId a)
    (hfresh : ExtendibleHash.Find HashKey s.page_table_ a = none)
    (hne : ¬ (s.free_list_ = [] ∧ s.replacer_.values = [])) :
    ∃ f s1 table, s.SelectFreePage = some (some f, s1) ∧ Limbo s1 f ∧
      ExtendibleHash.Insert HashKey INSERT_FUEL s1.page_table_ a f = some table ∧
      s.NewPage a = some (some f,
        s1.bound f (created (s1.pageAt f) a) table (DiskCall.AllocatePage a)) ∧
      Inv (s1.bound f (created (s1.pageAt f) a) table (DiskCall.AllocatePage a)) := by
  obtain ⟨f, s1, hsel, hl, _⟩ := SelectFreePage_some hinv hne
  obtain ⟨table, ht⟩ := Insert_page_returns hl hp f
  refine ⟨f, s1, table, hsel, hl, ht, ?_, ?_⟩
  · rw [NewPage_eq, hsel]
    simp only [ht, Option.map_some']
  · exact Inv_bind hl hp (Find_after_select hinv hsel a hfresh) ht _ rfl rfl _

end BufferPoolManager

end cmudb

namespace cmudb

namespace BufferPoolManager

/-! ## `UnpinPage`, `FlushPage` and `DeletePage` -/

theorem UnpinPage_miss {s : BufferPoolManager} {p : Int} (is_dirty : Bool)
    (hfind : ExtendibleHash.Find HashKey s.page_table_ p = none) :
    s.UnpinPage p is_dirty = some (false, s) := by
  unfold UnpinPage
  simp only [hfind]

theorem UnpinPage_unpinned {s : BufferPoolManager} {p : Int} {i : Nat} (is_dirty : Bool)
    (hfind : ExtendibleHash.Find HashKey s.page_table_ p = some i)
    (hpin : (s.pageAt i).pin_count_ ≤ 0) :
    s.UnpinPage p is_dirty = some (false, s) := by
  unfold UnpinPage
  simp only [hfind, hpin, if_true]

/-- An `UnpinPage` of a pinned page: one pin less, the dirty flag set when asked, the
frame put in front of the replacer when the pin count reaches zero. -/
theorem UnpinPage_pinned {s : BufferPoolManager} (hinv : Inv s) {p : Int} {i : Nat}
    (is_dirty : Bool) (hfind : ExtendibleHash.Find HashKey s.page_table_ p = some i)
    (hpin : 0 < (s.pageAt i).pin_count_) :
    ∃ r1 : LRUReplacer Nat, r1.WF ∧
      r1.values = (if (s.pageAt i).pin_count_ - 1 = 0 then i :: s.replacer_.values
        else s.replacer_.values) ∧
      s.UnpinPage p is_dirty = some (true,
        { s with pages_ := s.pages_.set i
                   { s.pageAt i with pin_count_ := (s.pageAt i).pin_count_ - 1,
                                     is_dirty_ := (is_dirty || (s.pageAt i).is_dirty_) },
                 replacer_ := r1 }) ∧
      Inv { s with pages_ := s.pages_.set i
                     { s.pageAt i with pin_count_ := (s.pageAt i).pin_count_ - 1,
                                       is_dirty_ := (is_dirty || (s.pageAt i).is_dirty_) },
                   replacer_ := r1 } := by
  obtain ⟨hlt, hnfree, _, hpid⟩ := hinv.dir p i hfind
  have hilen : i < s.pages_.length := by rw [hinv.len]; exact hlt
  have hnrepl : i ∉ s.replacer_.values := ((hinv.pinned_iff i hlt (fun h => h)).1 hpin).2
  have hnle : ¬ (s.pageAt i).pin_count_ ≤ 0 := by omega
  have hdirty : (if is_dirty = true then is_dirty else (s.pageAt i).is_dirty_) =
      (is_dirty || (s.pageAt i).is_dirty_) := by
    cases is_dirty <;> simp
  obtain ⟨r1, hins, hwf, hvals⟩ : ∃ r1 : LRUReplacer Nat,
      (if (s.pageAt i).pin_count_ - 1 = 0 then s.replacer_.Insert i else some s.replacer_) =
        some r1 ∧ r1.WF ∧
      r1.values = (if (s.pageAt i).pin_count_ - 1 = 0 then i :: s.replacer_.values
        else s.replacer_.values) := by
    by_cases hz : (s.pageAt i).pin_count_ - 1 = 0
    · obtain ⟨r1, h1, h2, h3⟩ := hinv.repl.Insert_fresh hnrepl
      exact ⟨r1, by rw [if_pos hz]; exact h1, h2, by rw [if_pos hz]; exact h3⟩
    · exact ⟨s.replacer_, by rw [if_neg hz], hinv.repl, by rw [if_neg hz]⟩
  refine ⟨r1, hwf, hvals, ?_, ?_⟩
  · unfold UnpinPage
    simp only [hfind, hnle, if_false, hins, Option.map_some', hdirty]
  · have hpage : ∀ j, (BufferPoolManager.pageAt
        { s with pages_ := s.pages_.set i
                   { s.pageAt i with pin_count_ := (s.pageAt i).pin_count_ - 1,
                                     is_dirty_ := (is_dirty || (s.pageAt i).is_dirty_) },
                 replacer_ := r1 } j) =
        if j = i then { s.pageAt i with pin_count_ := (s.pageAt i).pin_count_ - 1,
                                        is_dirty_ := (is_dirty || (s.pageAt i).is_dirty_) }
        else s.pageAt j := by
      intro j
      exact getD_set_page _ _ _ _ _ hilen
    have hmem : ∀ j, j ≠ i → (j ∈ r1.values ↔ j ∈ s.replacer_.values) := by
      intro j hj
      rw [hvals]
      split
      · rw [List.mem_cons]
        constructor
        · rintro (h | h)
          · exact absurd h hj
          · exact h
        · intro h; exact Or.inr h
      · exact Iff.rfl
    refine ⟨?_, hinv.table, hinv.bsize, hwf, hinv.free_nodup, hinv.free_lt, ?_, ?_, ?_,
      ?_, ?_, ?_, hinv.ids, ?_, ?_⟩
    · show (s.pages_.set i _).length = _
      rw [List.length_set]; exact hinv.len
    · intro j hj
      by_cases e : j = i
      · rw [e]; exact hlt
      · exact hinv.repl_lt j ((hmem j e).1 hj)
    · intro j hj
      rw [hpage]
      by_cases e : j = i
      · rw [if_pos e]
        show 0 ≤ (s.pageAt i).pin_count_ - 1
        omega
      · rw [if_neg e]; exact hinv.pin_nonneg j hj
    · intro j hj hm
      have e : j ≠ i := fun h => hnfree (h ▸ hj)
      exact hinv.disjoint j hj ((hmem j e).1 hm)
    · intro j hj _
      rw [hpage]
      show _ ↔ j ∉ s.free_list_ ∧ j ∉ r1.values
      by_cases e : j = i
      · rw [if_pos e, e, hvals]
        show 0 < (s.pageAt i).pin_count_ - 1 ↔ _
        by_cases hz : (s.pageAt i).pin_count_ - 1 = 0
        · rw [if_pos hz, hz]
          constructor
          · intro h; exact absurd h (by decide)
          · intro h; exact absurd (List.mem_cons_self _ _) h.2
        · rw [if_neg hz]
          constructor
          · intro _; exact ⟨hnfree, hnrepl⟩
          · intro _; omega
      · rw [if_neg e, hinv.pinned_iff j hj (fun h => h), hmem j e]
    · intro k j hk
      obtain ⟨a, b, c, d1⟩ := hinv.dir k j hk
      refine ⟨a, b, c, ?_⟩
      rw [hpage]
      by_cases e : j = i
      · rw [if_pos e]; rw [e] at d1; exact d1
      · rw [if_neg e]; exact d1
    · intro j hj _ hnf
      have hr := hinv.resident j hj (fun h => h) hnf
      show ExtendibleHash.Find HashKey s.page_table_ _ = some j
      rw [hpage]
      by_cases e : j = i
      · rw [if_pos e]; rw [e] at hr; rw [e]; exact hr
      · rw [if_neg e]; exact hr
    · intro j hj
      rw [hpage]
      have e : j ≠ i := fun h => hnfree (h ▸ hj)
      rw [if_neg e]
      exact hinv.free_page j hj
    · intro j hj; exact absurd hj id

theorem FlushPage_invalid (s : BufferPoolManager) : s.FlushPage INVALID_PAGE_ID = (false, s) := by
  unfold FlushPage
  simp

theorem FlushPage_miss {s : BufferPoolManager} {p : Int}
    (hfind : ExtendibleHash.Find HashKey s.page_table_ p = none) :
    s.FlushPage p = (false, s) := by
  unfold FlushPage
  simp only [hfind]
  split <;> rfl

theorem FlushPage_hit {s : BufferPoolManager} {p : Int} {i : Nat} (hp : p ≠ INVALID_PAGE_ID)
    (hfind : ExtendibleHash.Find HashKey s.page_table_ p = some i) :
    s.FlushPage p = (true,
      { s with pages_ := s.pages_.set i { s.pageAt i with is_dirty_ := false },
               disk_manager_ := s.disk_manager_ ++ [DiskCall.WritePage p (s.pageAt i).data_] }) := by
  unfold FlushPage
  simp only [hp, if_false, hfind]

/-- `FlushPage` keeps the invariant. -/
theorem Inv_FlushPage {s : BufferPoolManager} (hinv : Inv s) (p : Int) :
    Inv (s.FlushPage p).2 := by
  by_cases hp : p = INVALID_PAGE_ID
  · rw [hp, FlushPage_invalid]; exact hinv
  · cases hfind : ExtendibleHash.Find HashKey s.page_table_ p with
    | none => rw [FlushPage_miss hfind]; exact hinv
    | some i =>
      rw [FlushPage_hit hp hfind]
      obtain ⟨hlt, hnfree, _, hpid⟩ := hinv.dir p i hfind
      have hilen : i < s.pages_.length := by rw [hinv.len]; exact hlt
      have hpage : ∀ j, (BufferPoolManager.pageAt
          { s with pages_ := s.pages_.set i { s.pageAt i with is_dirty_ := false },
                   disk_manager_ :=
                     s.disk_manager_ ++ [DiskCall.WritePage p (s.pageAt i).data_] } j) =
          if j = i then { s.pageAt i with is_dirty_ := false } else s.pageAt j := by
        intro j
        exact getD_set_page _ _ _ _ _ hilen
      have hpin : ∀ j, (BufferPoolManager.pageAt
          { s with pages_ := s.pages_.set i { s.pageAt i with is_dirty_ := false },
                   disk_manager_ :=
                     s.disk_manager_ ++ [DiskCall.WritePage p (s.pageAt i).data_] }
            j).pin_count_ = (s.pageAt j).pin_count_ := by
        intro j
        rw [hpage]
        by_cases e : j = i
        · rw [if_pos e, e]
        · rw [if_neg e]
      have hid : ∀ j, (BufferPoolManager.pageAt
          { s with pages_ := s.pages_.set i { s.pageAt i with is_dirty_ := false },
                   disk_manager_ :=
                     s.disk_manager_ ++ [DiskCall.WritePage p (s.pageAt i).data_] }
            j).page_id_ = (s.pageAt j).page_id_ := by
        intro j
        rw [hpage]
        by_cases e : j = i
        · rw [if_pos e, e]
        · rw [if_neg e]
      refine ⟨?_, hinv.table, hinv.bsize, hinv.repl, hinv.free_nodup, hinv.free_lt,
        hinv.repl_lt, ?_, hinv.disjoint, ?_, ?_, ?_, hinv.ids, ?_, ?_⟩
      · show (s.pages_.set i _).length = _
        rw [List.length_set]; exact hinv.len
      · intro j hj; rw [hpin]; exact hinv.pin_nonneg j hj
      · intro j hj hh; rw [hpin]; exact hinv.pinned_iff j hj hh
      · intro k j hk
        obtain ⟨a, b, c, d1⟩ := hinv.dir k j hk
        exact ⟨a, b, c, by rw [hid]; exact d1⟩
      · intro j hj hh hnf
        show ExtendibleHash.Find HashKey s.page_table_ _ = some j
        rw [hid]; exact hinv.resident j hj hh hnf
      · intro j hj
        rw [hpage]
        have e : j ≠ i := fun h => hnfree (h ▸ hj)
        rw [if_neg e]
        exact hinv.free_page j hj
      · intro j hj; exact absurd hj id

theorem DeletePage_miss {s : BufferPoolManager} {p : Int}
    (hfind : ExtendibleHash.Find HashKey s.page_table_ p = none) :
    s.DeletePage p = some (false, s) := by
  unfold DeletePage
  simp only [hfind]

theorem DeletePage_pinned {s : BufferPoolManager} {p : Int} {i : Nat}
    (hfind : ExtendibleHash.Find HashKey s.page_table_ p = some i)
    (hpin : (s.pageAt i).pin_count_ ≠ 0) :
    s.DeletePage p = some (false, s) := by
  unfold DeletePage
  simp only [hfind, hpin, ne_eq, not_false_eq_true, if_true]

end BufferPoolManager

end cmudb

namespace cmudb

namespace BufferPoolManager

/-- A `DeletePage` of a resident page that is not pinned: the page leaves the page table,
the frame leaves the replacer, is reset and appended to the free list, `DeallocatePage`
is called; the value returned is `false`. -/
theorem DeletePage_unpinned {s : BufferPoolManager} (hinv : Inv s) {p : Int} {i : Nat}
    (hfind : ExtendibleHash.Find HashKey s.page_table_ p = some i)
    (hpin : (s.pageAt i).pin_count_ = 0) :
    ∃ r1 : LRUReplacer Nat, r1.WF ∧
      r1.values = s.replacer_.values.filter (fun x => !decide (x = i)) ∧
      s.DeletePage p = some (false,
        { s with pages_ := s.pages_.set i (deleted (s.pageAt i)),
                 page_table_ := (ExtendibleHash.Remove HashKey s.page_table_ p).2,
                 replacer_ := r1,
                 free_list_ := s.free_list_ ++ [i],
                 disk_manager_ := s.disk_manager_ ++ [DiskCall.DeallocatePage p] }) ∧
      Inv { s with pages_ := s.pages_.set i (deleted (s.pageAt i)),
                   page_table_ := (ExtendibleHash.Remove HashKey s.page_table_ p).2,
                   replacer_ := r1,
                   free_list_ := s.free_list_ ++ [i],
                   disk_manager_ := s.disk_manager_ ++ [DiskCall.DeallocatePage p] } := by
  obtain ⟨b, r1, he, hwf, hvals⟩ := hinv.repl.Erase_spec i
  obtain ⟨hlt, hnfree, _, hpid⟩ := hinv.dir p i hfind
  have hilen : i < s.pages_.length := by rw [hinv.len]; exact hlt
  have hnn : ¬ (s.pageAt i).pin_count_ ≠ 0 := fun h => h hpin
  refine ⟨r1, hwf, hvals, ?_, ?_⟩
  · unfold DeletePage
    simp only [hfind, hnn, if_false, he, Option.map_some']
    rfl
  · have hpage : ∀ j, (BufferPoolManager.pageAt
        { s with pages_ := s.pages_.set i (deleted (s.pageAt i)),
                 page_table_ := (ExtendibleHash.Remove HashKey s.page_table_ p).2,
                 replacer_ := r1,
                 free_list_ := s.free_list_ ++ [i],
                 disk_manager_ := s.disk_manager_ ++ [DiskCall.DeallocatePage p] } j) =
        if j = i then deleted (s.pageAt i) else s.pageAt j := by
      intro j
      exact getD_set_page _ _ _ _ _ hilen
    have hmem : ∀ j, j ∈ r1.values ↔ j ∈ s.replacer_.values ∧ j ≠ i := by
      intro j; rw [hvals]; exact mem_filter_ne
    have hfind1 : ∀ k, ExtendibleHash.Find HashKey
        (ExtendibleHash.Remove HashKey s.page_table_ p).2 k =
        if k = p then none else ExtendibleHash.Find HashKey s.page_table_ k :=
      fun k => ExtendibleHash.Find_Remove HashKey hinv.table p k
    have hfreemem : ∀ j, j ∈ s.free_list_ ++ [i] ↔ j ∈ s.free_list_ ∨ j = i := by
      intro j; simp
    refine ⟨?_, hinv.table.Remove HashKey p, ?_, hwf, ?_, ?_, ?_, ?_, ?_, ?_, ?_, ?_, ?_,
      ?_, ?_⟩
    · show (s.pages_.set i _).length = _
      rw [List.length_set]; exact hinv.len
    · show 0 < (ExtendibleHash.Remove HashKey s.page_table_ p).2.bucket_size_
      rw [ExtendibleHash.Remove_bucket_size]; exact hinv.bsize
    · show (s.free_list_ ++ [i]).Nodup
      rw [List.nodup_append]
      refine ⟨hinv.free_nodup, List.nodup_singleton i, ?_⟩
      intro a ha hb
      rw [List.mem_singleton] at hb
      exact hnfree (hb ▸ ha)
    · intro j hj
      rcases (hfreemem j).1 hj with h | h
      · exact hinv.free_lt j h
      · rw [h]; exact hlt
    · intro j hj
      exact hinv.repl_lt j ((hmem j).1 hj).1
    · intro j hj
      rw [hpage]
      by_cases e : j = i
      · rw [if_pos e]
        show 0 ≤ (s.pageAt i).pin_count_
        rw [hpin]
      · rw [if_neg e]; exact hinv.pin_nonneg j hj
    · intro j hj hm
      rcases (hfreemem j).1 hj with h | h
      · exact hinv.disjoint j h ((hmem j).1 hm).1
      · exact ((hmem j).1 hm).2 h
    · intro j hj _
      rw [hpage]
      show _ ↔ j ∉ s.free_list_ ++ [i] ∧ j ∉ r1.values
      rw [hfreemem, hmem]
      by_cases e : j = i
      · rw [if_pos e]
        show 0 < (s.pageAt i).pin_count_ ↔ _
        rw [hpin]
        constructor
        · intro h; exact absurd h (by decide)
        · intro h; exact absurd (Or.inr e) h.1
      · rw [if_neg e, hinv.pinned_iff j hj (fun h => h)]
        constructor
        · rintro ⟨a, b⟩; exact ⟨fun h => h.elim a e, fun h => b h.1⟩
        · rintro ⟨a, b⟩; exact ⟨fun h => a (Or.inl h), fun h => b ⟨h, e⟩⟩
    · intro k j hk
      have hk1 : ExtendibleHash.Find HashKey
          (ExtendibleHash.Remove HashKey s.page_table_ p).2 k = some j := hk
      rw [hfind1] at hk1
      by_cases ek : k = p
      · rw [if_pos ek] at hk1; simp at hk1
      · rw [if_neg ek] at hk1
        obtain ⟨a, b, _, d1⟩ := hinv.dir k j hk1
        have e : j ≠ i := by
          intro h
          apply ek
          rw [← d1, h, hpid]
        refine ⟨a, ?_, fun h => h, ?_⟩
        · show j ∉ s.free_list_ ++ [i]
          rw [hfreemem]
          exact fun h => h.elim b e
        · rw [hpage, if_neg e]; exact d1
    · intro j hj _ hnf
      have hnf1 : ¬ (j ∈ s.free_list_ ∨ j = i) := fun h => hnf ((hfreemem j).2 h)
      have e : j ≠ i := fun h => hnf1 (Or.inr h)
      have hr := hinv.resident j hj (fun h => h) (fun h => hnf1 (Or.inl h))
      show ExtendibleHash.Find HashKey (ExtendibleHash.Remove HashKey s.page_table_ p).2 _ =
        some j
      rw [hpage, if_neg e, hfind1]
      have hne : (s.pageAt j).page_id_ ≠ p := by
        intro h
        rw [h, hfind] at hr
        exact e (Option.some.inj hr).symm
      rw [if_neg hne]; exact hr
    · intro k j hk
      have hk1 : ExtendibleHash.Find HashKey
          (ExtendibleHash.Remove HashKey s.page_table_ p).2 k = some j := hk
      rw [hfind1] at hk1
      by_cases ek : k = p
      · rw [if_pos ek] at hk1; simp at hk1
      · rw [if_neg ek] at hk1
        exact hinv.ids k j hk1
    · intro j hj
      rw [hpage]
      by_cases e : j = i
      · rw [if_pos e]; exact ⟨rfl, rfl⟩
      · rw [if_neg e]
        rcases (hfreemem j).1 hj with h | h
        · exact hinv.free_page j h
        · exact absurd h e
    · intro j hj; exact absurd hj id

/-! ## The invariant holds in every reachable state -/

theorem Inv_FetchPage {s s1 : BufferPoolManager} (hinv : Inv s) {p : Int} (hp : isPageId p)
    {d : List Nat} {res : Option Nat} (hr : s.FetchPage p d = some (res, s1)) : Inv s1 := by
  cases hfind : ExtendibleHash.Find HashKey s.page_table_ p with
  | some i =>
    obtain ⟨r1, _, _, h3, h4⟩ := FetchPage_hit hinv d hfind
    rw [h3] at hr
    simp only [Option.some.injEq, Prod.mk.injEq] at hr
    rw [← hr.2]; exact h4
  | none =>
    by_cases hne : s.free_list_ = [] ∧ s.replacer_.values = []
    · rw [FetchPage_exhausted hinv d hfind hne.1 hne.2] at hr
      simp only [Option.some.injEq, Prod.mk.injEq] at hr
      rw [← hr.2]; exact hinv
    · obtain ⟨f, s2, table, _, _, _, h3, h4⟩ := FetchPage_miss hinv hp d hfind hne
      rw [h3] at hr
      simp only [Option.some.injEq, Prod.mk.injEq] at hr
      rw [← hr.2]; exact h4

theorem Inv_NewPage {s s1 : BufferPoolManager} (hinv : Inv s) {a : Int} (hp : isPageId a)
    (hfresh : ExtendibleHash.Find HashKey s.page_table_ a = none)
    {res : Option Nat} (hr : s.NewPage a = some (res, s1)) : Inv s1 := by
  by_cases hne : s.free_list_ = [] ∧ s.replacer_.values = []
  · rw [NewPage_exhausted hinv a hne.1 hne.2] at hr
    simp only [Option.some.injEq, Prod.mk.injEq] at hr
    rw [← hr.2]; exact hinv
  · obtain ⟨f, s2, table, _, _, _, h3, h4⟩ := NewPage_some hinv hp hfresh hne
    rw [h3] at hr
    simp only [Option.some.injEq, Prod.mk.injEq] at hr
    rw [← hr.2]; exact h4

theorem Inv_UnpinPage {s s1 : BufferPoolManager} (hinv : Inv s) {p : Int} {is_dirty : Bool}
    {res : Bool} (hr : s.UnpinPage p is_dirty = some (res, s1)) : Inv s1 := by
  cases hfind : ExtendibleHash.Find HashKey s.page_table_ p with
  | none =>
    rw [UnpinPage_miss is_dirty hfind] at hr
    simp only [Option.some.injEq, Prod.mk.injEq] at hr
    rw [← hr.2]; exact hinv
  | some i =>
    by_cases hpin : (s.pageAt i).pin_count_ ≤ 0
    · rw [UnpinPage_unpinned is_dirty hfind hpin] at hr
      simp only [Option.some.injEq, Prod.mk.injEq] at hr
      rw [← hr.2]; exact hinv
    · obtain ⟨r1, _, _, h3, h4⟩ := UnpinPage_pinned hinv is_dirty hfind (by omega)
      rw [h3] at hr
      simp only [Option.some.injEq, Prod.mk.injEq] at hr
      rw [← hr.2]; exact h4

theorem Inv_DeletePage {s s1 : BufferPoolManager} (hinv : Inv s) {p : Int}
    {res : Bool} (hr : s.DeletePage p = some (res, s1)) : Inv s1 := by
  cases hfind : ExtendibleHash.Find HashKey s.page_table_ p with
  | none =>
    rw [DeletePage_miss hfind] at hr
    simp only [Option.some.injEq, Prod.mk.injEq] at hr
    rw [← hr.2]; exact hinv
  | some i =>
    by_cases hpin : (s.pageAt i).pin_count_ = 0
    · obtain ⟨r1, _, _, h3, h4⟩ := DeletePage_unpinned hinv hfind hpin
      rw [h3] at hr
      simp only [Option.some.injEq, Prod.mk.injEq] at hr
      rw [← hr.2]; exact h4
    · rw [DeletePage_pinned hfind hpin] at hr
      simp only [Option.some.injEq, Prod.mk.injEq] at hr
      rw [← hr.2]; exact hinv

/-- Every reachable state of the pool satisfies the invariant. -/
theorem Reachable.inv {s : BufferPoolManager} (h : Reachable s) : Inv s := by
  induction h with
  | init pool_size PAGE_SIZE BUCKET_SIZE hb => exact Inv_new pool_size PAGE_SIZE BUCKET_SIZE hb
  | fetch page_id disk_data res _ hid hr ih => exact Inv_FetchPage ih hid hr
  | unpin page_id is_dirty res _ hr ih => exact Inv_UnpinPage ih hr
  | flush page_id _ ih => exact Inv_FlushPage ih page_id
  | newPage allocated res _ hid hfresh hr ih => exact Inv_NewPage ih hid hfresh hr
  | delete page_id res _ hr ih => exact Inv_DeletePage ih hr

end BufferPoolManager

end cmudb

namespace cmudb

namespace Scenario

open BufferPoolManager

/-! ## The scenario states are reachable -/

theorem pool_reachable : Reachable pool :=
  Reachable.init 3 2 2 (by decide)

theorem a1_eq : pool.FetchPage 1 [11, 12] = some (some 0, a1) := by decide

theorem a1_reachable : Reachable a1 :=
  Reachable.fetch 1 [11, 12] (some 0) pool_reachable (by decide) a1_eq

theorem a2_eq : a1.UnpinPage 1 true = some (true, a2) := by decide

theorem a2_reachable : Reachable a2 :=
  Reachable.unpin 1 true true a1_reachable a2_eq

theorem a3_eq : a2.FetchPage 2 [21, 22] = some (some 1, a3) := by decide

theorem a3_reachable : Reachable a3 :=
  Reachable.fetch 2 [21, 22] (some 1) a2_reachable (by decide) a3_eq

theorem a4_eq : a3.FetchPage 3 [31, 32] = some (some 2, a4) := by decide

theorem a4_reachable : Reachable a4 :=
  Reachable.fetch 3 [31, 32] (some 2) a3_reachable (by decide) a4_eq

theorem b2_eq : a1.FetchPage 2 [21, 22] = some (some 1, b2) := by decide

theorem b2_reachable : Reachable b2 :=
  Reachable.fetch 2 [21, 22] (some 1) a1_reachable (by decide) b2_eq

theorem b3_eq : b2.FetchPage 3 [31, 32] = some (some 2, b3) := by decide

theorem b3_reachable : Reachable b3 :=
  Reachable.fetch 3 [31, 32] (some 2) b2_reachable (by decide) b3_eq

theorem c1_eq : pool.NewPage 0 = some (some 0, c1) := by decide

theorem c1_reachable : Reachable c1 :=
  Reachable.newPage 0 (some 0) pool_reachable (by decide) (by decide) c1_eq

theorem c2_eq : c1.NewPage 1 = some (some 1, c2) := by decide

theorem c2_reachable : Reachable c2 :=
  Reachable.newPage 1 (some 1) c1_reachable (by decide) (by decide) c2_eq

theorem c3_eq : c2.NewPage 2 = some (some 2, c3) := by decide

theorem c3_reachable : Reachable c3 :=
  Reachable.newPage 2 (some 2) c2_reachable (by decide) (by decide) c3_eq

theorem d1_eq : pool.FetchPage 5 [51, 52] = some (some 0, d1) := by decide

theorem d1_reachable : Reachable d1 :=
  Reachable.fetch 5 [51, 52] (some 0) pool_reachable (by decide) d1_eq

theorem d2_eq : d1.UnpinPage 5 false = some (true, d2) := by decide

theorem d2_reachable : Reachable d2 :=
  Reachable.unpin 5 false true d1_reachable d2_eq

end Scenario

end cmudb

namespace cmudb

namespace BufferPoolManager

/-! ## Counting frames -/

theorem length_filter_three {α : Type} (a b c : α → Bool) (l : List α)
    (h : ∀ x ∈ l, (a x = true ∧ b x = false ∧ c x = false) ∨
      (a x = false ∧ b x = true ∧ c x = false) ∨ (a x = false ∧ b x = false ∧ c x = true)) :
    (l.filter a).length + (l.filter b).length + (l.filter c).length = l.length := by
  induction l with
  | nil => rfl
  | cons x rest ih =>
    have ih1 := ih (fun y hy => h y (List.mem_cons_of_mem _ hy))
    rcases h x (List.mem_cons_self _ _) with ⟨h1, h2, h3⟩ | ⟨h1, h2, h3⟩ | ⟨h1, h2, h3⟩ <;>
      simp only [List.filter_cons, h1, h2, h3, if_true, Bool.false_eq_true, if_false,
        List.length_cons] <;> omega

theorem length_eq_filter_range (l : List Nat) (n : Nat) (hnd : l.Nodup)
    (hlt : ∀ i ∈ l, i < n) :
    l.length = ((List.range n).filter (fun i => decide (i ∈ l))).length := by
  apply List.Perm.length_eq
  apply (List.perm_ext_iff_of_nodup hnd ((List.nodup_range n).filter _)).2
  intro i
  simp only [List.mem_filter, List.mem_range, decide_eq_true_eq]
  constructor
  · intro h; exact ⟨hlt i h, h⟩
  · intro h; exact h.2

/-- In a state that satisfies the invariant the free list, the replacer and the pinned
frames split the pool. -/
theorem Inv.count {s : BufferPoolManager} (hinv : Inv s) :
    s.free_list_.length + s.replacer_.Size + s.pinnedCount = s.pool_size_ := by
  rw [hinv.repl.Size_eq,
    length_eq_filter_range s.free_list_ s.pool_size_ hinv.free_nodup hinv.free_lt,
    length_eq_filter_range s.replacer_.values s.pool_size_ hinv.repl.vals hinv.repl_lt]
  unfold pinnedCount
  have := length_filter_three (fun i => decide (i ∈ s.free_list_))
    (fun i => decide (i ∈ s.replacer_.values))
    (fun i => decide (0 < (s.pageAt i).pin_count_)) (List.range s.pool_size_) ?_
  · rw [this, List.length_range]
  · intro i hi
    have hlt := List.mem_range.1 hi
    have hp := hinv.pinned_iff i hlt (fun h => h)
    simp only [decide_eq_true_eq, decide_eq_false_iff_not]
    by_cases hf : i ∈ s.free_list_
    · have hr := hinv.disjoint i hf
      exact Or.inl ⟨hf, hr, fun h => (hp.1 h).1 hf⟩
    · by_cases hr : i ∈ s.replacer_.values
      · exact Or.inr (Or.inl ⟨hf, hr, fun h => (hp.1 h).2 hr⟩)
      · exact Or.inr (Or.inr ⟨hf, hr, hp.2 ⟨hf, hr⟩⟩)

theorem pageAt_bound {s1 : BufferPoolManager} {f : Nat} (hf : f < s1.pages_.length)
    (pg1 : Page) (table : ExtendibleHash Int Nat) (call : DiskCall) (j : Nat) :
    (s1.bound f pg1 table call).pageAt j = if j = f then pg1 else s1.pageAt j :=
  getD_set_page _ _ _ _ _ hf

/-- The frame `SelectFreePage` delivers when the free list is empty. -/
theorem SelectFreePage_victim {s s1 : BufferPoolManager} (hinv : Inv s)
    (hfree : s.free_list_ = []) {front : List Nat} {v f : Nat}
    (hv : s.replacer_.values = front ++ [v])
    (hsel : s.SelectFreePage = some (some f, s1)) :
    f = v ∧ ∃ r1 : LRUReplacer Nat, r1.values = front ∧ s1 = s.evicted v r1 := by
  obtain ⟨r1, _, _, h3, h4⟩ := SelectFreePage_evict hinv hfree hv
  rw [h4] at hsel
  simp only [Option.some.injEq, Prod.mk.injEq] at hsel
  exact ⟨hsel.1.symm, r1, h3, hsel.2.symm⟩

theorem evicted_disk (s : BufferPoolManager) (v : Nat) (r1 : LRUReplacer Nat) (call : DiskCall) :
    (s.evicted v r1).disk_manager_ ++ [call] =
      s.disk_manager_ ++
        (if (s.pageAt v).is_dirty_ then
          [DiskCall.WritePage (s.pageAt v).page_id_ (s.pageAt v).data_] else []) ++ [call] := by
  unfold evicted
  cases (s.pageAt v).is_dirty_ <;> simp

/-- What `FetchPage` returns on success: the frame the page table then maps the page
to, pinned. -/
theorem FetchPage_result {s s1 : BufferPoolManager} (hinv : Inv s) {p : Int} (hp : isPageId p)
    {d : List Nat} {f : Nat} (hr : s.FetchPage p d = some (some f, s1)) :
    ExtendibleHash.Find HashKey s1.page_table_ p = some f ∧ 0 < (s1.pageAt f).pin_count_ := by
  cases hfind : ExtendibleHash.Find HashKey s.page_table_ p with
  | some i =>
    obtain ⟨r1, _, _, h3, _⟩ := FetchPage_hit hinv d hfind
    obtain ⟨hlt, _, _, _⟩ := hinv.dir p i hfind
    rw [h3] at hr
    simp only [Option.some.injEq, Prod.mk.injEq] at hr
    obtain ⟨h1, h2⟩ := hr
    subst h1; subst h2
    refine ⟨hfind, ?_⟩
    have hpage : (BufferPoolManager.pageAt
        { s with pages_ := s.pages_.set i
                   { s.pageAt i with pin_count_ := (s.pageAt i).pin_count_ + 1 },
                 replacer_ := r1 } i) =
        { s.pageAt i with pin_count_ := (s.pageAt i).pin_count_ + 1 } := by
      have := getD_set_page s.pages_ i i
        { s.pageAt i with pin_count_ := (s.pageAt i).pin_count_ + 1 } (Page.new 0)
        (by rw [hinv.len]; exact hlt)
      rw [if_pos rfl] at this
      exact this
    rw [hpage]
    have := hinv.pin_nonneg i hlt
    show 0 < (s.pageAt i).pin_count_ + 1
    omega
  | none =>
    by_cases hne : s.free_list_ = [] ∧ s.replacer_.values = []
    · rw [FetchPage_exhausted hinv d hfind hne.1 hne.2] at hr
      simp at hr
    · obtain ⟨f1, s2, table, _, hl, ht, h3, _⟩ := FetchPage_miss hinv hp d hfind hne
      rw [h3] at hr
      simp only [Option.some.injEq, Prod.mk.injEq] at hr
      obtain ⟨h1, h2⟩ := hr
      subst h1; subst h2
      obtain ⟨hlt, _, _, hpin0, _⟩ := hl.hole f1 rfl
      obtain ⟨_, hfind1, _⟩ := ExtendibleHash.Insert_spec HashKey hl.table p f1 INSERT_FUEL ht
      refine ⟨?_, ?_⟩
      · show ExtendibleHash.Find HashKey table p = some f1
        rw [hfind1, if_pos rfl]
      · rw [pageAt_bound (by rw [hl.len]; exact hlt), if_pos rfl]
        show 0 < (s2.pageAt f1).pin_count_ + 1
        rw [hpin0]; decide

end BufferPoolManager

/-! ## The claims about the buffer pool manager -/

open BufferPoolManager

/-- C1. In every state reachable from the freshly constructed pool by `FetchPage`,
`UnpinPage`, `FlushPage`, `NewPage` and `DeletePage` (`AllocatePage` never returning a
resident identifier), every frame is in exactly one of three places, the free list, the
replacer, or pinned with a positive pin count; the free list and the replacer hold no
frame twice, and the number of free frames, the size of the replacer and the number of
pinned frames add up to `pool_size_`. -/
theorem C1_frame_in_exactly_one_place (s : BufferPoolManager) (hs : Reachable s) :
    (∀ i, i < s.pool_size_ →
      (i ∈ s.free_list_ ∧ i ∉ s.replacer_.values ∧ ¬ 0 < (s.pageAt i).pin_count_) ∨
      (i ∉ s.free_list_ ∧ i ∈ s.replacer_.values ∧ ¬ 0 < (s.pageAt i).pin_count_) ∨
      (i ∉ s.free_list_ ∧ i ∉ s.replacer_.values ∧ 0 < (s.pageAt i).pin_count_)) ∧
    s.free_list_.Nodup ∧ s.replacer_.values.Nodup ∧
    s.pages_.length = s.pool_size_ ∧
    s.free_list_.length + s.replacer_.Size + s.pinnedCount = s.pool_size_ := by
  have hinv := hs.inv
  refine ⟨?_, hinv.free_nodup, hinv.repl.vals, hinv.len, hinv.count⟩
  intro i hlt
  have hp := hinv.pinned_iff i hlt (fun h => h)
  by_cases hf : i ∈ s.free_list_
  · exact Or.inl ⟨hf, hinv.disjoint i hf, fun h => (hp.1 h).1 hf⟩
  · by_cases hr : i ∈ s.replacer_.values
    · exact Or.inr (Or.inl ⟨hf, hr, fun h => (hp.1 h).2 hr⟩)
    · exact Or.inr (Or.inr ⟨hf, hr, hp.2 ⟨hf, hr⟩⟩)

/-- Witness of C1: after fetch 1, unpin 1, fetch 2 in a pool of three frames, frame 0 is
in the replacer, frame 1 is pinned and frame 2 is free. -/
theorem C1_frame_in_exactly_one_place_witness :
    Reachable Scenario.a3 ∧
    Scenario.a3.free_list_ = [2] ∧ Scenario.a3.replacer_.values = [0] ∧
    Scenario.a3.pinnedCount = 1 ∧
    Scenario.a3.free_list_.length + Scenario.a3.replacer_.Size + Scenario.a3.pinnedCount =
      Scenario.a3.pool_size_ :=
  ⟨Scenario.a3_reachable, by decide, by decide, by decide,
    (C1_frame_in_exactly_one_place Scenario.a3 Scenario.a3_reachable).2.2.2.2⟩

/-- C2, the source at the failing input: after fetch 5 and unpin 5 the page 5 is resident
with pin count zero, `DeletePage(5)` removes it from the page table and returns
`false`. -/
theorem C2_DeletePage_returns_false_on_success :
    ExtendibleHash.Find HashKey Scenario.d2.page_table_ 5 = some 0 ∧
    (Scenario.d2.pageAt 0).pin_count_ = 0 ∧
    (Scenario.d2.DeletePage 5).map Prod.fst = some false ∧
    ExtendibleHash.Find HashKey (stateOf (Scenario.d2.DeletePage 5)).page_table_ 5 = none ∧
    (stateOf (Scenario.d2.DeletePage 5)).free_list_ = [1, 2, 0] := by
  decide

/-- C3. No lost write on eviction. In a reachable state whose free list is empty and
whose replacer holds `v` at its back (the least recently inserted frame), the page of `v`
is resident; a `FetchPage` of a page that is not resident, and a `NewPage`, return the
frame `v`; the calls they make to the disk manager are, in this order, `WritePage` with
the old page id and the old buffer of `v` exactly when `v` was dirty, then `ReadPage`
(`AllocatePage` for `NewPage`); afterwards `v` is clean, holds the new page, and the old
page id is not found in the page table. -/
theorem C3_no_lost_write_on_eviction (s : BufferPoolManager) (hs : Reachable s)
    (hfree : s.free_list_ = []) (front : List Nat) (v : Nat)
    (hv : s.replacer_.values = front ++ [v]) :
    ExtendibleHash.Find HashKey s.page_table_ (s.pageAt v).page_id_ = some v ∧
    (∀ p d, isPageId p → ExtendibleHash.Find HashKey s.page_table_ p = none →
      ∃ s1, s.FetchPage p d = some (some v, s1) ∧
        s1.disk_manager_ = s.disk_manager_ ++
          (if (s.pageAt v).is_dirty_ then
            [DiskCall.WritePage (s.pageAt v).page_id_ (s.pageAt v).data_] else []) ++
          [DiskCall.ReadPage p] ∧
        (s1.pageAt v).is_dirty_ = false ∧ (s1.pageAt v).page_id_ = p ∧
        (s1.pageAt v).data_ = d ∧
        ExtendibleHash.Find HashKey s1.page_table_ (s.pageAt v).page_id_ = none ∧
        s1.replacer_.values = front) ∧
    (∀ a, isPageId a → ExtendibleHash.Find HashKey s.page_table_ a = none →
      ∃ s1, s.NewPage a = some (some v, s1) ∧
        s1.disk_manager_ = s.disk_manager_ ++
          (if (s.pageAt v).is_dirty_ then
            [DiskCall.WritePage (s.pageAt v).page_id_ (s.pageAt v).data_] else []) ++
          [DiskCall.AllocatePage a] ∧
        (s1.pageAt v).is_dirty_ = false ∧ (s1.pageAt v).page_id_ = a ∧
        (s1.pageAt v).data_ = List.replicate (s.pageAt v).data_.length 0 ∧
        ExtendibleHash.Find HashKey s1.page_table_ (s.pageAt v).page_id_ = none ∧
        s1.replacer_.values = front) := by
  have hinv := hs.inv
  have hvm : v ∈ s.replacer_.values := by rw [hv]; simp
  have hvlt := hinv.repl_lt v hvm
  have hvlen : v < s.pages_.length := by rw [hinv.len]; exact hvlt
  have hres : ExtendibleHash.Find HashKey s.page_table_ (s.pageAt v).page_id_ = some v :=
    hinv.resident v hvlt (fun h => h) (by rw [hfree]; simp)
  have hne : ¬ (s.free_list_ = [] ∧ s.replacer_.values = []) := by
    rintro ⟨_, h⟩
    rw [h] at hvm
    simp at hvm
  have hold : ∀ r1 : LRUReplacer Nat, ∀ (p : Int) (table : ExtendibleHash Int Nat),
      ExtendibleHash.Find HashKey s.page_table_ p = none →
      ExtendibleHash.Insert HashKey INSERT_FUEL (s.evicted v r1).page_table_ p v = some table →
      ExtendibleHash.Find HashKey table (s.pageAt v).page_id_ = none := by
    intro r1 p table hp ht
    have hwf1 : ExtendibleHash.WF HashKey (s.evicted v r1).page_table_ :=
      hinv.table.Remove HashKey _
    obtain ⟨_, hfind1, _⟩ := ExtendibleHash.Insert_spec HashKey hwf1 p v INSERT_FUEL ht
    have hnep : (s.pageAt v).page_id_ ≠ p := by
      intro e
      rw [e, hp] at hres
      simp at hres
    rw [hfind1, if_neg hnep]
    show ExtendibleHash.Find HashKey (ExtendibleHash.Remove HashKey _ _).2 _ = none
    rw [ExtendibleHash.Find_Remove HashKey hinv.table, if_pos rfl]
  refine ⟨hres, ?_, ?_⟩
  · intro p d hp hfind
    obtain ⟨f, s1, table, hsel, hl, ht, h3, _⟩ := FetchPage_miss hinv hp d hfind hne
    obtain ⟨hfv, r1, hr1, hs1⟩ := SelectFreePage_victim hinv hfree hv hsel
    subst hfv
    subst hs1
    refine ⟨_, h3, evicted_disk s f r1 _, ?_, ?_, ?_, hold r1 p table hfind ht, hr1⟩
    · rw [pageAt_bound (by rw [hl.len]; exact hvlt), if_pos rfl]
      show ((s.evicted f r1).pageAt f).is_dirty_ = false
      rw [pageAt_evicted hvlen, if_pos rfl]
    · rw [pageAt_bound (by rw [hl.len]; exact hvlt), if_pos rfl]
      rfl
    · rw [pageAt_bound (by rw [hl.len]; exact hvlt), if_pos rfl]
      rfl
  · intro a hp hfind
    obtain ⟨f, s1, table, hsel, hl, ht, h3, _⟩ := NewPage_some hinv hp hfind hne
    obtain ⟨hfv, r1, hr1, hs1⟩ := SelectFreePage_victim hinv hfree hv hsel
    subst hfv
    subst hs1
    refine ⟨_, h3, evicted_disk s f r1 _, ?_, ?_, ?_, hold r1 a table hfind ht, hr1⟩
    · rw [pageAt_bound (by rw [hl.len]; exact hvlt), if_pos rfl]
      show ((s.evicted f r1).pageAt f).is_dirty_ = false
      rw [pageAt_evicted hvlen, if_pos rfl]
    · rw [pageAt_bound (by rw [hl.len]; exact hvlt), if_pos rfl]
      rfl
    · rw [pageAt_bound (by rw [hl.len]; exact hvlt), if_pos rfl]
      show List.replicate ((s.evicted f r1).pageAt f).data_.length 0 = _
      rw [pageAt_evicted hvlen, if_pos rfl]

/-- Witness of C3 (pool of three frames): after fetch 1, unpin 1 dirty, fetch 2, fetch 3
the free list is empty and the replacer holds frame 0 with the dirty page 1; fetch 4
returns frame 0, issues `WritePage(1, ...)` with the buffer of page 1 before
`ReadPage(4)`, and the page table does not contain 1 afterwards. -/
theorem C3_no_lost_write_on_eviction_witness :
    Reachable Scenario.a4 ∧ Scenario.a4.free_list_ = [] ∧
    Scenario.a4.replacer_.values = [] ++ [0] ∧
    ∃ s1, Scenario.a4.FetchPage 4 [41, 42] = some (some 0, s1) ∧
      s1.disk_manager_ = [DiskCall.ReadPage 1, DiskCall.ReadPage 2, DiskCall.ReadPage 3,
        DiskCall.WritePage 1 [11, 12], DiskCall.ReadPage 4] ∧
      ExtendibleHash.Find HashKey s1.page_table_ 1 = none := by
  refine ⟨Scenario.a4_reachable, by decide, by decide, ?_⟩
  obtain ⟨s1, h1, h2, _, _, _, h6, _⟩ :=
    (C3_no_lost_write_on_eviction Scenario.a4 Scenario.a4_reachable (by decide) [] 0
      (by decide)).2.1 4 [41, 42] (by decide) (by decide)
  refine ⟨s1, h1, ?_, ?_⟩
  · rw [h2]; decide
  · have e : (Scenario.a4.pageAt 0).page_id_ = 1 := by decide
    rw [e] at h6
    exact h6

end cmudb

namespace cmudb

open BufferPoolManager

/-- C4. In a reachable state, when `FetchPage(p)` returns a frame, afterwards the page
table maps `p` to the frame returned, this frame is not in the free list, holds the page
id `p` with a pin count of at least one, and it is the only frame outside the free list
whose page id is `p`. -/
theorem C4_fetch_one_resident_copy (s : BufferPoolManager) (hs : Reachable s) (p : Int)
    (hp : isPageId p) (d : List Nat) (f : Nat) (s1 : BufferPoolManager)
    (hr : s.FetchPage p d = some (some f, s1)) :
    ExtendibleHash.Find HashKey s1.page_table_ p = some f ∧
    f < s1.pool_size_ ∧ f ∉ s1.free_list_ ∧
    (s1.pageAt f).page_id_ = p ∧ 1 ≤ (s1.pageAt f).pin_count_ ∧
    (∀ j, j < s1.pool_size_ → j ∉ s1.free_list_ → (s1.pageAt j).page_id_ = p → j = f) := by
  have hinv := hs.inv
  have hinv1 : Inv s1 := Inv_FetchPage hinv hp hr
  obtain ⟨hfind, hpin⟩ := FetchPage_result hinv hp hr
  obtain ⟨hlt, hnfree, _, hpid⟩ := hinv1.dir p f hfind
  refine ⟨hfind, hlt, hnfree, hpid, by omega, ?_⟩
  intro j hj hjf hjp
  have := hinv1.resident j hj (fun h => h) hjf
  rw [hjp, hfind] at this
  exact (Option.some.inj this).symm

/-- Witness of C4: in the pool with page 1 unpinned in frame 0, fetch 2 returns frame 1,
which then is the one frame outside the free list that holds page 2. -/
theorem C4_fetch_one_resident_copy_witness :
    Reachable Scenario.a2 ∧ isPageId 2 ∧
    Scenario.a2.FetchPage 2 [21, 22] = some (some 1, Scenario.a3) ∧
    ExtendibleHash.Find HashKey Scenario.a3.page_table_ 2 = some 1 ∧
    1 < Scenario.a3.pool_size_ ∧ 1 ∉ Scenario.a3.free_list_ ∧
    (Scenario.a3.pageAt 1).page_id_ = 2 ∧ 1 ≤ (Scenario.a3.pageAt 1).pin_count_ ∧
    (∀ j, j < Scenario.a3.pool_size_ → j ∉ Scenario.a3.free_list_ →
      (Scenario.a3.pageAt j).page_id_ = 2 → j = 1) :=
  ⟨Scenario.a2_reachable, by decide, Scenario.a3_eq,
    C4_fetch_one_resident_copy Scenario.a2 Scenario.a2_reachable 2 (by decide) [21, 22] 1
      Scenario.a3 Scenario.a3_eq⟩

/-- C5. Exhaustion. In a reachable state `NewPage` returns no frame exactly when the
free list and the replacer are both empty, and so does `FetchPage` of a page that is not
resident; when no frame is returned the state of the pool is the state before the call,
so that no call went to the disk manager; and when a frame is available both return one
(for 32-bit page ids, the allocated one not resident). -/
theorem C5_exhaustion (s : BufferPoolManager) (hs : Reachable s) :
    (∀ a s1, s.NewPage a = some (none, s1) ↔
      (s.free_list_ = [] ∧ s.replacer_.Size = 0 ∧ s1 = s)) ∧
    (∀ p d s1, ExtendibleHash.Find HashKey s.page_table_ p = none →
      (s.FetchPage p d = some (none, s1) ↔
        (s.free_list_ = [] ∧ s.replacer_.Size = 0 ∧ s1 = s))) ∧
    (∀ a, isPageId a → ExtendibleHash.Find HashKey s.page_table_ a = none →
      ¬ (s.free_list_ = [] ∧ s.replacer_.Size = 0) →
      ∃ f s1, s.NewPage a = some (some f, s1)) ∧
    (∀ p d, isPageId p → ExtendibleHash.Find HashKey s.page_table_ p = none →
      ¬ (s.free_list_ = [] ∧ s.replacer_.Size = 0) →
      ∃ f s1, s.FetchPage p d = some (some f, s1)) := by
  have hinv := hs.inv
  have hsize : s.replacer_.Size = 0 ↔ s.replacer_.values = [] := by
    rw [hinv.repl.Size_eq, List.length_eq_zero]
  have hsel : ∀ s1, s.SelectFreePage = some (none, s1) →
      s.free_list_ = [] ∧ s.replacer_.values = [] := by
    intro s1 h
    by_contra hne
    obtain ⟨f, s2, h1, _, _⟩ := SelectFreePage_some hinv hne
    rw [h1] at h
    simp at h
  refine ⟨?_, ?_, ?_, ?_⟩
  · intro a s1
    constructor
    · intro h
      have hex : s.free_list_ = [] ∧ s.replacer_.values = [] := by
        by_contra hne
        obtain ⟨f, s2, h1, _, _⟩ := SelectFreePage_some hinv hne
        rw [NewPage_eq, h1] at h
        cases hi : ExtendibleHash.Insert HashKey INSERT_FUEL s2.page_table_ a f <;>
          simp [hi] at h
      rw [NewPage_exhausted hinv a hex.1 hex.2] at h
      simp only [Option.some.injEq, Prod.mk.injEq, true_and] at h
      exact ⟨hex.1, hsize.2 hex.2, h.symm⟩
    · rintro ⟨h1, h2, h3⟩
      rw [h3]
      exact NewPage_exhausted hinv a h1 (hsize.1 h2)
  · intro p d s1 hfind
    constructor
    · intro h
      have hex : s.free_list_ = [] ∧ s.replacer_.values = [] := by
        by_contra hne
        obtain ⟨f, s2, h1, _, _⟩ := SelectFreePage_some hinv hne
        rw [FetchPage_miss_eq d hfind, h1] at h
        cases hi : ExtendibleHash.Insert HashKey INSERT_FUEL s2.page_table_ p f <;>
          simp [hi] at h
      rw [FetchPage_exhausted hinv d hfind hex.1 hex.2] at h
      simp only [Option.some.injEq, Prod.mk.injEq, true_and] at h
      exact ⟨hex.1, hsize.2 hex.2, h.symm⟩
    · rintro ⟨h1, h2, h3⟩
      rw [h3]
      exact FetchPage_exhausted hinv d hfind h1 (hsize.1 h2)
  · intro a ha hfresh hne
    have hne1 : ¬ (s.free_list_ = [] ∧ s.replacer_.values = []) :=
      fun h => hne ⟨h.1, hsize.2 h.2⟩
    obtain ⟨f, s1, table, _, _, _, h3, _⟩ := NewPage_some hinv ha hfresh hne1
    exact ⟨f, _, h3⟩
  · intro p d hp hfind hne
    have hne1 : ¬ (s.free_list_ = [] ∧ s.replacer_.values = []) :=
      fun h => hne ⟨h.1, hsize.2 h.2⟩
    obtain ⟨f, s1, table, _, _, _, h3, _⟩ := FetchPage_miss hinv hp d hfind hne1
    exact ⟨f, _, h3⟩

/-- Witness of C5 (pool of three frames): after fetch 1, 2, 3 with no unpin, fetch 4
returns no frame and changes nothing; of four `NewPage` calls in a row the first three
return the frames 0, 1, 2 and the fourth returns no frame. -/
theorem C5_exhaustion_witness :
    Reachable Scenario.b3 ∧
    Scenario.b3.FetchPage 4 [41, 42] = some (none, Scenario.b3) ∧
    Scenario.pool.NewPage 0 = some (some 0, Scenario.c1) ∧
    Scenario.c1.NewPage 1 = some (some 1, Scenario.c2) ∧
    Scenario.c2.NewPage 2 = some (some 2, Scenario.c3) ∧
    Scenario.c3.NewPage 3 = some (none, Scenario.c3) :=
  ⟨Scenario.b3_reachable,
    ((C5_exhaustion Scenario.b3 Scenario.b3_reachable).2.1 4 [41, 42] Scenario.b3
      (by decide)).2 ⟨by decide, by decide, rfl⟩,
    Scenario.c1_eq, Scenario.c2_eq, Scenario.c3_eq, by decide⟩

/-- C6. Over-unpin. `UnpinPage` of a page that is not resident, or whose frame has a pin
count of zero or less, returns `false` and leaves the whole state of the pool as it was,
for either value of `is_dirty`; in particular, in a reachable state, once an `UnpinPage`
has brought the pin count of a page from one to zero, every further `UnpinPage` of that
page returns `false` and changes nothing, the dirty flag included. -/
theorem C6_over_unpin (s : BufferPoolManager) (hs : Reachable s) (p : Int) :
    (∀ is_dirty, (ExtendibleHash.Find HashKey s.page_table_ p = none ∨
        ∃ i, ExtendibleHash.Find HashKey s.page_table_ p = some i ∧
          (s.pageAt i).pin_count_ ≤ 0) →
      s.UnpinPage p is_dirty = some (false, s)) ∧
    (∀ i is_dirty s1, ExtendibleHash.Find HashKey s.page_table_ p = some i →
      (s.pageAt i).pin_count_ = 1 → s.UnpinPage p is_dirty = some (true, s1) →
      (s1.pageAt i).pin_count_ = 0 ∧
      ∀ again, s1.UnpinPage p again = some (false, s1)) := by
  have hinv := hs.inv
  refine ⟨?_, ?_⟩
  · rintro is_dirty (h | ⟨i, h1, h2⟩)
    · exact UnpinPage_miss is_dirty h
    · exact UnpinPage_unpinned is_dirty h1 h2
  · intro i is_dirty s1 hfind hpin hr
    obtain ⟨r1, _, _, h3, _⟩ := UnpinPage_pinned hinv is_dirty hfind (by omega)
    obtain ⟨hlt, _, _, _⟩ := hinv.dir p i hfind
    rw [h3] at hr
    simp only [Option.some.injEq, Prod.mk.injEq, true_and] at hr
    subst hr
    have hpage : (BufferPoolManager.pageAt
        { s with pages_ := s.pages_.set i
                   { s.pageAt i with pin_count_ := (s.pageAt i).pin_count_ - 1,
                                     is_dirty_ := (is_dirty || (s.pageAt i).is_dirty_) },
                 replacer_ := r1 } i).pin_count_ = 0 := by
      have := getD_set_page s.pages_ i i
        { s.pageAt i with pin_count_ := (s.pageAt i).pin_count_ - 1,
                          is_dirty_ := (is_dirty || (s.pageAt i).is_dirty_) } (Page.new 0)
        (by rw [hinv.len]; exact hlt)
      rw [if_pos rfl] at this
      have h2 := congrArg Page.pin_count_ this
      have h3 : (s.pageAt i).pin_count_ - 1 = 0 := by omega
      exact h2.trans h3
    refine ⟨hpage, ?_⟩
    intro again
    exact UnpinPage_unpinned again (i := i) hfind (by rw [hpage])

/-- Witness of C6: page 1 was fetched once; the first `UnpinPage(1, true)` returns `true`,
a second one, clean or dirty, returns `false` and changes nothing, and so does an
`UnpinPage` of page 9, which is not resident. -/
theorem C6_over_unpin_witness :
    Reachable Scenario.a1 ∧
    Scenario.a1.UnpinPage 1 true = some (true, Scenario.a2) ∧
    (Scenario.a2.pageAt 0).pin_count_ = 0 ∧
    (∀ again, Scenario.a2.UnpinPage 1 again = some (false, Scenario.a2)) ∧
    Scenario.a1.UnpinPage 9 true = some (false, Scenario.a1) :=
  ⟨Scenario.a1_reachable, Scenario.a2_eq,
    ((C6_over_unpin Scenario.a1 Scenario.a1_reachable 1).2 0 true Scenario.a2 (by decide)
      (by decide) Scenario.a2_eq).1,
    ((C6_over_unpin Scenario.a1 Scenario.a1_reachable 1).2 0 true Scenario.a2 (by decide)
      (by decide) Scenario.a2_eq).2,
    (C6_over_unpin Scenario.a1 Scenario.a1_reachable 9).1 true (Or.inl (by decide))⟩

end cmudb

namespace cmudb

open BufferPoolManager

/-- C7. In a reachable state, `UnpinPage(p, is_dirty)` of a resident page whose frame has
a pin count `n > 0` returns `true`, leaves the frame with pin count `n - 1` and with the
dirty flag `old dirty || is_dirty` (so a clean unpin never clears the flag), with the
same page id and buffer; afterwards the frame is in the replacer, at the front, exactly
when `n - 1 = 0` (it was not in the replacer before); no other frame changes, and the
page table, the free list and the disk trace are as before. -/
theorem C7_unpin_pinned (s : BufferPoolManager) (hs : Reachable s) (p : Int) (i : Nat)
    (is_dirty : Bool) (hfind : ExtendibleHash.Find HashKey s.page_table_ p = some i)
    (hpin : 0 < (s.pageAt i).pin_count_) :
    ∃ s1, s.UnpinPage p is_dirty = some (true, s1) ∧
      (s1.pageAt i).pin_count_ = (s.pageAt i).pin_count_ - 1 ∧
      (s1.pageAt i).is_dirty_ = ((s.pageAt i).is_dirty_ || is_dirty) ∧
      (s1.pageAt i).page_id_ = (s.pageAt i).page_id_ ∧
      (s1.pageAt i).data_ = (s.pageAt i).data_ ∧
      i ∉ s.replacer_.values ∧
      (i ∈ s1.replacer_.values ↔ (s.pageAt i).pin_count_ - 1 = 0) ∧
      s1.replacer_.values =
        (if (s.pageAt i).pin_count_ - 1 = 0 then i :: s.replacer_.values
          else s.replacer_.values) ∧
      (∀ j, j ≠ i → s1.pageAt j = s.pageAt j) ∧
      s1.page_table_ = s.page_table_ ∧ s1.free_list_ = s.free_list_ ∧
      s1.disk_manager_ = s.disk_manager_ ∧ s1.pool_size_ = s.pool_size_ := by
  have hinv := hs.inv
  obtain ⟨r1, _, hvals, h3, _⟩ := UnpinPage_pinned hinv is_dirty hfind hpin
  obtain ⟨hlt, _, _, _⟩ := hinv.dir p i hfind
  have hnrepl : i ∉ s.replacer_.values := ((hinv.pinned_iff i hlt (fun h => h)).1 hpin).2
  have hpage : ∀ j, (BufferPoolManager.pageAt
      { s with pages_ := s.pages_.set i
                 { s.pageAt i with pin_count_ := (s.pageAt i).pin_count_ - 1,
                                   is_dirty_ := (is_dirty || (s.pageAt i).is_dirty_) },
               replacer_ := r1 } j) =
      if j = i then { s.pageAt i with pin_count_ := (s.pageAt i).pin_count_ - 1,
                                      is_dirty_ := (is_dirty || (s.pageAt i).is_dirty_) }
      else s.pageAt j := by
    intro j
    exact getD_set_page _ _ _ _ _ (by rw [hinv.len]; exact hlt)
  refine ⟨_, h3, ?_, ?_, ?_, ?_, hnrepl, ?_, hvals, ?_, rfl, rfl, rfl, rfl⟩
  · rw [hpage, if_pos rfl]
  · rw [hpage, if_pos rfl]
    exact Bool.or_comm _ _
  · rw [hpage, if_pos rfl]
  · rw [hpage, if_pos rfl]
  · show i ∈ r1.values ↔ _
    rw [hvals]
    by_cases hz : (s.pageAt i).pin_count_ - 1 = 0
    · rw [if_pos hz]
      exact ⟨fun _ => hz, fun _ => List.mem_cons_self _ _⟩
    · rw [if_neg hz]
      exact ⟨fun h => absurd h hnrepl, fun h => absurd h hz⟩
  · intro j hj
    rw [hpage, if_neg hj]

/-- Witness of C7: page 1 is pinned once in frame 0 and clean; `UnpinPage(1, true)`
returns `true`, leaves pin count 0 and the dirty flag set, and puts frame 0 in the
replacer. -/
theorem C7_unpin_pinned_witness :
    Reachable Scenario.a1 ∧
    ExtendibleHash.Find HashKey Scenario.a1.page_table_ 1 = some 0 ∧
    (Scenario.a1.pageAt 0).pin_count_ = 1 ∧ (Scenario.a1.pageAt 0).is_dirty_ = false ∧
    ∃ s1, Scenario.a1.UnpinPage 1 true = some (true, s1) ∧
      (s1.pageAt 0).pin_count_ = 0 ∧ (s1.pageAt 0).is_dirty_ = true ∧
      0 ∈ s1.replacer_.values := by
  refine ⟨Scenario.a1_reachable, by decide, by decide, by decide, ?_⟩
  obtain ⟨s1, h1, h2, h3, _, _, _, h7, _⟩ :=
    C7_unpin_pinned Scenario.a1 Scenario.a1_reachable 1 0 true (by decide) (by decide)
  have e1 : (Scenario.a1.pageAt 0).pin_count_ = 1 := by decide
  have e2 : (Scenario.a1.pageAt 0).is_dirty_ = false := by decide
  rw [e1] at h2 h7
  rw [e2] at h3
  exact ⟨s1, h1, h2, h3, h7.2 rfl⟩

/-- C8. `DeletePage(p)` of a page that is not resident, or that is resident with a pin
count different from zero, returns `false` and leaves the whole state of the pool as it
was: frames, page table, replacer, free list, and the trace of disk calls, so that
`DeallocatePage` is not called. -/
theorem C8_delete_refused (s : BufferPoolManager) (p : Int)
    (h : ExtendibleHash.Find HashKey s.page_table_ p = none ∨
      ∃ i, ExtendibleHash.Find HashKey s.page_table_ p = some i ∧
        (s.pageAt i).pin_count_ ≠ 0) :
    s.DeletePage p = some (false, s) := by
  rcases h with h | ⟨i, h1, h2⟩
  · exact DeletePage_miss h
  · exact DeletePage_pinned h1 h2

/-- Witness of C8: with page 1 pinned in frame 0, `DeletePage(1)` is refused, and so is
`DeletePage(9)` of a page that is not resident. -/
theorem C8_delete_refused_witness :
    (ExtendibleHash.Find HashKey Scenario.a1.page_table_ 1 = some 0 ∧
      (Scenario.a1.pageAt 0).pin_count_ ≠ 0) ∧
    Scenario.a1.DeletePage 1 = some (false, Scenario.a1) ∧
    ExtendibleHash.Find HashKey Scenario.a1.page_table_ 9 = none ∧
    Scenario.a1.DeletePage 9 = some (false, Scenario.a1) :=
  ⟨by decide,
    C8_delete_refused Scenario.a1 1 (Or.inr ⟨0, by decide, by decide⟩),
    by decide,
    C8_delete_refused Scenario.a1 9 (Or.inl (by decide))⟩

/-- C9. In a reachable state, `DeletePage(p)` of a resident page with pin count zero
returns, and afterwards: `p` is not found in the page table; the frame that held it is
not in the replacer, has page id `INVALID_PAGE_ID`, is clean, has pin count zero and a
buffer of zeroes of the old length, and is appended at the back of the free list;
`DeallocatePage(p)` is the one call added to the disk trace; every other frame, every
other binding of the page table and the other entries of the replacer are as before. -/
theorem C9_delete_effects (s : BufferPoolManager) (hs : Reachable s) (p : Int) (i : Nat)
    (hfind : ExtendibleHash.Find HashKey s.page_table_ p = some i)
    (hpin : (s.pageAt i).pin_count_ = 0) :
    ∃ res s1, s.DeletePage p = some (res, s1) ∧
      ExtendibleHash.Find HashKey s1.page_table_ p = none ∧
      i ∈ s.replacer_.values ∧ i ∉ s1.replacer_.values ∧
      (s1.pageAt i).page_id_ = INVALID_PAGE_ID ∧ (s1.pageAt i).is_dirty_ = false ∧
      (s1.pageAt i).pin_count_ = 0 ∧
      (s1.pageAt i).data_ = List.replicate (s.pageAt i).data_.length 0 ∧
      i ∉ s.free_list_ ∧ s1.free_list_ = s.free_list_ ++ [i] ∧
      s1.disk_manager_ = s.disk_manager_ ++ [DiskCall.DeallocatePage p] ∧
      (∀ j, j ≠ i → s1.pageAt j = s.pageAt j) ∧
      (∀ k, k ≠ p → ExtendibleHash.Find HashKey s1.page_table_ k =
        ExtendibleHash.Find HashKey s.page_table_ k) ∧
      s1.replacer_.values = s.replacer_.values.filter (fun x => !decide (x = i)) := by
  have hinv := hs.inv
  obtain ⟨r1, _, hvals, h3, _⟩ := DeletePage_unpinned hinv hfind hpin
  obtain ⟨hlt, hnfree, _, _⟩ := hinv.dir p i hfind
  have hin : i ∈ s.replacer_.values := by
    by_contra hc
    have := (hinv.pinned_iff i hlt (fun h => h)).2 ⟨hnfree, hc⟩
    omega
  have hpage : ∀ j, (BufferPoolManager.pageAt
      { s with pages_ := s.pages_.set i (deleted (s.pageAt i)),
               page_table_ := (ExtendibleHash.Remove HashKey s.page_table_ p).2,
               replacer_ := r1,
               free_list_ := s.free_list_ ++ [i],
               disk_manager_ := s.disk_manager_ ++ [DiskCall.DeallocatePage p] } j) =
      if j = i then deleted (s.pageAt i) else s.pageAt j := by
    intro j
    exact getD_set_page _ _ _ _ _ (by rw [hinv.len]; exact hlt)
  refine ⟨false, _, h3, ?_, hin, ?_, ?_, ?_, ?_, ?_, hnfree, rfl, rfl, ?_, ?_, hvals⟩
  · show ExtendibleHash.Find HashKey (ExtendibleHash.Remove HashKey s.page_table_ p).2 p = none
    rw [ExtendibleHash.Find_Remove HashKey hinv.table, if_pos rfl]
  · show i ∉ r1.values
    rw [hvals]
    intro h
    exact (mem_filter_ne.1 h).2 rfl
  · rw [hpage, if_pos rfl]; rfl
  · rw [hpage, if_pos rfl]; rfl
  · rw [hpage, if_pos rfl]; exact hpin
  · rw [hpage, if_pos rfl]; rfl
  · intro j hj
    rw [hpage, if_neg hj]
  · intro k hk
    show ExtendibleHash.Find HashKey (ExtendibleHash.Remove HashKey s.page_table_ p).2 k = _
    rw [ExtendibleHash.Find_Remove HashKey hinv.table, if_neg hk]

/-- Witness of C9: fetch 5, unpin 5, delete 5 in a pool of three frames. Page 5 is gone
from the page table, frame 0 is reset and at the back of the free list, and
`DeallocatePage(5)` was called once. -/
theorem C9_delete_effects_witness :
    Reachable Scenario.d2 ∧
    ExtendibleHash.Find HashKey Scenario.d2.page_table_ 5 = some 0 ∧
    (Scenario.d2.pageAt 0).pin_count_ = 0 ∧
    ∃ res s1, Scenario.d2.DeletePage 5 = some (res, s1) ∧
      ExtendibleHash.Find HashKey s1.page_table_ 5 = none ∧
      0 ∉ s1.replacer_.values ∧
      s1.pageAt 0 = { data_ := [0, 0], page_id_ := INVALID_PAGE_ID, pin_count_ := 0,
                      is_dirty_ := false } ∧
      s1.free_list_ = [1, 2, 0] ∧
      s1.disk_manager_ = [DiskCall.ReadPage 5, DiskCall.DeallocatePage 5] := by
  refine ⟨Scenario.d2_reachable, by decide, by decide, ?_⟩
  obtain ⟨res, s1, h1, h2, _, h4, h5, h6, h7, h8, _, h10, h11, _⟩ :=
    C9_delete_effects Scenario.d2 Scenario.d2_reachable 5 0 (by decide) (by decide)
  refine ⟨res, s1, h1, h2, h4, ?_, ?_, ?_⟩
  · cases hpg : s1.pageAt 0
    rw [hpg] at h5 h6 h7 h8
    simp only at h5 h6 h7 h8
    subst h5; subst h6; subst h7
    rw [h8]
    rfl
  · rw [h10]; decide
  · rw [h11]; decide

/-- C10. `FlushPage(p)` returns `false` and changes nothing, so issues no disk write,
when `p` is `INVALID_PAGE_ID` or is not resident. Otherwise, in a reachable state and
whatever the pin count of the frame, it returns `true`, adds the one call
`WritePage(p, buffer)` to the disk trace, leaves the frame clean with the same buffer,
page id and pin count, and leaves the other frames, the page table, the replacer and the
free list as they were; a second `FlushPage(p)` right after writes the same buffer
again. -/
theorem C10_flush (s : BufferPoolManager) (hs : Reachable s) (p : Int) :
    ((p = INVALID_PAGE_ID ∨ ExtendibleHash.Find HashKey s.page_table_ p = none) →
      s.FlushPage p = (false, s)) ∧
    (∀ i, p ≠ INVALID_PAGE_ID → ExtendibleHash.Find HashKey s.page_table_ p = some i →
      (s.FlushPage p).1 = true ∧
      (s.FlushPage p).2.disk_manager_ =
        s.disk_manager_ ++ [DiskCall.WritePage p (s.pageAt i).data_] ∧
      ((s.FlushPage p).2.pageAt i).is_dirty_ = false ∧
      ((s.FlushPage p).2.pageAt i).data_ = (s.pageAt i).data_ ∧
      ((s.FlushPage p).2.pageAt i).pin_count_ = (s.pageAt i).pin_count_ ∧
      ((s.FlushPage p).2.pageAt i).page_id_ = (s.pageAt i).page_id_ ∧
      (∀ j, j ≠ i → (s.FlushPage p).2.pageAt j = s.pageAt j) ∧
      (s.FlushPage p).2.page_table_ = s.page_table_ ∧
      (s.FlushPage p).2.replacer_ = s.replacer_ ∧
      (s.FlushPage p).2.free_list_ = s.free_list_ ∧
      ((s.FlushPage p).2.FlushPage p).1 = true ∧
      ((s.FlushPage p).2.FlushPage p).2.disk_manager_ =
        s.disk_manager_ ++ [DiskCall.WritePage p (s.pageAt i).data_,
          DiskCall.WritePage p (s.pageAt i).data_]) := by
  have hinv := hs.inv
  refine ⟨?_, ?_⟩
  · rintro (h | h)
    · rw [h]; exact FlushPage_invalid s
    · exact FlushPage_miss h
  · intro i hp hfind
    obtain ⟨hlt, _, _, _⟩ := hinv.dir p i hfind
    have hpage : ∀ j, (BufferPoolManager.pageAt
        { s with pages_ := s.pages_.set i { s.pageAt i with is_dirty_ := false },
                 disk_manager_ :=
                   s.disk_manager_ ++ [DiskCall.WritePage p (s.pageAt i).data_] } j) =
        if j = i then { s.pageAt i with is_dirty_ := false } else s.pageAt j := by
      intro j
      exact getD_set_page _ _ _ _ _ (by rw [hinv.len]; exact hlt)
    have hfind2 : ExtendibleHash.Find HashKey
        (BufferPoolManager.page_table_
          { s with pages_ := s.pages_.set i { s.pageAt i with is_dirty_ := false },
                   disk_manager_ :=
                     s.disk_manager_ ++ [DiskCall.WritePage p (s.pageAt i).data_] }) p =
        some i := hfind
    rw [FlushPage_hit hp hfind]
    refine ⟨rfl, rfl, ?_, ?_, ?_, ?_, ?_, rfl, rfl, rfl, ?_, ?_⟩
    · show (BufferPoolManager.pageAt _ i).is_dirty_ = false
      rw [hpage, if_pos rfl]
    · show (BufferPoolManager.pageAt _ i).data_ = _
      rw [hpage, if_pos rfl]
    · show (BufferPoolManager.pageAt _ i).pin_count_ = _
      rw [hpage, if_pos rfl]
    · show (BufferPoolManager.pageAt _ i).page_id_ = _
      rw [hpage, if_pos rfl]
    · intro j hj
      show BufferPoolManager.pageAt _ j = _
      rw [hpage, if_neg hj]
    · simp only
      rw [FlushPage_hit hp hfind2]
    · simp only
      rw [FlushPage_hit hp hfind2]
      show (s.disk_manager_ ++ _) ++ [DiskCall.WritePage p (BufferPoolManager.pageAt _ i).data_]
        = _
      rw [hpage, if_pos rfl]
      simp

/-- Witness of C10: with page 1 pinned in frame 0, `FlushPage(1)` returns `true` and
writes the buffer of page 1; `FlushPage(INVALID_PAGE_ID)` and `FlushPage(9)` return
`false` and change nothing. -/
theorem C10_flush_witness :
    Reachable Scenario.a1 ∧
    (Scenario.a1.pageAt 0).pin_count_ = 1 ∧
    (Scenario.a1.FlushPage 1).1 = true ∧
    (Scenario.a1.FlushPage 1).2.disk_manager_ =
      [DiskCall.ReadPage 1, DiskCall.WritePage 1 [11, 12]] ∧
    Scenario.a1.FlushPage INVALID_PAGE_ID = (false, Scenario.a1) ∧
    Scenario.a1.FlushPage 9 = (false, Scenario.a1) := by
  have h := C10_flush Scenario.a1 Scenario.a1_reachable 1
  have h2 := h.2 0 (by decide) (by decide)
  refine ⟨Scenario.a1_reachable, by decide, h2.1, ?_, ?_, ?_⟩
  · rw [h2.2.1]; decide
  · exact (C10_flush Scenario.a1 Scenario.a1_reachable INVALID_PAGE_ID).1 (Or.inl rfl)
  · exact (C10_flush Scenario.a1 Scenario.a1_reachable 9).1 (Or.inr (by decide))

end cmudb

namespace cmudb

namespace BufferPoolManager

/-- The frame a `FetchPage` of a page without pins returns: pinned once, and dirty only
when the page was resident and dirty before. -/
theorem FetchPage_once {s s1 : BufferPoolManager} (hinv : Inv s) {p : Int} (hp : isPageId p)
    {d : List Nat} {f : Nat}
    (hunp : ∀ i, ExtendibleHash.Find HashKey s.page_table_ p = some i →
      (s.pageAt i).pin_count_ = 0)
    (hr : s.FetchPage p d = some (some f, s1)) :
    (s1.pageAt f).pin_count_ = 1 ∧
    (ExtendibleHash.Find HashKey s.page_table_ p = none → (s1.pageAt f).is_dirty_ = false) ∧
    (∀ i, ExtendibleHash.Find HashKey s.page_table_ p = some i →
      f = i ∧ (s1.pageAt f).is_dirty_ = (s.pageAt i).is_dirty_) := by
  cases hfind : ExtendibleHash.Find HashKey s.page_table_ p with
  | some i =>
    obtain ⟨r1, _, _, h3, _⟩ := FetchPage_hit hinv d hfind
    obtain ⟨hlt, _, _, _⟩ := hinv.dir p i hfind
    rw [h3] at hr
    simp only [Option.some.injEq, Prod.mk.injEq] at hr
    obtain ⟨h1, h2⟩ := hr
    subst h1; subst h2
    have hpage : (BufferPoolManager.pageAt
        { s with pages_ := s.pages_.set i
                   { s.pageAt i with pin_count_ := (s.pageAt i).pin_count_ + 1 },
                 replacer_ := r1 } i) =
        { s.pageAt i with pin_count_ := (s.pageAt i).pin_count_ + 1 } := by
      have := getD_set_page s.pages_ i i
        { s.pageAt i with pin_count_ := (s.pageAt i).pin_count_ + 1 } (Page.new 0)
        (by rw [hinv.len]; exact hlt)
      rw [if_pos rfl] at this
      exact this
    rw [hpage]
    refine ⟨?_, fun h => by simp at h, ?_⟩
    · show (s.pageAt i).pin_count_ + 1 = 1
      rw [hunp i hfind]; rfl
    · intro j hj
      have e : i = j := Option.some.inj hj
      subst e
      exact ⟨rfl, rfl⟩
  | none =>
    by_cases hne : s.free_list_ = [] ∧ s.replacer_.values = []
    · rw [FetchPage_exhausted hinv d hfind hne.1 hne.2] at hr
      simp at hr
    · obtain ⟨f1, s2, table, _, hl, ht, h3, _⟩ := FetchPage_miss hinv hp d hfind hne
      rw [h3] at hr
      simp only [Option.some.injEq, Prod.mk.injEq] at hr
      obtain ⟨h1, h2⟩ := hr
      subst h1; subst h2
      obtain ⟨hlt, _, _, hpin0, hclean⟩ := hl.hole f1 rfl
      rw [pageAt_bound (by rw [hl.len]; exact hlt), if_pos rfl]
      refine ⟨?_, fun _ => hclean, fun i hi => by simp at hi⟩
      show (s2.pageAt f1).pin_count_ + 1 = 1
      rw [hpin0]; rfl

end BufferPoolManager

open BufferPoolManager

/-- C11. Fetch/unpin round trip. In a reachable state, when `FetchPage(p)` of a page that
has no pin (not resident, or resident with pin count zero) returns a frame, the frame has
pin count exactly one, and the following `UnpinPage(p, false)` returns `true` and leaves
`p` resident in that frame with pin count zero, the frame in the replacer, and the dirty
flag false unless `p` was resident and dirty before the fetch, in which case it stays
set. -/
theorem C11_fetch_unpin_round_trip (s : BufferPoolManager) (hs : Reachable s) (p : Int)
    (hp : isPageId p) (d : List Nat) (f : Nat) (s1 : BufferPoolManager)
    (hunp : ∀ i, ExtendibleHash.Find HashKey s.page_table_ p = some i →
      (s.pageAt i).pin_count_ = 0)
    (hr : s.FetchPage p d = some (some f, s1)) :
    (s1.pageAt f).pin_count_ = 1 ∧
    ∃ s2, s1.UnpinPage p false = some (true, s2) ∧
      ExtendibleHash.Find HashKey s2.page_table_ p = some f ∧
      (s2.pageAt f).pin_count_ = 0 ∧ f ∈ s2.replacer_.values ∧
      (ExtendibleHash.Find HashKey s.page_table_ p = none →
        (s2.pageAt f).is_dirty_ = false) ∧
      (∀ i, ExtendibleHash.Find HashKey s.page_table_ p = some i →
        f = i ∧ (s2.pageAt f).is_dirty_ = (s.pageAt i).is_dirty_) := by
  have hinv := hs.inv
  have hinv1 : Inv s1 := Inv_FetchPage hinv hp hr
  obtain ⟨hfind1, _⟩ := FetchPage_result hinv hp hr
  obtain ⟨hpin1, hd1, hd2⟩ := FetchPage_once hinv hp hunp hr
  obtain ⟨r1, _, hvals, h3, _⟩ := UnpinPage_pinned hinv1 false hfind1 (by rw [hpin1]; decide)
  obtain ⟨hlt, _, _, _⟩ := hinv1.dir p f hfind1
  have hpage : (BufferPoolManager.pageAt
      { s1 with pages_ := s1.pages_.set f
                  { s1.pageAt f with pin_count_ := (s1.pageAt f).pin_count_ - 1,
                                     is_dirty_ := (false || (s1.pageAt f).is_dirty_) },
                replacer_ := r1 } f) =
      { s1.pageAt f with pin_count_ := (s1.pageAt f).pin_count_ - 1,
                         is_dirty_ := (false || (s1.pageAt f).is_dirty_) } := by
    have := getD_set_page s1.pages_ f f
      { s1.pageAt f with pin_count_ := (s1.pageAt f).pin_count_ - 1,
                         is_dirty_ := (false || (s1.pageAt f).is_dirty_) } (Page.new 0)
      (by rw [hinv1.len]; exact hlt)
    rw [if_pos rfl] at this
    exact this
  refine ⟨hpin1, _, h3, hfind1, ?_, ?_, ?_, ?_⟩
  · rw [hpage]
    show (s1.pageAt f).pin_count_ - 1 = 0
    rw [hpin1]; rfl
  · show f ∈ r1.values
    rw [hvals, hpin1]
    simp
  · intro hn
    rw [hpage]
    show (false || (s1.pageAt f).is_dirty_) = false
    rw [hd1 hn]; rfl
  · intro i hi
    obtain ⟨e, hdi⟩ := hd2 i hi
    refine ⟨e, ?_⟩
    rw [hpage]
    show (false || (s1.pageAt f).is_dirty_) = _
    rw [hdi]; rfl

/-- Witness of C11: page 1 is resident, dirty and without pins in frame 0; fetch 1
returns frame 0 with pin count one, and after `UnpinPage(1, false)` page 1 is resident
with pin count zero, in the replacer, and still dirty. -/
theorem C11_fetch_unpin_round_trip_witness :
    Reachable Scenario.a2 ∧ isPageId 1 ∧
    ExtendibleHash.Find HashKey Scenario.a2.page_table_ 1 = some 0 ∧
    (Scenario.a2.pageAt 0).pin_count_ = 0 ∧ (Scenario.a2.pageAt 0).is_dirty_ = true ∧
    ∃ s1, Scenario.a2.FetchPage 1 [11, 12] = some (some 0, s1) ∧
      (s1.pageAt 0).pin_count_ = 1 ∧
      ∃ s2, s1.UnpinPage 1 false = some (true, s2) ∧
        ExtendibleHash.Find HashKey s2.page_table_ 1 = some 0 ∧
        (s2.pageAt 0).pin_count_ = 0 ∧ 0 ∈ s2.replacer_.values ∧
        (s2.pageAt 0).is_dirty_ = true := by
  refine ⟨Scenario.a2_reachable, by decide, by decide, by decide, by decide,
    stateOf (Scenario.a2.FetchPage 1 [11, 12]), by decide, ?_⟩
  obtain ⟨h1, s2, h2, h3, h4, h5, _, h7⟩ :=
    C11_fetch_unpin_round_trip Scenario.a2 Scenario.a2_reachable 1 (by decide) [11, 12] 0
      (stateOf (Scenario.a2.FetchPage 1 [11, 12]))
      (by
        intro i hi
        have e : ExtendibleHash.Find HashKey Scenario.a2.page_table_ 1 = some 0 := by decide
        rw [e] at hi
        have e2 : 0 = i := Option.some.inj hi
        subst e2
        decide)
      (by decide)
  refine ⟨h1, s2, h2, h3, h4, h5, ?_⟩
  rw [(h7 0 (by decide)).2]
  decide

/-- C12. Free list first. In a reachable state whose free list is not empty, a
`FetchPage` of a page that is not resident and a `NewPage` both return the frame at the
front of the free list and remove it from the free list; the one call they make to the
disk manager is `ReadPage` (`AllocatePage` for `NewPage`), so no `WritePage`; the
replacer is not touched, every binding the page table had is still there, and no other
frame changes. -/
theorem C12_free_list_first (s : BufferPoolManager) (hs : Reachable s) (f : Nat)
    (rest : List Nat) (hfree : s.free_list_ = f :: rest) :
    (∀ p d, isPageId p → ExtendibleHash.Find HashKey s.page_table_ p = none →
      ∃ s1, s.FetchPage p d = some (some f, s1) ∧ s1.free_list_ = rest ∧
        s1.disk_manager_ = s.disk_manager_ ++ [DiskCall.ReadPage p] ∧
        s1.replacer_ = s.replacer_ ∧
        (∀ k, k ≠ p → ExtendibleHash.Find HashKey s1.page_table_ k =
          ExtendibleHash.Find HashKey s.page_table_ k) ∧
        ExtendibleHash.Find HashKey s1.page_table_ p = some f ∧
        (∀ j, j ≠ f → s1.pageAt j = s.pageAt j)) ∧
    (∀ a, isPageId a → ExtendibleHash.Find HashKey s.page_table_ a = none →
      ∃ s1, s.NewPage a = some (some f, s1) ∧ s1.free_list_ = rest ∧
        s1.disk_manager_ = s.disk_manager_ ++ [DiskCall.AllocatePage a] ∧
        s1.replacer_ = s.replacer_ ∧
        (∀ k, k ≠ a → ExtendibleHash.Find HashKey s1.page_table_ k =
          ExtendibleHash.Find HashKey s.page_table_ k) ∧
        ExtendibleHash.Find HashKey s1.page_table_ a = some f ∧
        (∀ j, j ≠ f → s1.pageAt j = s.pageAt j)) := by
  have hinv := hs.inv
  have hne : ¬ (s.free_list_ = [] ∧ s.replacer_.values = []) := by
    rintro ⟨h, _⟩
    rw [hfree] at h
    simp at h
  have hsel0 := SelectFreePage_free hfree
  have hflt : f < s.pages_.length := by
    rw [hinv.len]
    exact hinv.free_lt f (by rw [hfree]; exact List.mem_cons_self _ _)
  refine ⟨?_, ?_⟩
  · intro p d hp hfind
    obtain ⟨f1, s1, table, hsel, hl, ht, h3, _⟩ := FetchPage_miss hinv hp d hfind hne
    rw [hsel0] at hsel
    simp only [Option.some.injEq, Prod.mk.injEq] at hsel
    obtain ⟨e1, e2⟩ := hsel
    subst e1; subst e2
    obtain ⟨_, hfind1, _⟩ := ExtendibleHash.Insert_spec HashKey hl.table p f INSERT_FUEL ht
    refine ⟨_, h3, rfl, rfl, rfl, ?_, ?_, ?_⟩
    · intro k hk
      show ExtendibleHash.Find HashKey table k = _
      rw [hfind1, if_neg hk]
    · show ExtendibleHash.Find HashKey table p = _
      rw [hfind1, if_pos rfl]
    · intro j hj
      rw [@pageAt_bound { s with free_list_ := rest } f hflt, if_neg hj]
      rfl
  · intro a hp hfind
    obtain ⟨f1, s1, table, hsel, hl, ht, h3, _⟩ := NewPage_some hinv hp hfind hne
    rw [hsel0] at hsel
    simp only [Option.some.injEq, Prod.mk.injEq] at hsel
    obtain ⟨e1, e2⟩ := hsel
    subst e1; subst e2
    obtain ⟨_, hfind1, _⟩ := ExtendibleHash.Insert_spec HashKey hl.table a f INSERT_FUEL ht
    refine ⟨_, h3, rfl, rfl, rfl, ?_, ?_, ?_⟩
    · intro k hk
      show ExtendibleHash.Find HashKey table k = _
      rw [hfind1, if_neg hk]
    · show ExtendibleHash.Find HashKey table a = _
      rw [hfind1, if_pos rfl]
    · intro j hj
      rw [@pageAt_bound { s with free_list_ := rest } f hflt, if_neg hj]
      rfl

/-- Witness of C12: with page 1 unpinned in the replacer and the frames 1 and 2 free,
fetch 2 takes frame 1 from the free list, leaves page 1 resident and the replacer as it
was, and only calls `ReadPage(2)`. -/
theorem C12_free_list_first_witness :
    Reachable Scenario.a2 ∧ Scenario.a2.free_list_ = 1 :: [2] ∧
    Scenario.a2.replacer_.values = [0] ∧
    ∃ s1, Scenario.a2.FetchPage 2 [21, 22] = some (some 1, s1) ∧ s1.free_list_ = [2] ∧
      s1.disk_manager_ = [DiskCall.ReadPage 1, DiskCall.ReadPage 2] ∧
      s1.replacer_.values = [0] ∧
      ExtendibleHash.Find HashKey s1.page_table_ 1 = some 0 := by
  refine ⟨Scenario.a2_reachable, by decide, by decide, ?_⟩
  obtain ⟨s1, h1, h2, h3, h4, h5, _, _⟩ :=
    (C12_free_list_first Scenario.a2 Scenario.a2_reachable 1 [2] (by decide)).1 2 [21, 22]
      (by decide) (by decide)
  refine ⟨s1, h1, h2, ?_, ?_, ?_⟩
  · rw [h3]; decide
  · rw [h4]; decide
  · rw [h5 1 (by decide)]; decide

end cmudb

namespace cmudb

namespace ExtendibleHash

section TableFacts

variable {K V : Type} [DecidableEq K] (HashKey : K → Nat)

/-- A stored slot lies in the bucket `Find` scans for its key. -/
theorem WF.dir_of_mem {h : ExtendibleHash K V} (hwf : WF HashKey h) {i : Nat}
    (hi : i < 2 ^ h.global_depth_) {k : K} {v : V} (hm : (k, v) ∈ (h.bucketAt i).slots_) :
    h.dirAt i = h.dirAt (GetBucketIndex HashKey h k) := by
  have hk := hwf.keys i hi (k, v) hm
  have hidx := GetBucketIndex_lt HashKey h k
  have hd := hwf.depth i hi
  symm
  rw [hwf.same_bucket HashKey hi hidx, GetBucketIndex_eq, mod_mod_two_pow _ hd]
  exact hk

theorem deref_setBucket_depth {h : ExtendibleHash K V} {i : Nat}
    (hp : h.dirAt i < h.heap.length) (slots : List (K × V)) (p : Nat) :
    ((h.setBucket i ⟨(h.bucketAt i).local_depth_, slots⟩).deref p).local_depth_ =
      (h.deref p).local_depth_ := by
  rw [deref_setBucket h i _ p hp]
  by_cases e : p = h.dirAt i
  · rw [if_pos e, e]; rfl
  · rw [if_neg e]

end TableFacts

end ExtendibleHash

namespace Scenario

open ExtendibleHash

theorem table7_eq :
    insertAll identityHash 65 keys7 (ExtendibleHash.new 2) = some table7 := by decide

theorem table7_reachable : Reachable identityHash table7 :=
  Reachable.insertAll identityHash 65 keys7 (Reachable.init 2) table7_eq

theorem table8_eq : Insert identityHash 65 table7 7 70 = some table8 := by decide

theorem table8_reachable : Reachable identityHash table8 :=
  Reachable.insert 65 7 70 table7_reachable table8_eq

end Scenario

open ExtendibleHash

/-- C13. The extendible hash is a finite map under `Insert`. In every table reachable
from the empty table, when `Insert(k, v)` returns, `Find(k)` delivers `v` and `Find` of
every other key delivers what it delivered before, across any number of doublings and
splits; `k` has one slot, in the bucket `Find` scans, and no slot in any other bucket;
and when `k` was present before, the directory, the depths and the keys of every bucket
are as before, so the value was overwritten in place. -/
theorem C13_insert_finite_map {K V : Type} [DecidableEq K] (HashKey : K → Nat)
    (h : ExtendibleHash K V) (hr : Reachable HashKey h) (fuel : Nat) (k : K) (v : V)
    (h1 : ExtendibleHash K V) (hins : Insert HashKey fuel h k v = some h1) :
    Find HashKey h1 k = some v ∧
    (∀ k1, k1 ≠ k → Find HashKey h1 k1 = Find HashKey h k1) ∧
    ((h1.bucketAt (GetBucketIndex HashKey h1 k)).slots_.map Prod.fst).count k = 1 ∧
    (∀ i, i < 2 ^ h1.global_depth_ → ∀ x, (k, x) ∈ (h1.bucketAt i).slots_ →
      x = v ∧ h1.dirAt i = h1.dirAt (GetBucketIndex HashKey h1 k)) ∧
    ((Find HashKey h k).isSome = true →
      h1.buckets_ = h.buckets_ ∧ h1.global_depth_ = h.global_depth_ ∧
      ∀ p, (h1.deref p).slots_.map Prod.fst = (h.deref p).slots_.map Prod.fst ∧
        (h1.deref p).local_depth_ = (h.deref p).local_depth_) := by
  have hwf := hr.wf
  obtain ⟨hwf1, hfind, _⟩ := Insert_spec HashKey hwf k v fuel hins
  have hk : Find HashKey h1 k = some v := by rw [hfind, if_pos rfl]
  have hi1 := GetBucketIndex_lt HashKey h1 k
  refine ⟨hk, ?_, ?_, ?_, ?_⟩
  · intro k1 hk1
    rw [hfind, if_neg hk1]
  · apply List.count_eq_one_of_mem (hwf1.nodup _ hi1)
    exact List.mem_map.2 ⟨(k, v), mem_of_find HashKey hk, rfl⟩
  · intro i hi x hx
    have hfx := hwf1.find_of_mem HashKey hi hx
    rw [hk] at hfx
    exact ⟨(Option.some.inj hfx).symm, hwf1.dir_of_mem HashKey hi hx⟩
  · intro hpres
    rw [Insert_present HashKey k v fuel hpres] at hins
    simp only [Option.some.injEq] at hins
    subst hins
    refine ⟨rfl, rfl, ?_⟩
    intro p
    have hp := hwf.ptr _ (GetBucketIndex_lt HashKey h k)
    refine ⟨?_, deref_setBucket_depth hp _ p⟩
    rw [deref_setBucket h _ _ p hp]
    by_cases e : p = h.dirAt (GetBucketIndex HashKey h k)
    · rw [if_pos e, e]
      simp only
      rw [overwrite_keys]
      rfl
    · rw [if_neg e]

/-- Witness of C13: the keys 0, ..., 7 inserted in a table of bucket size 2, the value of
key `i` being `10 * i`; `Find` delivers each inserted value. -/
theorem C13_insert_finite_map_witness :
    Reachable Scenario.identityHash Scenario.table7 ∧
    Insert Scenario.identityHash 65 Scenario.table7 7 70 = some Scenario.table8 ∧
    Find Scenario.identityHash Scenario.table8 7 = some 70 ∧
    (List.range 8).map (Find Scenario.identityHash Scenario.table8) =
      [some 0, some 10, some 20, some 30, some 40, some 50, some 60, some 70] :=
  ⟨Scenario.table7_reachable, Scenario.table8_eq,
    (C13_insert_finite_map Scenario.identityHash Scenario.table7 Scenario.table7_reachable
      65 7 70 Scenario.table8 Scenario.table8_eq).1,
    by decide⟩

/-- C14. In every reachable table `Remove(k)` returns `true` exactly when `Find(k)`
succeeded right before; afterwards `Find(k)` reports not-found and `Find` of every other
key is unchanged; the global depth, the directory and the local depth of every bucket
are unchanged, and so is the bucket size: buckets do not merge. -/
theorem C14_remove {K V : Type} [DecidableEq K] (HashKey : K → Nat)
    (h : ExtendibleHash K V) (hr : Reachable HashKey h) (k : K) :
    ((Remove HashKey h k).1 = true ↔ (Find HashKey h k).isSome = true) ∧
    Find HashKey (Remove HashKey h k).2 k = none ∧
    (∀ k1, k1 ≠ k → Find HashKey (Remove HashKey h k).2 k1 = Find HashKey h k1) ∧
    (Remove HashKey h k).2.global_depth_ = h.global_depth_ ∧
    (Remove HashKey h k).2.buckets_ = h.buckets_ ∧
    (∀ p, ((Remove HashKey h k).2.deref p).local_depth_ = (h.deref p).local_depth_) ∧
    (∀ i, (Remove HashKey h k).2.GetLocalDepth i = h.GetLocalDepth i) ∧
    (Remove HashKey h k).2.bucket_size_ = h.bucket_size_ := by
  have hwf := hr.wf
  have hdepth : ∀ p, ((Remove HashKey h k).2.deref p).local_depth_ =
      (h.deref p).local_depth_ := by
    intro p
    rw [Remove_snd]
    by_cases hs : (Find HashKey h k).isSome = true
    · rw [if_pos hs]
      exact deref_setBucket_depth (hwf.ptr _ (GetBucketIndex_lt HashKey h k)) _ p
    · rw [if_neg hs]
  have hdir : (Remove HashKey h k).2.buckets_ = h.buckets_ := by
    unfold Remove; simp only; split <;> rfl
  refine ⟨by rw [Remove_fst], ?_, ?_, Remove_global_depth HashKey h k, hdir, hdepth, ?_,
    Remove_bucket_size HashKey h k⟩
  · rw [Find_Remove HashKey hwf, if_pos rfl]
  · intro k1 hk1
    rw [Find_Remove HashKey hwf, if_neg hk1]
  · intro i
    unfold GetLocalDepth dirAt
    rw [hdir]
    exact hdepth _

/-- Witness of C14: in the table with the keys 0, ..., 7, `Remove(3)` returns `true`,
afterwards 3 is not found and 7, which shares its bucket, still is; `Remove(9)` of an
absent key returns `false`. -/
theorem C14_remove_witness :
    Reachable Scenario.identityHash Scenario.table8 ∧
    (Remove Scenario.identityHash Scenario.table8 3).1 = true ∧
    Find Scenario.identityHash (Remove Scenario.identityHash Scenario.table8 3).2 3 = none ∧
    Find Scenario.identityHash (Remove Scenario.identityHash Scenario.table8 3).2 7 =
      some 70 ∧
    (Remove Scenario.identityHash Scenario.table8 3).2.global_depth_ = 2 ∧
    (Remove Scenario.identityHash Scenario.table8 9).1 = false := by
  have h := C14_remove Scenario.identityHash Scenario.table8 Scenario.table8_reachable 3
  refine ⟨Scenario.table8_reachable, h.1.2 (by decide), h.2.1, ?_, ?_, by decide⟩
  · rw [h.2.2.1 7 (by decide)]; decide
  · rw [h.2.2.2.1]; decide

/-- C15. Directory well-formedness is an invariant. In every table reachable from the
initial table by calls of `Insert` that return and calls of `Remove`, the directory has
length `2 ^ g` for the global depth `g`; the bucket of every directory entry `i` has a
local depth `l ≤ g`; the entries that point to this bucket are exactly the indices below
`2 ^ g` that agree with `i` on their `l` low bits, and they are `2 ^ (g - l)` many. -/
theorem C15_directory_well_formed {K V : Type} [DecidableEq K] (HashKey : K → Nat)
    (h : ExtendibleHash K V) (hr : Reachable HashKey h) :
    h.GetNumBuckets = 2 ^ h.GetGlobalDepth ∧
    ∀ i, i < 2 ^ h.GetGlobalDepth →
      h.GetLocalDepth i ≤ h.GetGlobalDepth ∧
      (∀ j, j < 2 ^ h.GetGlobalDepth →
        (h.dirAt j = h.dirAt i ↔ j % 2 ^ h.GetLocalDepth i = i % 2 ^ h.GetLocalDepth i)) ∧
      h.pointing i = 2 ^ (h.GetGlobalDepth - h.GetLocalDepth i) := by
  have hwf := hr.wf
  refine ⟨hwf.len, ?_⟩
  intro i hi
  refine ⟨hwf.depth i hi, ?_, hwf.pointing HashKey hi⟩
  intro j hj
  exact hwf.same_bucket HashKey hi hj

/-- Witness of C15: the table of bucket size 2 after the keys 0, ..., 6 were inserted:
global depth 2 and four directory entries, each of them pointing to a bucket of its own,
of local depth 2. -/
theorem C15_directory_well_formed_witness :
    Reachable Scenario.identityHash Scenario.table7 ∧
    Scenario.table7.GetGlobalDepth = 2 ∧ Scenario.table7.GetNumBuckets = 4 ∧
    (∀ i, i < 2 ^ Scenario.table7.GetGlobalDepth →
      Scenario.table7.GetLocalDepth i ≤ Scenario.table7.GetGlobalDepth ∧
      (∀ j, j < 2 ^ Scenario.table7.GetGlobalDepth →
        (Scenario.table7.dirAt j = Scenario.table7.dirAt i ↔
          j % 2 ^ Scenario.table7.GetLocalDepth i =
            i % 2 ^ Scenario.table7.GetLocalDepth i)) ∧
      Scenario.table7.pointing i =
        2 ^ (Scenario.table7.GetGlobalDepth - Scenario.table7.GetLocalDepth i)) :=
  ⟨Scenario.table7_reachable, by decide, by decide,
    (C15_directory_well_formed Scenario.identityHash Scenario.table7
      Scenario.table7_reachable).2⟩

end cmudb

namespace cmudb

namespace Scenario

open ExtendibleHash

end Scenario

namespace ExtendibleHash

section InsertReturns

variable {K V : Type} [DecidableEq K] (HashKey : K → Nat)

/-- `Insert` of an absent key does not return when at least `bucket_size_` occupants
of the target bucket have the hash of the key. -/
theorem Insert_diverges {h : ExtendibleHash K V} (hwf : WF HashKey h) (key : K) (value : V)
    (habsent : Find HashKey h key = none)
    (hcol : h.bucket_size_ ≤ ((h.bucketAt (GetBucketIndex HashKey h key)).slots_.filter
      (fun it => decide (HashKey it.1 = HashKey key))).length)
    (fuel : Nat) : Insert HashKey fuel h key value = none := by
  rw [Insert_absent HashKey key value fuel habsent,
    InsertLoop_diverges HashKey key fuel h hwf hcol]
  rfl

end InsertReturns

end ExtendibleHash

open ExtendibleHash

/-- C16, the claim refuted: after the keys 0, ..., 7 were inserted in this order in an
empty table of bucket size 2, with the identity as hash, the global depth is not 3. -/
theorem C16_global_depth_is_not_three :
    ¬ ((insertAll Scenario.identityHash 65 Scenario.keys8
        (ExtendibleHash.new 2)).map GetGlobalDepth = some 3) := by
  decide

/-- C16 as amended: inserting the keys 0, ..., 7 in this order in an empty table of
bucket size 2, with the identity as hash, makes the global depth grow to 2 (it is 0, 0,
1, 1, 2, 2, 2, 2 after the successive calls), and afterwards each of the four directory
entries points to a bucket with at most 2 keys; the key 8 is the one whose insertion
brings the global depth to 3. -/
theorem C16_global_depth_grows_to_two :
    insertAll Scenario.identityHash 65 Scenario.keys8 (ExtendibleHash.new 2) =
      some Scenario.table8 ∧
    Scenario.table8.GetGlobalDepth = 2 ∧
    (List.range 9).map (fun n => (insertAll Scenario.identityHash 65 (Scenario.keys8.take n)
        (ExtendibleHash.new 2)).map GetGlobalDepth) =
      [some 0, some 0, some 0, some 1, some 1, some 2, some 2, some 2, some 2] ∧
    (∀ i, i < 2 ^ Scenario.table8.GetGlobalDepth →
      (Scenario.table8.bucketAt i).slots_.length ≤ 2) ∧
    (Insert Scenario.identityHash 65 Scenario.table8 8 80).map GetGlobalDepth = some 3 := by
  decide

end cmudb

namespace cmudb

open LRUReplacer

/-- C18, the source at the failing input. The scenario of the claim goes as claimed:
after insert 1, 2, 3 `Victim` returns 1, and after a further insert 1 `Victim` returns 2.
But after insert 1, insert 1 the replacer holds the value 1 and a third `Insert(1)` has
no defined result: it erases the list through the iterator the index kept from the first
insert, whose node the second insert unlinked; `Erase(1)` is undefined there as well. -/
theorem C18_third_insert_is_undefined :
    LRUReplacer.insertAll [1, 2, 3] (LRUReplacer.new : LRUReplacer Nat) =
      some Scenario.lru3 ∧
    Scenario.lru3.Victim.map Prod.fst = some (some 1) ∧
    ((Scenario.lru3.Victim.bind fun r => r.2.Insert 1).bind
      fun r => r.Victim).map Prod.fst = some (some 2) ∧
    LRUReplacer.insertAll [1, 1] (LRUReplacer.new : LRUReplacer Nat) =
      some Scenario.lruTwice ∧
    Scenario.lruTwice.values = [1] ∧
    Scenario.lruTwice.Insert 1 = none ∧
    Scenario.lruTwice.Erase 1 = none := by
  decide

/-- C19, the source at the failing input. After insert 1, insert 1 the list holds the
value 1 once, in node 1, and the index has the one key 1, so the size is the length of
the list; but the index still maps 1 to node 0, the node the second insert unlinked,
because `emplace` does not replace the entry of a key that is present: the replacer is
not consistent. -/
theorem C19_index_keeps_the_erased_node :
    LRUReplacer.insertAll [1, 1] (LRUReplacer.new : LRUReplacer Nat) =
      some Scenario.lruTwice ∧
    Scenario.lruTwice._queue_fifo = [(1, 1)] ∧
    Scenario.lruTwice.cacheFind 1 = some 0 ∧
    Scenario.lruTwice.Size = Scenario.lruTwice._queue_fifo.length ∧
    ¬ Scenario.lruTwice.WF := by
  refine ⟨by decide, by decide, by decide, by decide, ?_⟩
  intro hwf
  have h := (hwf.index 1 0).1 (by decide)
  revert h
  decide

end cmudb
